import Mathlib

/-!
Verification of the BOM construction core (`BOM.py`).

The embedding models `BOM.from_folder` and the query surface (`flat`,
`parts`, `assemblies`, `quantities`) over explicit state.  The Python
objects are identified as follows (equality of the Lean values coincides
with Python object identity):

* a Leaf `Item` is created once per catalog PN, so it is identified by its
  PN string;
* an `ItemLink` is created fresh per use, so it is identified by a
  creation counter (`nextLink`);
* a `BOM` node is created once per assembly table, so it is identified by
  its name.

The `anytree` behaviour that `BOM.py` relies on is part of the model:

* `NodeMixin.parent` setter: no-op when the new parent is the current
  parent (`if parent is not value`); otherwise it checks for loops
  (`LoopError` when the child occurs on the prospective parent's ancestor
  path), removes the child from its old parent's children tuple, sets the
  pointer and appends the child to the new parent's children tuple.
* `NodeMixin.children` setter: rejects a list containing the same node
  twice (`TreeError`), then detaches every current child (their parent
  becomes `None`) and attaches the new children in order (each one's
  parent becomes this node).
* `SymlinkNodeMixin.__getattr__`: reads of `PN` / `item_type` on an
  `ItemLink` are delegated to its target; `hash`/`==` are not delegated,
  so dict/Counter keys remain identity-based.
* `is_root` is `parent is None`.
* `BOM` defines `__len__` (and no `__bool__`), so the truthiness test
  `if part_.parent:` asks whether the owning node's children tuple is
  non-empty, not merely whether the parent is set.

`parts[row.PN]` on a missing key raises `KeyError`; the surrounding
`except IndexError` clause does not match `KeyError`, so the exception
escapes `from_folder`.  The model therefore aborts the build with
`BuildError.keyError` on an unresolved PN, and the `print`/`continue`
branch is dead code.
-/

/-- One table row: the `PN` cell plus the remaining columns as an opaque
field bag (the code passes them through as keyword attributes). -/
structure Row where
  PN : String
  fields : List (String × String) := []
deriving DecidableEq, Repr

/-- A named table of rows, as produced by the external loader
(`BOM.from_filename`: the name is the file's base name). -/
structure Table where
  name : String
  rows : List Row
deriving DecidableEq, Repr

/-- A child entry of a BOM node's `anytree` children tuple: a Leaf
`Item` (identified by PN), an `ItemLink` (identified by its creation
index, with its target PN), or a sub-assembly `BOM` (identified by
name). -/
inductive Child where
  | item : String → Child
  | link : Nat → String → Child
  | asm : String → Child
deriving DecidableEq, Repr

/-- Mutable state of a catalog `Item` object (its PN is the catalog
key): `parent` pointer, `item_type` (always `"part"`, set at creation in
`from_folder`), and the remaining source-row columns. -/
structure Item where
  parent : Option String := none
  item_type : String := "part"
  kwargs : List (String × String) := []
deriving DecidableEq, Repr

/-- Mutable state of an `ItemLink` object (keyed by creation index):
its target PN and its own parent pointer (the target's parent is not
touched when a link is parented). -/
structure ItemLink where
  target : String
  parent : Option String := none
deriving DecidableEq, Repr

/-- Mutable state of a `BOM` node object (keyed by its name): source
rows (`raw_data`), parent pointer, `item_type`, the `anytree` children
tuple, and the `parts_db` reference attached to the root on success. -/
structure BOMData where
  rows : List Row
  parent : Option String := none
  item_type : Option String := none
  childrenT : List Child := []
  parts_db : Option (List (String × Item)) := none
deriving DecidableEq, Repr

/-- The build heap: every `Item`, `ItemLink` and `BOM` object created by
`from_folder`, keyed as described above, plus the link-creation
counter. -/
structure St where
  catalog : List (String × Item) := []
  asms : List (String × BOMData) := []
  links : List (Nat × ItemLink) := []
  nextLink : Nat := 0
deriving DecidableEq, Repr

/-- Exceptions that can escape `BOM.from_folder`:
`keyError pn` is the uncaught `KeyError` from `parts[row.PN]`;
`treeError` is `anytree.TreeError` (same node twice in a children list);
`loopError` is `anytree.LoopError` (parent assignment would create a
cycle); `multipleRoots` is `Exception('Singular root BOM not found.')`;
`noRoot` is `Exception('No root BOM found.')`. -/
inductive BuildError where
  | keyError : String → BuildError
  | treeError : BuildError
  | loopError : BuildError
  | multipleRoots : BuildError
  | noRoot : BuildError
deriving DecidableEq, Repr

/-- Association-list lookup (model of Python dict read). -/
def alookup [DecidableEq α] (k : α) : List (α × β) → Option β
  | [] => none
  | p :: t => if p.1 = k then some p.2 else alookup k t

/-- Update the value stored at a key in place (no-op on absent keys). -/
def aset [DecidableEq α] (k : α) (f : β → β) (l : List (α × β)) : List (α × β) :=
  l.map (fun p => if p.1 = k then (p.1, f p.2) else p)

/-- Python dict write `d[k] = v`: replace in place when the key is
present (keeping its position), append otherwise. -/
def ainsert [DecidableEq α] (k : α) (v : β) (l : List (α × β)) : List (α × β) :=
  if (alookup k l).isSome then aset k (fun _ => v) l else l ++ [(k, v)]

/-- The current parent pointer of a child object. -/
def parentOf (st : St) : Child → Option String
  | .item pn => (alookup pn st.catalog).bind (·.parent)
  | .link lid _ => (alookup lid st.links).bind (·.parent)
  | .asm a => (alookup a st.asms).bind (·.parent)

/-- Overwrite a child object's parent pointer (the pointer half of
`anytree`'s attach/detach). -/
def setPtr (st : St) (c : Child) (v : Option String) : St :=
  match c with
  | .item pn => { st with catalog := aset pn (fun d => { d with parent := v }) st.catalog }
  | .link lid _ => { st with links := aset lid (fun d => { d with parent := v }) st.links }
  | .asm a => { st with asms := aset a (fun d => { d with parent := v }) st.asms }

/-- Remove a child from a node's children tuple (`anytree.__detach`:
the tuple is rebuilt without the child). -/
def removeFromTuple (st : St) (p : String) (c : Child) : St :=
  { st with asms := aset p (fun d => { d with childrenT := d.childrenT.filter (· ≠ c) }) st.asms }

/-- Append a child to a node's children tuple (`anytree.__attach`). -/
def appendToTuple (st : St) (p : String) (c : Child) : St :=
  { st with asms := aset p (fun d => { d with childrenT := d.childrenT ++ [c] }) st.asms }

/-- The ancestor path of a node (`anytree.iter_path_reverse`, restricted
to BOM nodes: starts at the node itself, follows parent pointers).  The
fuel bounds the walk; `st.asms.length + 1` covers every acyclic chain,
and chains stay acyclic throughout a build because every parent
assignment performs this loop check first. -/
def ancestorChain (st : St) : Nat → Option String → List String
  | 0, _ => []
  | fuel + 1, o =>
    match o with
    | none => []
    | some a => a :: ancestorChain st fuel ((alookup a st.asms).bind (·.parent))

/-- `anytree.NodeMixin.__check_loop`: setting `c.parent = v` raises
`LoopError` when `c` occurs on `v`'s ancestor path (which includes `v`
itself).  Only a BOM node can occur on that path. -/
def checkLoop (st : St) (c : Child) (v : Option String) : Except BuildError Unit :=
  match v, c with
  | some p, .asm a =>
    if a ∈ ancestorChain st (st.asms.length + 1) (some p) then .error .loopError else .ok ()
  | _, _ => .ok ()

/-- Detach half of a parent assignment: remove the child from its
current parent's children tuple (no-op when it has no parent). -/
def detachStep (st : St) (c : Child) : St :=
  match parentOf st c with
  | some p => removeFromTuple st p c
  | none => st

/-- The state change of a (non-no-op, loop-free) parent assignment:
detach from the old parent's tuple, set the pointer, attach to the new
parent's tuple. -/
def setParentForce (st : St) (c : Child) (v : Option String) : St :=
  match v with
  | some p => appendToTuple (setPtr (detachStep st c) c (some p)) p c
  | none => setPtr (detachStep st c) c none

/-- `anytree.NodeMixin.parent` setter: no-op when the parent is
unchanged; otherwise loop check, then detach / set pointer / attach. -/
def setParent (st : St) (c : Child) (v : Option String) : Except BuildError St :=
  if parentOf st c = v then .ok st
  else
    match checkLoop st c v with
    | .error e => .error e
    | .ok _ => .ok (setParentForce st c v)

/-- The children tuple of a BOM node (empty for unknown names). -/
def childrenOf (st : St) (b : String) : List Child :=
  match alookup b st.asms with
  | some d => d.childrenT
  | none => []

/-- `anytree` children deleter: detach every current child, iterating a
snapshot of the tuple. -/
def detachAll (st : St) (b : String) : Except BuildError St :=
  (childrenOf st b).foldlM (fun s c => setParent s c none) st

/-- Attach phase of the `anytree` children setter: `child.parent = self`
for each new child in order. -/
def attachAll (st : St) (b : String) (cs : List Child) : Except BuildError St :=
  cs.foldlM (fun s c => setParent s c (some b)) st

/-- `anytree.NodeMixin.children` setter (`bom.children = children`):
reject duplicates (`TreeError`), detach the old children, attach the new
ones in order. -/
def setChildren (st : St) (b : String) (cs : List Child) : Except BuildError St :=
  if cs.Nodup then
    match detachAll st b with
    | .error e => .error e
    | .ok st1 => attachAll st1 b cs
  else .error .treeError

/-- Truthiness of `part_.parent` in `if part_.parent:`.  `None` is
falsy; a `BOM` object defines `__len__` (and no `__bool__`), so its
truthiness is whether its children tuple is non-empty. -/
def ownerTruthy (st : St) : Option String → Bool
  | none => false
  | some p =>
    match alookup p st.asms with
    | some d => !d.childrenT.isEmpty
    | none => false

/-- One iteration of the row loop in `BOM.from_folder`, acting on the
heap and the local `children` list:

* `row.PN in assemblies`: set the sub-assembly's parent to the current
  node, tag it `'assembly'`, append it;
* otherwise `parts[row.PN]`: a missing key raises `KeyError` (the
  `except IndexError` clause never matches, so the build aborts);
  an owned part (truthy `part_.parent`) yields a fresh `ItemLink`
  appended in its place; an unowned part is appended itself. -/
def resolveRow (st : St) (cur : String) (acc : List Child) (row : Row) :
    Except BuildError (St × List Child) :=
  if (alookup row.PN st.asms).isSome then
    match setParent st (.asm row.PN) (some cur) with
    | .error e => .error e
    | .ok st1 =>
      let st2 := { st1 with
        asms := aset row.PN (fun d => { d with item_type := some "assembly" }) st1.asms }
      .ok (st2, acc ++ [.asm row.PN])
  else
    match alookup row.PN st.catalog with
    | none => .error (.keyError row.PN)
    | some it =>
      if ownerTruthy st it.parent then
        .ok ({ st with
                links := st.links ++ [(st.nextLink, { target := row.PN, parent := none })],
                nextLink := st.nextLink + 1 },
             acc ++ [.link st.nextLink row.PN])
      else
        .ok (st, acc ++ [.item row.PN])

/-- The full row loop of one assembly, producing the local `children`
list. -/
def resolveRows (st : St) (cur : String) (rows : List Row) :
    Except BuildError (St × List Child) :=
  rows.foldlM (fun acc row => resolveRow acc.1 cur acc.2 row) (st, [])

/-- Resolve one assembly: run its row loop, then `bom.children =
children`. -/
def resolveAsm (st : St) (name : String) : Except BuildError St :=
  let rows := match alookup name st.asms with
    | some d => d.rows
    | none => []
  match resolveRows st name rows with
  | .error e => .error e
  | .ok (st1, cs) => setChildren st1 name cs

/-- The `for name,bom in assemblies.items()` loop: assemblies are
processed in dict insertion order (the input file order); the key list
is fixed before the loop. -/
def resolveAll (st : St) : Except BuildError St :=
  (st.asms.map Prod.fst).foldlM resolveAsm st

/-- `parts = { row.PN: Item(...) for ... }`: the master-table dict
comprehension; a repeated PN silently overwrites the earlier entry
(Python dict write keeps the original key position). -/
def mkCatalog (master : List Row) : List (String × Item) :=
  master.foldl
    (fun acc row => ainsert row.PN { parent := none, item_type := "part", kwargs := row.fields } acc)
    []

/-- The `assemblies` dict: one fresh `BOM` node per assembly table, in
input order. -/
def initAsms (tables : List Table) : List (String × BOMData) :=
  tables.foldl
    (fun acc t =>
      ainsert t.name { rows := t.rows, parent := none, item_type := none,
                       childrenT := [], parts_db := none } acc)
    []

/-- The heap right after the catalog and the assembly nodes are
created, before the resolution loop. -/
def initSt (master : List Row) (tables : List Table) : St :=
  { catalog := mkCatalog master, asms := initAsms tables, links := [], nextLink := 0 }

/-- The root scan at the end of `from_folder`: collect the parentless
assembly nodes (`bom.is_root`), fail on more than one
(`'Singular root BOM not found.'`), then on none
(`'No root BOM found.'`); otherwise attach `parts_db` to the root and
return it. -/
def findRoot (st : St) : Except BuildError (String × St) :=
  let roots := (st.asms.filter (fun p => p.2.parent = none)).map Prod.fst
  if roots.length > 1 then .error .multipleRoots
  else
    match roots with
    | [] => .error .noRoot
    | r :: _ =>
      .ok (r, { st with asms := aset r (fun d => { d with parts_db := some st.catalog }) st.asms })

namespace BOM

/-- `BOM.from_folder`, starting from the already-loaded master rows and
assembly tables (file globbing and Excel reading are the external
loader's concern). -/
def from_folder (master : List Row) (tables : List Table) :
    Except BuildError (String × St) :=
  match resolveAll (initSt master tables) with
  | .error e => .error e
  | .ok st => findRoot st

/-- `item.item_type` as read on a child object: direct for `Item` and
`BOM`, delegated to the target for `ItemLink`. -/
def childType (st : St) : Child → Option String
  | .item pn => (alookup pn st.catalog).map (·.item_type)
  | .link _ t => (alookup t st.catalog).map (·.item_type)
  | .asm a => (alookup a st.asms).bind (·.item_type)

/-- The `parts` property: direct children whose `item_type` is
`'part'`. -/
def parts (st : St) (b : String) : List Child :=
  (childrenOf st b).filter (fun c => childType st c = some "part")

/-- The `assemblies` property: direct children whose `item_type` is
`'assembly'`. -/
def assemblies (st : St) (b : String) : List Child :=
  (childrenOf st b).filter (fun c => childType st c = some "assembly")

/-- The `flat` property, with explicit recursion fuel: this node's
parts, then each child assembly flattened and concatenated in order. -/
def flatFuel (st : St) : Nat → String → List Child
  | 0, _ => []
  | fuel + 1, b =>
    parts st b ++
      ((assemblies st b).map (fun c =>
        match c with
        | .asm a => flatFuel st fuel a
        | _ => [])).flatten

/-- The `flat` property.  `st.asms.length + 1` fuel covers every chain
of distinct assemblies; the loop check keeps parent chains acyclic, so
this computes the full recursion of the source. -/
def flat (st : St) (b : String) : List Child :=
  flatFuel st (st.asms.length + 1) b

end BOM

/-- First-occurrence deduplication with an accumulator of already-seen
keys, matching the key order of a Python `Counter`/`dict` built by
iterating a list. -/
def pyDedupAux [DecidableEq α] (seen : List α) : List α → List α
  | [] => []
  | a :: t => if a ∈ seen then pyDedupAux seen t else a :: pyDedupAux (a :: seen) t

/-- First-occurrence deduplication, matching the key order of a Python
`Counter`/`dict` built from a list. -/
def pyDedup [DecidableEq α] (l : List α) : List α :=
  pyDedupAux [] l

namespace BOM

/-- The `quantities` property: `dict(Counter(self.flat))`.  Keys are the
flattened objects themselves (identity-based hashing: an `ItemLink` and
its target `Item` are distinct keys), in first-occurrence order. -/
def quantities (st : St) (b : String) : List (Child × Nat) :=
  (pyDedup (flat st b)).map (fun c => (c, (flat st b).count c))

end BOM

/-- The PN attribute reachable on a flattened element: an `Item`'s own
PN, an `ItemLink`'s target PN (attribute delegation); a `BOM` node has
no PN attribute. -/
def childPN : Child → Option String
  | .item pn => some pn
  | .link _ t => some t
  | .asm _ => none

/-- Whether a child entry is a BOM (assembly) node. -/
def childIsAsm : Child → Bool
  | .asm _ => true
  | _ => false

/-- `item_type` of an assembly node by name. -/
def asmType (st : St) (a : String) : Option String :=
  (alookup a st.asms).bind (·.item_type)

/-- Parent pointer of an assembly node by name. -/
def asmParent (st : St) (a : String) : Option String :=
  (alookup a st.asms).bind (·.parent)

/-- Number of rows bearing a given PN across all assembly tables of a
build input. -/
def rowOccurrences (tables : List Table) (pn : String) : Nat :=
  (tables.map (fun t => (t.rows.filter (fun r => r.PN = pn)).length)).sum

/-- Well-formedness of the assembly nodes maintained by the resolution
loop over a fixed key set: the key list is unchanged; a node's
`item_type` is `'assembly'` exactly when its parent pointer is set (and
unset, as at creation, otherwise); parent pointers refer to existing
assembly nodes. -/
def AsmWF (keys0 : List String) (st : St) : Prop :=
  st.asms.map Prod.fst = keys0 ∧
  (∀ a, a ∈ keys0 →
    asmType st a = (if (asmParent st a).isSome then some "assembly" else none)) ∧
  (∀ a p, asmParent st a = some p → p ∈ keys0)

/-- Example A of the spec: master catalog `P1`, `P2`; `TOP = [P1, SUB]`,
`SUB = [P2, P1]`. -/
def exA_master : List Row := [⟨"P1", []⟩, ⟨"P2", []⟩]

/-- Example A assembly tables, in processing (file) order. -/
def exA_tables : List Table :=
  [⟨"TOP", [⟨"P1", []⟩, ⟨"SUB", []⟩]⟩, ⟨"SUB", [⟨"P2", []⟩, ⟨"P1", []⟩]⟩]

/-- The heap of the successful Example A build. -/
def exA_st : St :=
  match BOM.from_folder exA_master exA_tables with
  | .ok (_, st) => st
  | .error _ => {}

/-- The Example A heap right after resolution, before the root scan. -/
def exA_resolved : St :=
  match resolveAll (initSt exA_master exA_tables) with
  | .ok st => st
  | .error _ => {}

/-- Example C of the spec: `P9` is neither an assembly nor in the
catalog. -/
def exC_master : List Row := [⟨"P1", []⟩]

/-- Example C assembly tables. -/
def exC_tables : List Table := [⟨"TOP", [⟨"P1", []⟩, ⟨"P9", []⟩]⟩]

/-- Example D of the spec: assembly `A` referenced as a child of both
`X` and `Y` (with root `R` above them). -/
def exD_tables : List Table :=
  [⟨"R", [⟨"X", []⟩, ⟨"Y", []⟩]⟩, ⟨"X", [⟨"A", []⟩]⟩, ⟨"Y", [⟨"A", []⟩]⟩, ⟨"A", []⟩]

/-- The heap of the (successful) Example D build. -/
def exD_st : St :=
  match BOM.from_folder [] exD_tables with
  | .ok (_, st) => st
  | .error _ => {}

/-- A master table in which PN `P1` appears twice, with distinguishable
extra columns. -/
def exDup_master : List Row := [⟨"P1", [("D", "a")]⟩, ⟨"P1", [("D", "b")]⟩]

/-- A single assembly consuming the duplicated part. -/
def exDup_tables : List Table := [⟨"TOP", [⟨"P1", []⟩]⟩]

/-- The heap of the (successful) duplicate-master-PN build. -/
def exDup_st : St :=
  match BOM.from_folder exDup_master exDup_tables with
  | .ok (_, st) => st
  | .error _ => {}

/-- A build input whose single assembly lists the same part PN twice. -/
def exTwice_master : List Row := [⟨"P1", []⟩]

/-- The assembly table with `P1` in two rows. -/
def exTwice_tables : List Table := [⟨"TOP", [⟨"P1", []⟩, ⟨"P1", []⟩]⟩]

/-- A small heap for exercising the already-owned-part branch of the
row loop: `P1` is owned by `X`, whose children tuple holds it. -/
def exOwned_st : St :=
  { catalog := [("P1", { parent := some "X", item_type := "part", kwargs := [] })],
    asms := [("X", { rows := [], parent := none, item_type := none,
                     childrenT := [Child.item "P1"], parts_db := none })],
    links := [], nextLink := 0 }

/-- The assembly key list (dict key order). -/
def asmKeys (st : St) : List String :=
  st.asms.map Prod.fst

/-- The parent pointer of a catalog Leaf Item. -/
def itemParent (st : St) (pn : String) : Option String :=
  (alookup pn st.catalog).bind (·.parent)

/-- Iterate the assembly parent pointer. -/
def parentIter (st : St) : Nat → Option String → Option String
  | 0, o => o
  | n + 1, o => parentIter st n (o.bind (asmParent st))

/-- Every ancestor chain dies within the given number of steps (the
loop check keeps the parent relation acyclic, so chains of distinct
assemblies are bounded by the number of assemblies). -/
def TermB (st : St) (bound : Nat) : Prop :=
  ∀ a : String, parentIter st bound (some a) = none

/-- A child value that denotes an actual heap object: an `Item` whose
PN is in the catalog, an `ItemLink` whose creation index is stored with
exactly that target, or a `BOM` node whose name exists. -/
def canonical (st : St) : Child → Prop
  | .item pn => pn ∈ st.catalog.map Prod.fst
  | .link lid t => ∃ l, alookup lid st.links = some l ∧ l.target = t
  | .asm a => a ∈ st.asms.map Prod.fst

/-- Number of stored `ItemLink` objects targeting a PN. -/
def linksTargeting (st : St) (pn : String) : Nat :=
  (st.links.filter (fun l => l.2.target = pn)).length

/-- 1 when the catalog Leaf Item of a PN is owned, 0 otherwise. -/
def ownedBit (st : St) (pn : String) : Nat :=
  if (itemParent st pn).isSome then 1 else 0

/-- Number of direct children of a node whose reachable PN is the given
one (its `Item`, plus any aliases targeting it). -/
def pnChildCount (st : St) (pn : String) (b : String) : Nat :=
  ((childrenOf st b).filter (fun c => childPN c = some pn)).length

/-- Occurrences of a PN among the direct children of all assembly
nodes. -/
def totalPN (st : St) (pn : String) : Nat :=
  ((asmKeys st).map (pnChildCount st pn)).sum

/-- The (fueled) ancestor path of an assembly, the node itself
included. -/
def ancList (st : St) (a : String) : List String :=
  ancestorChain st (st.asms.length + 1) (some a)

/-- The assemblies of the build whose ancestor path passes through a
node: the node's subtree, itself included. -/
def desc (st : St) (b : String) : List String :=
  (asmKeys st).filter (fun a => b ∈ ancList st a)

/-- The names of the sub-assembly children in a node's tuple. -/
def asmChildrenNames (st : St) (b : String) : List String :=
  (childrenOf st b).filterMap (fun c =>
    match c with
    | .asm a => some a
    | _ => none)

/-- Whether a child is an `ItemLink` targeting the given PN. -/
def isLinkPN (pn : String) : Child → Bool
  | .link _ t => t = pn
  | _ => false

/-- The stored source rows of an assembly node. -/
def rowsOf (st : St) (b : String) : List Row :=
  ((alookup b st.asms).map (·.rows)).getD []

/-- Number of stored rows of an assembly bearing a PN. -/
def rowCountAt (st : St) (b pn : String) : Nat :=
  ((rowsOf st b).filter (fun r => r.PN = pn)).length

/-- The heap well-formedness maintained by the resolution loop (on top
of `AsmWF`): the key sets are fixed; every canonical child sits in the
children tuple of exactly its parent (once) and in no other tuple;
tuple members denote actual heap objects; parent pointers land on
existing assembly nodes; parent chains terminate (the loop check keeps
them acyclic); catalog items are `'part'`-typed; stored links target
catalog PNs; stored link indices are below the creation counter. -/
structure BuildInv (keys0 catKeys0 : List String) (st : St) : Prop where
  keysEq : asmKeys st = keys0
  catKeysEq : st.catalog.map Prod.fst = catKeys0
  tc : ∀ c, canonical st c → ∀ b,
    (childrenOf st b).count c = (if parentOf st c = some b then 1 else 0)
  refs : ∀ b c, c ∈ childrenOf st b → canonical st c
  pk : ∀ c b, parentOf st c = some b → b ∈ keys0
  term : TermB st (keys0.length + 1)
  ctypes : ∀ pn d, alookup pn st.catalog = some d → d.item_type = "part"
  ltgt : ∀ lid l, alookup lid st.links = some l → l.target ∈ catKeys0
  lfresh : ∀ lid, lid ∈ st.links.map Prod.fst → lid < st.nextLink
  lnd : (st.links.map Prod.fst).Nodup

/-- The fresh `BOM` node record created for an assembly table. -/
def mkBOMData (t : Table) : BOMData :=
  { rows := t.rows, parent := none, item_type := none, childrenT := [], parts_db := none }

/-- Number of steps below the fuel bound at which the parent chain of
an assembly passes through a given node. -/
def hitCount (st : St) (a b : String) (fuel : Nat) : Nat :=
  ((List.range fuel).filter (fun k => parentIter st k (some a) = some b)).length

/-- Number of steps below the fuel bound at which the parent chain of
an assembly sits on a direct child of the given node. -/
def hitPar (st : St) (a b : String) (fuel : Nat) : Nat :=
  ((List.range fuel).filter
    (fun k => (parentIter st k (some a)).bind (asmParent st) = some b)).length

/-! ### Association-list lemmas -/

theorem alookup_append [DecidableEq α] (a : α) (l₁ l₂ : List (α × β)) :
    alookup a (l₁ ++ l₂) =
      match alookup a l₁ with
      | some v => some v
      | none => alookup a l₂ := by
  induction l₁ with
  | nil => simp [alookup]
  | cons p t ih =>
    by_cases h : p.1 = a <;> simp [alookup, h, ih]

theorem alookup_aset [DecidableEq α] (k : α) (f : β → β) (l : List (α × β)) (a : α) :
    alookup a (aset k f l) = if a = k then (alookup k l).map f else alookup a l := by
  induction l with
  | nil => simp [alookup, aset]
  | cons p t ih =>
    have hcons : aset k f (p :: t) = (if p.1 = k then (p.1, f p.2) else p) :: aset k f t := rfl
    rw [hcons]
    by_cases hpk : p.1 = k
    · by_cases hak : a = k
      · subst hak
        simp [alookup, hpk]
      · have hpa : ¬p.1 = a := fun h => hak (h.symm.trans hpk)
        have hka : ¬k = a := fun h => hak h.symm
        simp [alookup, hpk, hak, hpa, hka, ih]
    · by_cases hpa : p.1 = a
      · have hak : ¬a = k := fun h => hpk (hpa.trans h)
        simp [alookup, hpk, hpa, hak]
      · simp [alookup, hpk, hpa, ih]

theorem alookup_ainsert [DecidableEq α] (k : α) (v : β) (l : List (α × β)) (a : α) :
    alookup a (ainsert k v l) = if a = k then some v else alookup a l := by
  unfold ainsert
  by_cases hs : (alookup k l).isSome
  · obtain ⟨w, hw⟩ := Option.isSome_iff_exists.mp hs
    simp [hs, alookup_aset, hw]
  · simp only [hs, if_false, Bool.false_eq_true, alookup_append]
    by_cases hak : a = k
    · subst hak
      have : alookup a l = none := Option.not_isSome_iff_eq_none.mp hs
      simp [this, alookup]
    · cases h : alookup a l <;> simp [alookup, hak, Ne.symm hak]

theorem alookup_eq_none_iff [DecidableEq α] (a : α) (l : List (α × β)) :
    alookup a l = none ↔ a ∉ l.map Prod.fst := by
  induction l with
  | nil => simp [alookup]
  | cons p t ih =>
    by_cases h : p.1 = a
    · simp [alookup, h, List.mem_cons]
    · simp [alookup, h, List.mem_cons, ih, Ne.symm h]

theorem alookup_isSome_iff [DecidableEq α] (a : α) (l : List (α × β)) :
    (alookup a l).isSome ↔ a ∈ l.map Prod.fst := by
  rw [Option.isSome_iff_ne_none, ne_eq, alookup_eq_none_iff, not_not]

theorem alookup_mem [DecidableEq α] {a : α} {l : List (α × β)} {b : β}
    (h : alookup a l = some b) : (a, b) ∈ l := by
  induction l with
  | nil => simp [alookup] at h
  | cons p t ih =>
    obtain ⟨x, y⟩ := p
    by_cases hp : x = a
    · subst hp
      simp [alookup] at h
      subst h
      exact List.mem_cons_self _ _
    · simp [alookup, hp] at h
      exact List.mem_cons_of_mem _ (ih h)

theorem aset_keys [DecidableEq α] (k : α) (f : β → β) (l : List (α × β)) :
    (aset k f l).map Prod.fst = l.map Prod.fst := by
  induction l with
  | nil => rfl
  | cons p t ih =>
    have hcons : aset k f (p :: t) = (if p.1 = k then (p.1, f p.2) else p) :: aset k f t := rfl
    rw [hcons]
    by_cases h : p.1 = k <;> simp [h, ih]

theorem alookup_foldl_ainsert [DecidableEq κ] (key : α → κ) (val : α → β)
    (l : List α) (init : List (κ × β)) (a : κ) :
    alookup a (l.foldl (fun acc x => ainsert (key x) (val x) acc) init) =
      match l.reverse.find? (fun x => decide (key x = a)) with
      | some x => some (val x)
      | none => alookup a init := by
  induction l using List.reverseRecOn with
  | nil => simp
  | append_singleton t x ih =>
    rw [List.foldl_append]
    simp only [List.foldl_cons, List.foldl_nil, List.reverse_append, List.reverse_cons,
      List.reverse_nil, List.nil_append, List.cons_append, List.find?_cons]
    by_cases hx : key x = a
    · simp [alookup_ainsert, hx]
    · simp [alookup_ainsert, hx, Ne.symm hx, ih]

theorem alookup_mkCatalog (master : List Row) (pn : String) :
    alookup pn (mkCatalog master) =
      (master.reverse.find? (fun r => decide (r.PN = pn))).map
        (fun r => { parent := none, item_type := "part", kwargs := r.fields : Item }) := by
  unfold mkCatalog
  rw [alookup_foldl_ainsert]
  cases master.reverse.find? (fun r => decide (r.PN = pn)) <;> simp [alookup]

theorem alookup_initAsms (tables : List Table) (a : String) :
    alookup a (initAsms tables) =
      (tables.reverse.find? (fun t => decide (t.name = a))).map
        (fun t => { rows := t.rows, parent := none, item_type := none,
                    childrenT := [], parts_db := none : BOMData }) := by
  unfold initAsms
  rw [alookup_foldl_ainsert]
  cases tables.reverse.find? (fun t => decide (t.name = a)) <;> simp [alookup]

/-! ### Concrete claim theorems -/

/-- Claim C1 (code bug): the spec — and the code's own
`print('Unable to find part ...')`/`continue` handler — intend a missing
PN to be reported and its row skipped with the build continuing, but the
handler catches `IndexError` while the dict lookup `parts[row.PN]`
raises `KeyError`, so the exception escapes and the whole build aborts.
At Example C (`P9` neither an assembly nor in the catalog) the build
returns the uncaught `KeyError` instead of a tree. -/
theorem c1_unresolved_pn_aborts_build :
    BOM.from_folder exC_master exC_tables = .error (.keyError "P9") := rfl

/-- Claim C2 counterexample: at Example A, `P1` appears in two assembly
rows and flattening indeed yields two occurrences (the Leaf Item and one
Item Alias), but the Quantity Report does not map the identifier to 2:
`Counter` keys are the objects themselves (identity-based hashing), so
the Leaf Item and the alias are separate entries and every entry has
count 1 — no entry reaches 2. -/
theorem c2_counterexample :
    rowOccurrences exA_tables "P1" = 2 ∧
    BOM.from_folder exA_master exA_tables = .ok ("TOP", exA_st) ∧
    (BOM.flat exA_st "TOP").filter (fun c => childPN c = some "P1")
      = [Child.item "P1", Child.link 0 "P1"] ∧
    BOM.quantities exA_st "TOP"
      = [(Child.item "P1", 1), (Child.item "P2", 1), (Child.link 0 "P1", 1)] ∧
    (BOM.quantities exA_st "TOP").filter (fun q => 2 ≤ q.2) = [] :=
  ⟨rfl, rfl, rfl, rfl, rfl⟩

/-- Claim C3 counterexample: in Example D the sub-assembly `A` is listed
as a child by both `X` and `Y` (shown by the first conjunct), yet the
build does not fail — no `AmbiguousParentError` exists in the code, the
parent of `A` is silently reassigned and the build returns root `R`. -/
theorem c3_counterexample :
    exD_tables.map (fun t => (t.name, t.rows.filter (fun r => r.PN = "A")))
      = [("R", []), ("X", [⟨"A", []⟩]), ("Y", [⟨"A", []⟩]), ("A", [])] ∧
    BOM.from_folder [] exD_tables = .ok ("R", exD_st) :=
  ⟨rfl, rfl⟩

/-- Claim C3 amended: when a sub-assembly is referenced as a child by
two different parent assemblies, the build does not fail and no
`AmbiguousParentError` is raised (the code has no such check); the
reference processed second silently reassigns the sub-assembly's parent
and removes it from the first parent's children.  At Example D, `A` ends
up parented by `Y` (processed after `X`), `X` is left with no children,
and the build returns the root `R`. -/
theorem c3_amended :
    BOM.from_folder [] exD_tables = .ok ("R", exD_st) ∧
    asmParent exD_st "A" = some "Y" ∧
    asmType exD_st "A" = some "assembly" ∧
    childrenOf exD_st "X" = [] ∧
    childrenOf exD_st "Y" = [Child.asm "A"] ∧
    childrenOf exD_st "R" = [Child.asm "X", Child.asm "Y"] :=
  ⟨rfl, rfl, rfl, rfl, rfl, rfl⟩

/-- Claim C4 counterexample: with `P1` appearing in two master rows, the
catalog build does not fail — there is no `DuplicatePartError` anywhere
in the code — and the build returns a tree whose catalog silently kept
the second `P1` row (`D = "b"`). -/
theorem c4_counterexample :
    BOM.from_folder exDup_master exDup_tables = .ok ("TOP", exDup_st) ∧
    alookup "P1" exDup_st.catalog
      = some { parent := some "TOP", item_type := "part", kwargs := [("D", "b")] } :=
  ⟨rfl, rfl⟩

/-- Claim C4 amended: building the Part Catalog never fails; when the
same PN appears in several master rows the dict comprehension silently
keeps the last occurrence (last-write-wins), and a catalog mapping is
always returned: for every master table and PN, the catalog entry is the
`Item` made from the last row bearing that PN (and absent only when no
row bears it). -/
theorem c4_amended (master : List Row) (pn : String) :
    alookup pn (mkCatalog master) =
      (master.reverse.find? (fun r => decide (r.PN = pn))).map
        (fun r => { parent := none, item_type := "part", kwargs := r.fields : Item }) :=
  alookup_mkCatalog master pn

/-- Claim C6 counterexample: at Example A the Quantity Report is not
`[P1 : 2, P2 : 1]`: its keys are the three flattened objects themselves
and every count is 1 — no count of 2 occurs anywhere. -/
theorem c6_counterexample :
    BOM.from_folder exA_master exA_tables = .ok ("TOP", exA_st) ∧
    (BOM.quantities exA_st "TOP").map Prod.snd = [1, 1, 1] ∧
    2 ∉ (BOM.quantities exA_st "TOP").map Prod.snd :=
  ⟨rfl, rfl, by decide⟩

/-- Claim C6 amended: at Example A the build succeeds with root `TOP`
and flattening yields the identifier sequence `[P1, P2, P1]` (TOP's
direct `P1`, then `SUB` expanded in row order) exactly as claimed, but
the Quantity Report keys by object identity: it has three entries — the
`P1` Leaf Item, the `P2` Leaf Item and the `P1` alias — each with count
1, rather than `[P1 : 2, P2 : 1]`. -/
theorem c6_amended :
    BOM.from_folder exA_master exA_tables = .ok ("TOP", exA_st) ∧
    BOM.flat exA_st "TOP" = [Child.item "P1", Child.item "P2", Child.link 0 "P1"] ∧
    (BOM.flat exA_st "TOP").map childPN = [some "P1", some "P2", some "P1"] ∧
    BOM.quantities exA_st "TOP"
      = [(Child.item "P1", 1), (Child.item "P2", 1), (Child.link 0 "P1", 1)] :=
  ⟨rfl, rfl, rfl, rfl⟩

/-- Claim C9 counterexample: in the successful Example A build the root
`TOP` is an assembly node of the returned tree, yet its item kind is
`None`, not `'assembly'` — `item_type` is only ever set on a node when
some other assembly references it as a child, which never happens to the
root. -/
theorem c9_counterexample :
    BOM.from_folder exA_master exA_tables = .ok ("TOP", exA_st) ∧
    asmType exA_st "TOP" = none ∧
    asmType exA_st "TOP" ≠ some "assembly" :=
  ⟨rfl, rfl, by decide⟩

/-- Claim C10 counterexample: with the same part PN in two rows of one
assembly, both rows do append the same `Item` instance to the pending
child list, but the claim's conclusion that both become children of the
assembly is never reached: `anytree` rejects a children list containing
the same node twice, so `bom.children = children` raises `TreeError`
and the build aborts. -/
theorem c10_counterexample :
    BOM.from_folder exTwice_master exTwice_tables = .error .treeError := rfl

/-! ### Claims C5 and C7 -/

/-- Claim C5 (confirmed): after resolution, the root scan of
`from_folder` returns the unique parentless assembly node as the root
with the Part Catalog attached to it; with zero parentless nodes it
fails with the no-root error and with more than one it fails with the
multiple-roots error, returning no tree in either failure case.  The
last conjunct records that `from_folder` is exactly resolution followed
by this scan. -/
theorem c5_root_cardinality (st : St) :
    (∀ r, (st.asms.filter (fun p => p.2.parent = none)).map Prod.fst = [r] →
      findRoot st = .ok
        (r, { st with asms := aset r (fun d => { d with parts_db := some st.catalog }) st.asms })) ∧
    ((st.asms.filter (fun p => p.2.parent = none)).map Prod.fst = [] →
      findRoot st = .error .noRoot) ∧
    (1 < ((st.asms.filter (fun p => p.2.parent = none)).map Prod.fst).length →
      findRoot st = .error .multipleRoots) ∧
    (∀ master tables, BOM.from_folder master tables =
      match resolveAll (initSt master tables) with
      | .error e => .error e
      | .ok st1 => findRoot st1) := by
  refine ⟨?_, ?_, ?_, fun master tables => rfl⟩
  · intro r hr
    simp only [findRoot, hr]
    rfl
  · intro hr
    simp only [findRoot, hr]
    rfl
  · intro hr
    simp only [findRoot, if_pos hr]

/-- Witness for C5: at the resolved Example A state exactly `TOP` is
parentless, and the scan returns it with the catalog attached. -/
theorem c5_witness :
    findRoot exA_resolved = .ok
      ("TOP", { exA_resolved with
                asms := aset "TOP" (fun d => { d with parts_db := some exA_resolved.catalog })
                  exA_resolved.asms }) :=
  (c5_root_cardinality exA_resolved).1 "TOP" (by rfl)

/-- Claim C7 (confirmed): when an assembly row's PN is not an assembly
name and resolves to a catalog Leaf Item that already has an owning
parent (truthy `part_.parent`), the row step appends a newly created
Item Alias targeting that PN as the current assembly's pending child and
leaves the catalog — in particular the Leaf Item's parent pointer —
unchanged; the fresh link starts with no parent of its own. -/
theorem c7_alias_frame (st : St) (cur : String) (acc : List Child) (row : Row)
    (it : Item) (hasm : alookup row.PN st.asms = none)
    (hit : alookup row.PN st.catalog = some it)
    (howned : ownerTruthy st it.parent = true) :
    resolveRow st cur acc row = .ok
      ({ st with
          links := st.links ++ [(st.nextLink, { target := row.PN, parent := none })],
          nextLink := st.nextLink + 1 },
        acc ++ [Child.link st.nextLink row.PN]) ∧
    ({ st with
        links := st.links ++ [(st.nextLink, { target := row.PN, parent := none })],
        nextLink := st.nextLink + 1 } : St).catalog = st.catalog ∧
    alookup row.PN
      ({ st with
          links := st.links ++ [(st.nextLink, { target := row.PN, parent := none })],
          nextLink := st.nextLink + 1 } : St).catalog = some it := by
  refine ⟨?_, rfl, hit⟩
  unfold resolveRow
  simp [hasm, hit, howned]

/-- Witness for C7: in a heap where `P1` is owned by `X` (whose tuple
holds it), resolving a `P1` row for assembly `Y` appends a fresh alias
and leaves the catalog unchanged. -/
theorem c7_witness :
    resolveRow exOwned_st "Y" [] ⟨"P1", []⟩ = .ok
      ({ exOwned_st with
          links := exOwned_st.links ++ [(exOwned_st.nextLink, { target := "P1", parent := none })],
          nextLink := exOwned_st.nextLink + 1 },
        [] ++ [Child.link exOwned_st.nextLink "P1"]) :=
  (c7_alias_frame exOwned_st "Y" [] ⟨"P1", []⟩
    { parent := some "X", item_type := "part", kwargs := [] } rfl rfl rfl).1

/-! ### Frame lemmas for the heap operations -/

theorem childrenOf_removeFromTuple (st : St) (q : String) (c : Child) (p : String) :
    childrenOf (removeFromTuple st q c) p =
      if p = q then (childrenOf st p).filter (· ≠ c) else childrenOf st p := by
  unfold childrenOf removeFromTuple
  simp only [alookup_aset]
  by_cases h : p = q
  · subst h
    cases halt : alookup p st.asms <;> simp [halt]
  · simp [h]

theorem childrenOf_appendToTuple (st : St) (q : String) (c : Child) (p : String)
    (hq : q ∈ st.asms.map Prod.fst) :
    childrenOf (appendToTuple st q c) p =
      if p = q then childrenOf st p ++ [c] else childrenOf st p := by
  unfold childrenOf appendToTuple
  simp only [alookup_aset]
  by_cases h : p = q
  · subst h
    obtain ⟨d, hd⟩ := Option.isSome_iff_exists.mp ((alookup_isSome_iff p st.asms).mpr hq)
    simp [hd]
  · simp [h]

theorem childrenOf_appendToTuple_ne (st : St) (q : String) (c : Child) (p : String)
    (h : p ≠ q) :
    childrenOf (appendToTuple st q c) p = childrenOf st p := by
  unfold childrenOf appendToTuple
  simp [alookup_aset, h]

theorem childrenOf_setPtr (st : St) (c : Child) (v : Option String) (p : String) :
    childrenOf (setPtr st c v) p = childrenOf st p := by
  cases c with
  | item pn => rfl
  | link lid t => rfl
  | asm a =>
    unfold childrenOf setPtr
    simp only [alookup_aset]
    by_cases h : p = a
    · subst h
      cases halt : alookup p st.asms <;> simp [halt]
    · simp [h]

theorem asmParent_removeFromTuple (st : St) (q : String) (c : Child) (a : String) :
    asmParent (removeFromTuple st q c) a = asmParent st a := by
  unfold asmParent removeFromTuple
  simp only [alookup_aset]
  by_cases h : a = q
  · subst h
    cases halt : alookup a st.asms <;> simp [halt]
  · simp [h]

theorem asmParent_appendToTuple (st : St) (q : String) (c : Child) (a : String) :
    asmParent (appendToTuple st q c) a = asmParent st a := by
  unfold asmParent appendToTuple
  simp only [alookup_aset]
  by_cases h : a = q
  · subst h
    cases halt : alookup a st.asms <;> simp [halt]
  · simp [h]

theorem asmParent_setPtr_ne (st : St) (c : Child) (v : Option String) (a : String)
    (h : c ≠ Child.asm a) :
    asmParent (setPtr st c v) a = asmParent st a := by
  cases c with
  | item pn => rfl
  | link lid t => rfl
  | asm b =>
    have hab : a ≠ b := fun hh => h (by rw [hh])
    unfold asmParent setPtr
    simp [alookup_aset, hab]

theorem asmParent_setPtr_self (st : St) (v : Option String) (a : String)
    (ha : a ∈ st.asms.map Prod.fst) :
    asmParent (setPtr st (Child.asm a) v) a = v := by
  obtain ⟨d, hd⟩ := Option.isSome_iff_exists.mp ((alookup_isSome_iff a st.asms).mpr ha)
  unfold asmParent setPtr
  simp [alookup_aset, hd]

theorem asmType_removeFromTuple (st : St) (q : String) (c : Child) (a : String) :
    asmType (removeFromTuple st q c) a = asmType st a := by
  unfold asmType removeFromTuple
  simp only [alookup_aset]
  by_cases h : a = q
  · subst h
    cases halt : alookup a st.asms <;> simp [halt]
  · simp [h]

theorem asmType_appendToTuple (st : St) (q : String) (c : Child) (a : String) :
    asmType (appendToTuple st q c) a = asmType st a := by
  unfold asmType appendToTuple
  simp only [alookup_aset]
  by_cases h : a = q
  · subst h
    cases halt : alookup a st.asms <;> simp [halt]
  · simp [h]

theorem asmType_setPtr (st : St) (c : Child) (v : Option String) (a : String) :
    asmType (setPtr st c v) a = asmType st a := by
  cases c with
  | item pn => rfl
  | link lid t => rfl
  | asm b =>
    unfold asmType setPtr
    simp only [alookup_aset]
    by_cases h : a = b
    · subst h
      cases halt : alookup a st.asms <;> simp [halt]
    · simp [h]

theorem asmsKeys_removeFromTuple (st : St) (q : String) (c : Child) :
    (removeFromTuple st q c).asms.map Prod.fst = st.asms.map Prod.fst := by
  simp [removeFromTuple, aset_keys]

theorem asmsKeys_appendToTuple (st : St) (q : String) (c : Child) :
    (appendToTuple st q c).asms.map Prod.fst = st.asms.map Prod.fst := by
  simp [appendToTuple, aset_keys]

theorem asmsKeys_setPtr (st : St) (c : Child) (v : Option String) :
    (setPtr st c v).asms.map Prod.fst = st.asms.map Prod.fst := by
  cases c with
  | item pn => rfl
  | link lid t => rfl
  | asm a => simp [setPtr, aset_keys]

theorem catalogKeys_setPtr (st : St) (c : Child) (v : Option String) :
    (setPtr st c v).catalog.map Prod.fst = st.catalog.map Prod.fst := by
  cases c with
  | item pn => simp [setPtr, aset_keys]
  | link lid t => rfl
  | asm a => rfl

theorem catalog_removeFromTuple (st : St) (q : String) (c : Child) :
    (removeFromTuple st q c).catalog = st.catalog := rfl

theorem catalog_appendToTuple (st : St) (q : String) (c : Child) :
    (appendToTuple st q c).catalog = st.catalog := rfl

theorem childrenOf_not_mem (st : St) (p : String) (hp : p ∉ st.asms.map Prod.fst) :
    childrenOf st p = [] := by
  unfold childrenOf
  rw [(alookup_eq_none_iff p st.asms).mpr hp]

theorem asmType_detachStep (st : St) (c : Child) (a : String) :
    asmType (detachStep st c) a = asmType st a := by
  unfold detachStep
  cases hp : parentOf st c
  · rfl
  · exact asmType_removeFromTuple _ _ _ _

theorem asmParent_detachStep (st : St) (c : Child) (a : String) :
    asmParent (detachStep st c) a = asmParent st a := by
  unfold detachStep
  cases hp : parentOf st c
  · rfl
  · exact asmParent_removeFromTuple _ _ _ _

theorem asmsKeys_detachStep (st : St) (c : Child) :
    (detachStep st c).asms.map Prod.fst = st.asms.map Prod.fst := by
  unfold detachStep
  cases hp : parentOf st c
  · rfl
  · exact asmsKeys_removeFromTuple _ _ _

theorem catalog_detachStep (st : St) (c : Child) :
    (detachStep st c).catalog = st.catalog := by
  unfold detachStep
  cases hp : parentOf st c
  · rfl
  · rfl

theorem childrenOf_detachStep (st : St) (c : Child) (p : String) :
    childrenOf (detachStep st c) p =
      if parentOf st c = some p then (childrenOf st p).filter (· ≠ c) else childrenOf st p := by
  unfold detachStep
  cases hp : parentOf st c with
  | none => simp
  | some q =>
    rw [childrenOf_removeFromTuple]
    by_cases h : p = q
    · subst h; simp
    · have hne : ¬(some q = some p) := fun hh => h (Option.some.inj hh).symm
      simp [h, hne]

theorem asmType_setParentForce (st : St) (c : Child) (v : Option String) (a : String) :
    asmType (setParentForce st c v) a = asmType st a := by
  unfold setParentForce
  cases v with
  | none => rw [asmType_setPtr, asmType_detachStep]
  | some p => rw [asmType_appendToTuple, asmType_setPtr, asmType_detachStep]

theorem asmsKeys_setParentForce (st : St) (c : Child) (v : Option String) :
    (setParentForce st c v).asms.map Prod.fst = st.asms.map Prod.fst := by
  unfold setParentForce
  cases v with
  | none => rw [asmsKeys_setPtr, asmsKeys_detachStep]
  | some p => rw [asmsKeys_appendToTuple, asmsKeys_setPtr, asmsKeys_detachStep]

theorem catalogKeys_setParentForce (st : St) (c : Child) (v : Option String) :
    (setParentForce st c v).catalog.map Prod.fst = st.catalog.map Prod.fst := by
  unfold setParentForce
  cases v with
  | none => rw [catalogKeys_setPtr, catalog_detachStep]
  | some p => rw [catalog_appendToTuple, catalogKeys_setPtr, catalog_detachStep]

theorem asmParent_setParentForce_ne (st : St) (c : Child) (v : Option String) (a : String)
    (h : c ≠ Child.asm a) :
    asmParent (setParentForce st c v) a = asmParent st a := by
  unfold setParentForce
  cases v with
  | none => rw [asmParent_setPtr_ne _ _ _ _ h, asmParent_detachStep]
  | some p => rw [asmParent_appendToTuple, asmParent_setPtr_ne _ _ _ _ h, asmParent_detachStep]

theorem asmParent_setParentForce_self (st : St) (v : Option String) (a : String)
    (ha : a ∈ st.asms.map Prod.fst) :
    asmParent (setParentForce st (Child.asm a) v) a = v := by
  unfold setParentForce
  have ha' : a ∈ (detachStep st (Child.asm a)).asms.map Prod.fst := by
    rw [asmsKeys_detachStep]; exact ha
  cases v with
  | none => rw [asmParent_setPtr_self _ _ _ ha']
  | some p => rw [asmParent_appendToTuple, asmParent_setPtr_self _ _ _ ha']

theorem childrenOf_setParentForce_ne (st : St) (c : Child) (v : Option String) (p : String)
    (hv : v ≠ some p) :
    childrenOf (setParentForce st c v) p =
      if parentOf st c = some p then (childrenOf st p).filter (· ≠ c) else childrenOf st p := by
  unfold setParentForce
  cases v with
  | none => rw [childrenOf_setPtr, childrenOf_detachStep]
  | some q =>
    have hpq : p ≠ q := fun h => hv (by rw [h])
    rw [childrenOf_appendToTuple_ne _ _ _ _ hpq, childrenOf_setPtr, childrenOf_detachStep]

theorem childrenOf_setParentForce_self (st : St) (c : Child) (p : String)
    (hp : p ∈ st.asms.map Prod.fst) :
    childrenOf (setParentForce st c (some p)) p =
      (if parentOf st c = some p then (childrenOf st p).filter (· ≠ c) else childrenOf st p)
        ++ [c] := by
  unfold setParentForce
  have hp' : p ∈ (setPtr (detachStep st c) c (some p)).asms.map Prod.fst := by
    rw [asmsKeys_setPtr, asmsKeys_detachStep]; exact hp
  rw [childrenOf_appendToTuple _ _ _ _ hp', if_pos rfl, childrenOf_setPtr, childrenOf_detachStep]

theorem setParent_ok_elim {st : St} {c : Child} {v : Option String} {st' : St}
    (h : setParent st c v = .ok st') :
    (parentOf st c = v ∧ st' = st) ∨ (parentOf st c ≠ v ∧ st' = setParentForce st c v) := by
  unfold setParent at h
  by_cases hp : parentOf st c = v
  · rw [if_pos hp] at h
    injection h with h1
    exact Or.inl ⟨hp, h1.symm⟩
  · rw [if_neg hp] at h
    cases hc : checkLoop st c v with
    | error e => rw [hc] at h; exact Except.noConfusion h
    | ok u =>
      rw [hc] at h
      injection h with h1
      exact Or.inr ⟨hp, h1.symm⟩

theorem asmType_setParent {st : St} {c : Child} {v : Option String} {st' : St}
    (h : setParent st c v = .ok st') (a : String) :
    asmType st' a = asmType st a := by
  rcases setParent_ok_elim h with ⟨_, rfl⟩ | ⟨_, rfl⟩
  · rfl
  · exact asmType_setParentForce _ _ _ _

theorem asmsKeys_setParent {st : St} {c : Child} {v : Option String} {st' : St}
    (h : setParent st c v = .ok st') :
    st'.asms.map Prod.fst = st.asms.map Prod.fst := by
  rcases setParent_ok_elim h with ⟨_, rfl⟩ | ⟨_, rfl⟩
  · rfl
  · exact asmsKeys_setParentForce _ _ _

theorem catalogKeys_setParent {st : St} {c : Child} {v : Option String} {st' : St}
    (h : setParent st c v = .ok st') :
    st'.catalog.map Prod.fst = st.catalog.map Prod.fst := by
  rcases setParent_ok_elim h with ⟨_, rfl⟩ | ⟨_, rfl⟩
  · rfl
  · exact catalogKeys_setParentForce _ _ _

theorem asmParent_setParent_ne {st : St} {c : Child} {v : Option String} {st' : St}
    (h : setParent st c v = .ok st') (a : String) (hc : c ≠ Child.asm a) :
    asmParent st' a = asmParent st a := by
  rcases setParent_ok_elim h with ⟨_, rfl⟩ | ⟨_, rfl⟩
  · rfl
  · exact asmParent_setParentForce_ne _ _ _ _ hc

theorem asmParent_setParent_self {st : St} {v : Option String} {st' : St} {a : String}
    (h : setParent st (Child.asm a) v = .ok st') (ha : a ∈ st.asms.map Prod.fst) :
    asmParent st' a = v := by
  rcases setParent_ok_elim h with ⟨hp, rfl⟩ | ⟨_, rfl⟩
  · exact hp
  · exact asmParent_setParentForce_self _ _ _ ha

theorem childrenOf_setParent_sub_ne {st : St} {c : Child} {v : Option String} {st' : St}
    (h : setParent st c v = .ok st') (p : String) (hv : v ≠ some p) :
    childrenOf st' p ⊆ childrenOf st p := by
  rcases setParent_ok_elim h with ⟨_, rfl⟩ | ⟨_, rfl⟩
  · exact fun x hx => hx
  · rw [childrenOf_setParentForce_ne _ _ _ _ hv]
    by_cases hc : parentOf st c = some p
    · rw [if_pos hc]
      exact fun x hx => List.mem_of_mem_filter hx
    · rw [if_neg hc]
      exact fun x hx => hx

theorem childrenOf_setParent_sub_self {st : St} {c : Child} {b : String} {st' : St}
    (h : setParent st c (some b) = .ok st') :
    ∀ x ∈ childrenOf st' b, x ∈ childrenOf st b ∨ x = c := by
  rcases setParent_ok_elim h with ⟨_, rfl⟩ | ⟨_, rfl⟩
  · exact fun x hx => Or.inl hx
  · intro x hx
    by_cases hb : b ∈ st.asms.map Prod.fst
    · rw [childrenOf_setParentForce_self _ _ _ hb] at hx
      rcases List.mem_append.mp hx with hx1 | hx1
      · by_cases hc : parentOf st c = some b
        · rw [if_pos hc] at hx1
          exact Or.inl (List.mem_of_mem_filter hx1)
        · rw [if_neg hc] at hx1
          exact Or.inl hx1
      · exact Or.inr (List.mem_singleton.mp hx1)
    · have hb' : b ∉ (setParentForce st c (some b)).asms.map Prod.fst := by
        rw [asmsKeys_setParentForce]; exact hb
      rw [childrenOf_not_mem _ _ hb'] at hx
      exact absurd hx (List.not_mem_nil x)

theorem asmParent_isSome_mem {st : St} {a p : String} (h : asmParent st a = some p) :
    a ∈ st.asms.map Prod.fst := by
  rw [← alookup_isSome_iff]
  unfold asmParent at h
  cases hl : alookup a st.asms with
  | none => rw [hl] at h; simp at h
  | some d => rfl

theorem foldlM_inv {σ α : Type} {P : σ → Prop} {f : σ → α → Except BuildError σ}
    (hf : ∀ s a s', f s a = .ok s' → P s → P s') :
    ∀ (l : List α) (s s' : σ), l.foldlM f s = .ok s' → P s → P s' := by
  intro l
  induction l with
  | nil =>
    intro s s' h hp
    simp only [List.foldlM_nil] at h
    injection h with h1
    exact h1 ▸ hp
  | cons x t ih =>
    intro s s' h hp
    rw [List.foldlM_cons] at h
    cases hf1 : f s x with
    | error e => rw [hf1] at h; exact Except.noConfusion h
    | ok s1 =>
      rw [hf1] at h
      exact ih s1 s' h (hf s x s1 hf1 hp)

theorem foldSetParent_post (v : Option String) :
    ∀ (cs : List Child) (s s' : St),
      cs.foldlM (fun s c => setParent s c v) s = .ok s' →
      (∀ a, asmType s' a = asmType s a) ∧
      s'.asms.map Prod.fst = s.asms.map Prod.fst ∧
      s'.catalog.map Prod.fst = s.catalog.map Prod.fst ∧
      (∀ a, Child.asm a ∉ cs → asmParent s' a = asmParent s a) ∧
      (∀ a, Child.asm a ∈ cs → a ∈ s.asms.map Prod.fst → asmParent s' a = v) ∧
      (∀ p, v ≠ some p → childrenOf s' p ⊆ childrenOf s p) := by
  intro cs
  induction cs with
  | nil =>
    intro s s' h
    simp only [List.foldlM_nil] at h
    injection h with h1
    subst h1
    exact ⟨fun a => rfl, rfl, rfl, fun a _ => rfl,
      fun a ha => absurd ha (List.not_mem_nil _), fun p _ => List.Subset.refl _⟩
  | cons c t ih =>
    intro s s' h
    rw [List.foldlM_cons] at h
    cases h1 : setParent s c v with
    | error e => rw [h1] at h; exact Except.noConfusion h
    | ok s1 =>
      rw [h1] at h
      obtain ⟨iT, iK, iCK, iPn, iPm, iSub⟩ := ih s1 s' h
      refine ⟨?_, ?_, ?_, ?_, ?_, ?_⟩
      · intro a; rw [iT, asmType_setParent h1]
      · rw [iK, asmsKeys_setParent h1]
      · rw [iCK, catalogKeys_setParent h1]
      · intro a ha
        rw [List.mem_cons, not_or] at ha
        obtain ⟨hne, hnt⟩ := ha
        rw [iPn a hnt, asmParent_setParent_ne h1 a (fun hh => hne hh.symm)]
      · intro a ha hk
        rw [List.mem_cons] at ha
        rcases ha with hac | hat
        · by_cases hmem : Child.asm a ∈ t
          · exact iPm a hmem (by rw [asmsKeys_setParent h1]; exact hk)
          · rw [iPn a hmem]
            have h1' : setParent s (Child.asm a) v = .ok s1 := by rw [hac]; exact h1
            exact asmParent_setParent_self h1' hk
        · exact iPm a hat (by rw [asmsKeys_setParent h1]; exact hk)
      · intro p hp x hx
        exact childrenOf_setParent_sub_ne h1 p hp (iSub p hp hx)

theorem typeSet_asmParent (st : St) (pn a : String) :
    asmParent
      { st with asms := aset pn (fun d => { d with item_type := some "assembly" }) st.asms } a
      = asmParent st a := by
  unfold asmParent
  simp only [alookup_aset]
  by_cases h : a = pn
  · subst h; cases hl : alookup a st.asms <;> simp [hl]
  · simp [h]

theorem typeSet_asmType_self (st : St) (pn : String) (hpn : pn ∈ st.asms.map Prod.fst) :
    asmType
      { st with asms := aset pn (fun d => { d with item_type := some "assembly" }) st.asms } pn
      = some "assembly" := by
  obtain ⟨d, hd⟩ := Option.isSome_iff_exists.mp ((alookup_isSome_iff pn st.asms).mpr hpn)
  unfold asmType
  simp [alookup_aset, hd]

theorem typeSet_asmType_ne (st : St) (pn a : String) (h : a ≠ pn) :
    asmType
      { st with asms := aset pn (fun d => { d with item_type := some "assembly" }) st.asms } a
      = asmType st a := by
  unfold asmType
  simp [alookup_aset, h]

theorem typeSet_keys (st : St) (pn : String) :
    ({ st with asms := aset pn (fun d => { d with item_type := some "assembly" }) st.asms } : St).asms.map
        Prod.fst = st.asms.map Prod.fst := by
  simp [aset_keys]

theorem typeSet_childrenOf (st : St) (pn p : String) :
    childrenOf
      { st with asms := aset pn (fun d => { d with item_type := some "assembly" }) st.asms } p
      = childrenOf st p := by
  unfold childrenOf
  simp only [alookup_aset]
  by_cases h : p = pn
  · subst h; cases hl : alookup p st.asms <;> simp [hl]
  · simp [h]

theorem resolveRow_elim {st : St} {cur : String} {acc : List Child} {row : Row}
    {st' : St} {acc' : List Child}
    (h : resolveRow st cur acc row = .ok (st', acc')) :
    (row.PN ∈ st.asms.map Prod.fst ∧
      ∃ st1, setParent st (.asm row.PN) (some cur) = .ok st1 ∧
        st' = { st1 with
                 asms := aset row.PN (fun d => { d with item_type := some "assembly" }) st1.asms } ∧
        acc' = acc ++ [.asm row.PN]) ∨
    (row.PN ∉ st.asms.map Prod.fst ∧
      ∃ it, alookup row.PN st.catalog = some it ∧
        ((ownerTruthy st it.parent = true ∧
           st' = { st with
                    links := st.links ++ [(st.nextLink, { target := row.PN, parent := none })],
                    nextLink := st.nextLink + 1 } ∧
           acc' = acc ++ [.link st.nextLink row.PN]) ∨
         (ownerTruthy st it.parent = false ∧ st' = st ∧ acc' = acc ++ [.item row.PN]))) := by
  unfold resolveRow at h
  by_cases hs : (alookup row.PN st.asms).isSome
  · rw [if_pos hs] at h
    cases h1 : setParent st (.asm row.PN) (some cur) with
    | error e => rw [h1] at h; exact Except.noConfusion h
    | ok st1 =>
      rw [h1] at h
      injection h with h2
      rw [Prod.mk.injEq] at h2
      obtain ⟨hst, hacc⟩ := h2
      exact Or.inl ⟨(alookup_isSome_iff _ _).mp hs, st1, rfl, hst.symm, hacc.symm⟩
  · rw [if_neg hs] at h
    have hmem : row.PN ∉ st.asms.map Prod.fst :=
      fun hm => hs ((alookup_isSome_iff _ _).mpr hm)
    cases hcat : alookup row.PN st.catalog with
    | none => rw [hcat] at h; exact Except.noConfusion h
    | some it =>
      rw [hcat] at h
      replace h :
          (if ownerTruthy st it.parent = true then
            Except.ok
              ({ st with
                  links := st.links ++ [(st.nextLink, { target := row.PN, parent := none })],
                  nextLink := st.nextLink + 1 },
                acc ++ [Child.link st.nextLink row.PN])
          else Except.ok (st, acc ++ [Child.item row.PN])) = Except.ok (st', acc') := h
      by_cases how : ownerTruthy st it.parent = true
      · rw [if_pos how] at h
        injection h with h2
        rw [Prod.mk.injEq] at h2
        obtain ⟨hst, hacc⟩ := h2
        exact Or.inr ⟨hmem, it, rfl, Or.inl ⟨how, hst.symm, hacc.symm⟩⟩
      · have how' : ownerTruthy st it.parent = false := by
          rwa [Bool.not_eq_true] at how
        rw [if_neg how] at h
        injection h with h2
        rw [Prod.mk.injEq] at h2
        obtain ⟨hst, hacc⟩ := h2
        exact Or.inr ⟨hmem, it, rfl, Or.inr ⟨how', hst.symm, hacc.symm⟩⟩

theorem setChildren_catalogKeys {st : St} {b : String} {cs : List Child} {st' : St}
    (h : setChildren st b cs = .ok st') :
    st'.catalog.map Prod.fst = st.catalog.map Prod.fst := by
  unfold setChildren at h
  by_cases hnd : cs.Nodup
  · rw [if_pos hnd] at h
    cases hd : detachAll st b with
    | error e => rw [hd] at h; exact Except.noConfusion h
    | ok st1 =>
      rw [hd] at h
      unfold detachAll at hd
      unfold attachAll at h
      obtain ⟨_, _, dCK, _, _, _⟩ := foldSetParent_post none _ _ _ hd
      obtain ⟨_, _, aCK, _, _, _⟩ := foldSetParent_post (some b) _ _ _ h
      rw [aCK, dCK]
  · rw [if_neg hnd] at h; exact Except.noConfusion h

theorem setChildren_wf {keys0 : List String} {st : St} {b : String} {cs : List Child} {st' : St}
    (hb : b ∈ keys0) (hwf : AsmWF keys0 st)
    (hsub : ∀ c ∈ childrenOf st b, c ∈ cs)
    (hcs : ∀ a, Child.asm a ∈ cs → asmType st a = some "assembly")
    (h : setChildren st b cs = .ok st') :
    AsmWF keys0 st' ∧ (∀ p, p ≠ b → childrenOf st' p ⊆ childrenOf st p) := by
  obtain ⟨wK, wTP, wPK⟩ := hwf
  unfold setChildren at h
  by_cases hnd : cs.Nodup
  · rw [if_pos hnd] at h
    cases hd : detachAll st b with
    | error e => rw [hd] at h; exact Except.noConfusion h
    | ok st1 =>
      rw [hd] at h
      unfold detachAll at hd
      unfold attachAll at h
      obtain ⟨dT, dK, _, dPn, dPm, dSub⟩ := foldSetParent_post none _ _ _ hd
      obtain ⟨aT, aK, _, aPn, aPm, aSub⟩ := foldSetParent_post (some b) _ _ _ h
      have hkeys : st'.asms.map Prod.fst = keys0 := by rw [aK, dK, wK]
      refine ⟨⟨hkeys, ?_, ?_⟩, ?_⟩
      · intro a ha
        by_cases hmem : Child.asm a ∈ cs
        · have hk1 : a ∈ st1.asms.map Prod.fst := by rw [dK, wK]; exact ha
          rw [aPm a hmem hk1, aT, dT, hcs a hmem]
          rfl
        · have hnm0 : Child.asm a ∉ childrenOf st b := fun hmm => hmem (hsub _ hmm)
          rw [aPn a hmem, dPn a hnm0, aT, dT]
          exact wTP a ha
      · intro a p hap
        by_cases hmem : Child.asm a ∈ cs
        · have hk0 : a ∈ keys0 := by
            have hm := asmParent_isSome_mem hap
            rwa [hkeys] at hm
          have hk1 : a ∈ st1.asms.map Prod.fst := by rw [dK, wK]; exact hk0
          rw [aPm a hmem hk1] at hap
          injection hap with hap1
          rw [← hap1]; exact hb
        · have hnm0 : Child.asm a ∉ childrenOf st b := fun hmm => hmem (hsub _ hmm)
          rw [aPn a hmem, dPn a hnm0] at hap
          exact wPK a p hap
      · intro p hp x hx
        have h1 := aSub p (fun hh => hp (Option.some.inj hh).symm) hx
        exact dSub p (fun hh => Option.noConfusion hh) h1
  · rw [if_neg hnd] at h; exact Except.noConfusion h

theorem resolveRow_Q_step {keys0 : List String} {b : String} (hb : b ∈ keys0) (st0 : St) :
    ∀ (s : St × List Child) (row : Row) (s' : St × List Child),
      resolveRow s.1 b s.2 row = .ok s' →
      (AsmWF keys0 s.1 ∧ (∀ c ∈ childrenOf s.1 b, c ∈ s.2) ∧
        (∀ a, Child.asm a ∈ s.2 → asmType s.1 a = some "assembly") ∧
        (∀ p, p ≠ b → childrenOf s.1 p ⊆ childrenOf st0 p)) →
      (AsmWF keys0 s'.1 ∧ (∀ c ∈ childrenOf s'.1 b, c ∈ s'.2) ∧
        (∀ a, Child.asm a ∈ s'.2 → asmType s'.1 a = some "assembly") ∧
        (∀ p, p ≠ b → childrenOf s'.1 p ⊆ childrenOf st0 p)) := by
  rintro ⟨st, acc⟩ row ⟨st', acc'⟩ h ⟨hwf, hsubac, htyp, hsub0⟩
  obtain ⟨wK, wTP, wPK⟩ := hwf
  rcases resolveRow_elim h with
    ⟨hpnk, st1, hsp, hst', hacc'⟩ | ⟨hpnk, it, hcat, hbr⟩
  · -- sub-assembly branch
    subst hst' hacc'
    have hpn0 : row.PN ∈ keys0 := by rw [← wK]; exact hpnk
    have hpn1 : row.PN ∈ st1.asms.map Prod.fst := by
      rw [asmsKeys_setParent hsp]; exact hpnk
    have hparent1 : asmParent st1 row.PN = some b := asmParent_setParent_self hsp hpnk
    refine ⟨⟨?_, ?_, ?_⟩, ?_, ?_, ?_⟩
    · rw [typeSet_keys, asmsKeys_setParent hsp, wK]
    · intro a ha
      by_cases hapn : a = row.PN
      · subst hapn
        rw [typeSet_asmType_self _ _ hpn1, typeSet_asmParent, hparent1]
        rfl
      · rw [typeSet_asmType_ne _ _ _ hapn, typeSet_asmParent,
          asmType_setParent hsp,
          asmParent_setParent_ne hsp a (fun hh => hapn (Child.asm.inj hh).symm)]
        exact wTP a ha
    · intro a p hap
      rw [typeSet_asmParent] at hap
      by_cases hapn : a = row.PN
      · subst hapn
        rw [hparent1] at hap
        injection hap with hap1
        rw [← hap1]; exact hb
      · rw [asmParent_setParent_ne hsp a (fun hh => hapn (Child.asm.inj hh).symm)] at hap
        exact wPK a p hap
    · intro c hc
      rw [typeSet_childrenOf] at hc
      rcases childrenOf_setParent_sub_self hsp c hc with hc1 | hc1
      · exact List.mem_append_left _ (hsubac c hc1)
      · exact List.mem_append_right _ (by rw [hc1]; exact List.mem_singleton.mpr rfl)
    · intro a ha
      rcases List.mem_append.mp ha with ha1 | ha1
      · by_cases hapn : a = row.PN
        · subst hapn
          exact typeSet_asmType_self _ _ hpn1
        · rw [typeSet_asmType_ne _ _ _ hapn, asmType_setParent hsp]
          exact htyp a ha1
      · have : a = row.PN := Child.asm.inj (List.mem_singleton.mp ha1)
        subst this
        exact typeSet_asmType_self _ _ hpn1
    · intro p hp c hc
      rw [typeSet_childrenOf] at hc
      exact hsub0 p hp
        (childrenOf_setParent_sub_ne hsp p (fun hh => hp (Option.some.inj hh).symm) hc)
  · -- part branches: the assembly store is untouched
    rcases hbr with ⟨how, hst', hacc'⟩ | ⟨how, hst', hacc'⟩
    · subst hst' hacc'
      refine ⟨⟨wK, wTP, wPK⟩, ?_, ?_, hsub0⟩
      · intro c hc
        exact List.mem_append_left _ (hsubac c hc)
      · intro a ha
        rcases List.mem_append.mp ha with ha1 | ha1
        · exact htyp a ha1
        · exact absurd (List.mem_singleton.mp ha1) (fun hh => Child.noConfusion hh)
    · subst hst' hacc'
      refine ⟨⟨wK, wTP, wPK⟩, ?_, ?_, hsub0⟩
      · intro c hc
        exact List.mem_append_left _ (hsubac c hc)
      · intro a ha
        rcases List.mem_append.mp ha with ha1 | ha1
        · exact htyp a ha1
        · exact absurd (List.mem_singleton.mp ha1) (fun hh => Child.noConfusion hh)

theorem resolveRows_Q {keys0 : List String} {b : String} (hb : b ∈ keys0)
    {rows : List Row} {st st' : St} {cs : List Child}
    (h : resolveRows st b rows = .ok (st', cs))
    (hwf : AsmWF keys0 st) (hemp : childrenOf st b = []) :
    AsmWF keys0 st' ∧ (∀ c ∈ childrenOf st' b, c ∈ cs) ∧
    (∀ a, Child.asm a ∈ cs → asmType st' a = some "assembly") ∧
    (∀ p, p ≠ b → childrenOf st' p ⊆ childrenOf st p) := by
  unfold resolveRows at h
  have hinit :
      AsmWF keys0 (st, ([] : List Child)).1 ∧
      (∀ c ∈ childrenOf (st, ([] : List Child)).1 b, c ∈ (st, ([] : List Child)).2) ∧
      (∀ a, Child.asm a ∈ (st, ([] : List Child)).2 →
        asmType (st, ([] : List Child)).1 a = some "assembly") ∧
      (∀ p, p ≠ b → childrenOf (st, ([] : List Child)).1 p ⊆ childrenOf st p) := by
    refine ⟨hwf, ?_, ?_, ?_⟩
    · intro c hc
      rw [hemp] at hc
      exact absurd hc (List.not_mem_nil c)
    · intro a ha
      exact absurd ha (List.not_mem_nil _)
    · intro p _
      exact List.Subset.refl _
  exact foldlM_inv (resolveRow_Q_step hb st) rows (st, []) (st', cs) h hinit

theorem resolveAsm_wf {keys0 : List String} {b : String} {st st' : St}
    (hb : b ∈ keys0) (hwf : AsmWF keys0 st) (hemp : childrenOf st b = [])
    (h : resolveAsm st b = .ok st') :
    AsmWF keys0 st' ∧ (∀ p, p ≠ b → childrenOf st' p ⊆ childrenOf st p) := by
  simp only [resolveAsm] at h
  cases hr : resolveRows st b
      (match alookup b st.asms with
        | some d => d.rows
        | none => []) with
  | error e => rw [hr] at h; exact Except.noConfusion h
  | ok pr =>
    obtain ⟨st1, cs⟩ := pr
    rw [hr] at h
    obtain ⟨wf1, hsub1, htyp1, hsubp⟩ := resolveRows_Q hb hr hwf hemp
    obtain ⟨wf', hsub'⟩ := setChildren_wf hb wf1 hsub1 htyp1 h
    exact ⟨wf', fun p hp => (hsub' p hp).trans (hsubp p hp)⟩

theorem resolveAllAux_wf {keys0 : List String} :
    ∀ (names : List String), names.Nodup → (∀ n ∈ names, n ∈ keys0) →
      ∀ (st st' : St), names.foldlM resolveAsm st = .ok st' → AsmWF keys0 st →
        (∀ n ∈ names, childrenOf st n = []) → AsmWF keys0 st' := by
  intro names
  induction names with
  | nil =>
    intro _ _ st st' h hwf _
    simp only [List.foldlM_nil] at h
    injection h with h1
    exact h1 ▸ hwf
  | cons b t ih =>
    intro hnd hsub st st' h hwf hemp
    rw [List.foldlM_cons] at h
    cases h1 : resolveAsm st b with
    | error e => rw [h1] at h; exact Except.noConfusion h
    | ok st1 =>
      rw [h1] at h
      obtain ⟨wf1, hshr⟩ :=
        resolveAsm_wf (hsub b (List.mem_cons_self _ _)) hwf
          (hemp b (List.mem_cons_self _ _)) h1
      apply ih (List.nodup_cons.mp hnd).2 (fun n hn => hsub n (List.mem_cons_of_mem _ hn))
        st1 st' h wf1
      intro n hn
      have hnb : n ≠ b := fun hh => (List.nodup_cons.mp hnd).1 (hh ▸ hn)
      refine List.eq_nil_iff_forall_not_mem.mpr fun x hx => ?_
      have h2 := hshr n hnb hx
      rw [hemp n (List.mem_cons_of_mem _ hn)] at h2
      exact List.not_mem_nil x h2

theorem asmWF_init (master : List Row) (tables : List Table) :
    AsmWF ((initAsms tables).map Prod.fst) (initSt master tables) := by
  refine ⟨rfl, ?_, ?_⟩
  · intro a _
    show ((alookup a (initAsms tables)).bind (·.item_type)) =
      if ((alookup a (initAsms tables)).bind (·.parent)).isSome then some "assembly" else none
    rw [alookup_initAsms]
    cases tables.reverse.find? (fun t => decide (t.name = a)) <;> simp
  · intro a p hap
    replace hap : ((alookup a (initAsms tables)).bind (·.parent)) = some p := hap
    rw [alookup_initAsms] at hap
    cases hf : tables.reverse.find? (fun t => decide (t.name = a)) <;>
      rw [hf] at hap <;> simp at hap

theorem initSt_children_empty (master : List Row) (tables : List Table) (n : String) :
    childrenOf (initSt master tables) n = [] := by
  show (match alookup n (initAsms tables) with
    | some d => d.childrenT
    | none => []) = []
  rw [alookup_initAsms]
  cases tables.reverse.find? (fun t => decide (t.name = n)) <;> simp

theorem ainsert_keys_nodup [DecidableEq α] {k : α} {v : β} {l : List (α × β)}
    (h : (l.map Prod.fst).Nodup) : ((ainsert k v l).map Prod.fst).Nodup := by
  unfold ainsert
  by_cases hs : (alookup k l).isSome
  · rw [if_pos hs, aset_keys]
    exact h
  · rw [if_neg hs, List.map_append]
    have hk : k ∉ l.map Prod.fst :=
      (alookup_eq_none_iff k l).mp (Option.not_isSome_iff_eq_none.mp hs)
    refine List.Nodup.append h (List.nodup_singleton k) ?_
    intro x hx hxk
    simp only [List.map_cons, List.map_nil, List.mem_singleton] at hxk
    rw [hxk] at hx
    exact hk hx

theorem foldl_ainsert_keys_nodup [DecidableEq κ] (key : α → κ) (val : α → β) :
    ∀ (l : List α) (init : List (κ × β)), (init.map Prod.fst).Nodup →
      ((l.foldl (fun acc x => ainsert (key x) (val x) acc) init).map Prod.fst).Nodup := by
  intro l
  induction l with
  | nil => intro init h; exact h
  | cons x t ih =>
    intro init h
    exact ih _ (ainsert_keys_nodup h)

theorem mkCatalog_keys_nodup (master : List Row) :
    ((mkCatalog master).map Prod.fst).Nodup :=
  foldl_ainsert_keys_nodup _ _ master [] (by simp)

theorem initAsms_keys_nodup (tables : List Table) :
    ((initAsms tables).map Prod.fst).Nodup :=
  foldl_ainsert_keys_nodup _ _ tables [] (by simp)

theorem from_folder_ok_elim {master : List Row} {tables : List Table} {root : String} {st : St}
    (h : BOM.from_folder master tables = .ok (root, st)) :
    ∃ st1, resolveAll (initSt master tables) = .ok st1 ∧ findRoot st1 = .ok (root, st) := by
  unfold BOM.from_folder at h
  cases hr : resolveAll (initSt master tables) with
  | error e => rw [hr] at h; exact Except.noConfusion h
  | ok st1 => rw [hr] at h; exact ⟨st1, rfl, h⟩

theorem findRoot_ok_elim {st : St} {root : String} {st' : St}
    (h : findRoot st = .ok (root, st')) :
    (st.asms.filter (fun p => p.2.parent = none)).map Prod.fst = [root] ∧
    st' = { st with asms := aset root (fun d => { d with parts_db := some st.catalog }) st.asms } := by
  unfold findRoot at h
  by_cases hlen : ((st.asms.filter (fun p => p.2.parent = none)).map Prod.fst).length > 1
  · rw [if_pos hlen] at h; exact Except.noConfusion h
  · rw [if_neg hlen] at h
    cases hroots : (st.asms.filter (fun p => p.2.parent = none)).map Prod.fst with
    | nil => rw [hroots] at h; exact Except.noConfusion h
    | cons r tl =>
      rw [hroots] at h
      injection h with h2
      rw [Prod.mk.injEq] at h2
      obtain ⟨h3, h4⟩ := h2
      rw [hroots] at hlen
      have htl : tl = [] := by
        rcases tl with _ | ⟨x, xs⟩
        · rfl
        · exact absurd (by simp only [List.length_cons]; omega) hlen
      subst htl h3
      exact ⟨rfl, h4.symm⟩

theorem pdbSet_asmType (st : St) (r : String) (pd : Option (List (String × Item))) (a : String) :
    asmType { st with asms := aset r (fun d => { d with parts_db := pd }) st.asms } a
      = asmType st a := by
  unfold asmType
  simp only [alookup_aset]
  by_cases h : a = r
  · subst h; cases hl : alookup a st.asms <;> simp [hl]
  · simp [h]

theorem pdbSet_asmParent (st : St) (r : String) (pd : Option (List (String × Item))) (a : String) :
    asmParent { st with asms := aset r (fun d => { d with parts_db := pd }) st.asms } a
      = asmParent st a := by
  unfold asmParent
  simp only [alookup_aset]
  by_cases h : a = r
  · subst h; cases hl : alookup a st.asms <;> simp [hl]
  · simp [h]

theorem pdbSet_childrenOf (st : St) (r : String) (pd : Option (List (String × Item))) (p : String) :
    childrenOf { st with asms := aset r (fun d => { d with parts_db := pd }) st.asms } p
      = childrenOf st p := by
  unfold childrenOf
  simp only [alookup_aset]
  by_cases h : p = r
  · subst h; cases hl : alookup p st.asms <;> simp [hl]
  · simp [h]

theorem pdbSet_keys (st : St) (r : String) (pd : Option (List (String × Item))) :
    ({ st with asms := aset r (fun d => { d with parts_db := pd }) st.asms } : St).asms.map
        Prod.fst = st.asms.map Prod.fst := by
  simp [aset_keys]

theorem resolveAll_wf {master : List Row} {tables : List Table} {st1 : St}
    (h : resolveAll (initSt master tables) = .ok st1) :
    AsmWF ((initAsms tables).map Prod.fst) st1 := by
  unfold resolveAll at h
  exact resolveAllAux_wf _ (initAsms_keys_nodup tables) (fun n hn => hn) _ _ h
    (asmWF_init master tables) (fun n _ => initSt_children_empty master tables n)

theorem asmWF_from_folder {master : List Row} {tables : List Table} {root : String} {st : St}
    (h : BOM.from_folder master tables = .ok (root, st)) :
    AsmWF ((initAsms tables).map Prod.fst) st := by
  obtain ⟨st1, hres, hfr⟩ := from_folder_ok_elim h
  obtain ⟨hroots, hst⟩ := findRoot_ok_elim hfr
  obtain ⟨wK, wTP, wPK⟩ := resolveAll_wf hres
  subst hst
  refine ⟨?_, ?_, ?_⟩
  · rw [pdbSet_keys]; exact wK
  · intro a ha
    rw [pdbSet_asmType, pdbSet_asmParent]
    exact wTP a ha
  · intro a p hap
    rw [pdbSet_asmParent] at hap
    exact wPK a p hap

theorem asmType_isSome_mem {st : St} {a : String} {x : String}
    (h : asmType st a = some x) : a ∈ st.asms.map Prod.fst := by
  rw [← alookup_isSome_iff]
  unfold asmType at h
  cases hl : alookup a st.asms with
  | none => rw [hl] at h; simp at h
  | some d => rfl

theorem nodup_alookup [DecidableEq α] {l : List (α × β)} (h : (l.map Prod.fst).Nodup)
    {a : α} {b : β} (hm : (a, b) ∈ l) : alookup a l = some b := by
  induction l with
  | nil => exact absurd hm (List.not_mem_nil _)
  | cons p t ih =>
    rw [List.map_cons, List.nodup_cons] at h
    obtain ⟨hp, ht⟩ := h
    rcases List.mem_cons.mp hm with hm1 | hm1
    · rw [← hm1]
      simp [alookup]
    · have hpa : p.1 ≠ a := by
        intro hh
        apply hp
        rw [hh]
        exact List.mem_map_of_mem Prod.fst hm1
      simp [alookup, hpa, ih ht hm1]

theorem mem_flatFuel {st : St} :
    ∀ (fuel : Nat) (b : String) (c : Child), c ∈ BOM.flatFuel st fuel b →
      ∃ b', c ∈ BOM.parts st b' := by
  intro fuel
  induction fuel with
  | zero => intro b c hc; exact absurd hc (List.not_mem_nil c)
  | succ n ih =>
    intro b c hc
    rw [BOM.flatFuel] at hc
    rcases List.mem_append.mp hc with h1 | h1
    · exact ⟨b, h1⟩
    · obtain ⟨l, hl, hcl⟩ := List.mem_flatten.mp h1
      obtain ⟨c', hc', hlc⟩ := List.mem_map.mp hl
      cases c' with
      | asm a =>
        rw [← hlc] at hcl
        exact ih a c hcl
      | item pn =>
        rw [← hlc] at hcl
        exact absurd hcl (List.not_mem_nil c)
      | link lid t =>
        rw [← hlc] at hcl
        exact absurd hcl (List.not_mem_nil c)

theorem mem_parts_childType {st : St} {b : String} {c : Child} (h : c ∈ BOM.parts st b) :
    BOM.childType st c = some "part" := by
  unfold BOM.parts at h
  exact of_decide_eq_true (List.mem_filter.mp h).2

theorem rr_catalogKeys {st : St} {cur : String} {acc : List Child} {row : Row}
    {st' : St} {acc' : List Child}
    (h : resolveRow st cur acc row = .ok (st', acc')) :
    st'.catalog.map Prod.fst = st.catalog.map Prod.fst := by
  rcases resolveRow_elim h with
    ⟨_, st1, hsp, hst', _⟩ | ⟨_, it, _, ⟨_, hst', _⟩ | ⟨_, hst', _⟩⟩
  · subst hst'
    show st1.catalog.map Prod.fst = st.catalog.map Prod.fst
    exact catalogKeys_setParent hsp
  · subst hst'; rfl
  · subst hst'; rfl

theorem resolveRows_catalogKeys {b : String} {rows : List Row} {st st' : St} {cs : List Child}
    (h : resolveRows st b rows = .ok (st', cs)) :
    st'.catalog.map Prod.fst = st.catalog.map Prod.fst := by
  unfold resolveRows at h
  have := foldlM_inv
    (P := fun s : St × List Child => s.1.catalog.map Prod.fst = st.catalog.map Prod.fst)
    (f := fun s row => resolveRow s.1 b s.2 row) ?_ rows (st, []) (st', cs) h rfl
  · exact this
  · rintro ⟨s, acc⟩ row ⟨s', acc'⟩ hstep hp
    rw [rr_catalogKeys hstep]
    exact hp

theorem resolveAsm_catalogKeys {b : String} {st st' : St}
    (h : resolveAsm st b = .ok st') :
    st'.catalog.map Prod.fst = st.catalog.map Prod.fst := by
  simp only [resolveAsm] at h
  cases hr : resolveRows st b
      (match alookup b st.asms with
        | some d => d.rows
        | none => []) with
  | error e => rw [hr] at h; exact Except.noConfusion h
  | ok pr =>
    obtain ⟨st1, cs⟩ := pr
    rw [hr] at h
    rw [setChildren_catalogKeys h, resolveRows_catalogKeys hr]

theorem from_folder_catalogKeys {master : List Row} {tables : List Table} {root : String} {st : St}
    (h : BOM.from_folder master tables = .ok (root, st)) :
    st.catalog.map Prod.fst = (mkCatalog master).map Prod.fst := by
  obtain ⟨st1, hres, hfr⟩ := from_folder_ok_elim h
  obtain ⟨_, hst⟩ := findRoot_ok_elim hfr
  subst hst
  show st1.catalog.map Prod.fst = (mkCatalog master).map Prod.fst
  unfold resolveAll at hres
  exact foldlM_inv
    (P := fun s : St => s.catalog.map Prod.fst = (mkCatalog master).map Prod.fst)
    (fun s a s' hstep hp => by
      show s'.catalog.map Prod.fst = (mkCatalog master).map Prod.fst
      rw [resolveAsm_catalogKeys hstep]
      exact hp)
    _ _ _ hres rfl

/-! ### Claims C8, C9 and C10 -/

/-- Claim C8 (confirmed): for every successfully built tree, every
element of the flattened root is a part-kind leaf (an `Item` or an
`ItemLink` whose delegated `item_type` is `'part'`), and no assembly
node ever appears in the flattened output: an assembly's `item_type` is
only ever `None` or `'assembly'`, so the `parts` filter never admits
one. -/
theorem c8_flat_only_parts (master : List Row) (tables : List Table) (root : String) (st : St)
    (h : BOM.from_folder master tables = .ok (root, st)) :
    ∀ c ∈ BOM.flat st root, BOM.childType st c = some "part" ∧ childIsAsm c = false := by
  intro c hc
  unfold BOM.flat at hc
  obtain ⟨b', hb'⟩ := mem_flatFuel _ _ c hc
  have hpt := mem_parts_childType hb'
  refine ⟨hpt, ?_⟩
  cases c with
  | item pn => rfl
  | link lid t => rfl
  | asm a =>
    exfalso
    obtain ⟨wK, wTP, _⟩ := asmWF_from_folder h
    have htype : asmType st a = some "part" := hpt
    have hmem : a ∈ (initAsms tables).map Prod.fst := by
      rw [← wK]
      exact asmType_isSome_mem htype
    have hw := wTP a hmem
    rw [htype] at hw
    by_cases hp : (asmParent st a).isSome
    · rw [if_pos hp] at hw
      exact absurd (Option.some.inj hw) (by decide)
    · rw [if_neg hp] at hw
      exact Option.noConfusion hw

/-- Witness for C8 at Example A: the first flattened element of the
built tree is a part-kind leaf and not an assembly node. -/
theorem c8_witness :
    BOM.childType exA_st (Child.item "P1") = some "part" ∧
    childIsAsm (Child.item "P1") = false :=
  c8_flat_only_parts exA_master exA_tables "TOP" exA_st rfl (Child.item "P1") (by decide)

/-- Claim C9 amended: in a successfully built tree every assembly node
other than the root has item kind `'assembly'` and a parent that is
another assembly node of the build, but the root's item kind is left
unset (`None`), not `'assembly'` — the kind tag is only assigned when a
node is referenced as a child, which never happens to the root; the
root's parent is none. -/
theorem c9_amended (master : List Row) (tables : List Table) (root : String) (st : St)
    (h : BOM.from_folder master tables = .ok (root, st)) :
    asmType st root = none ∧ asmParent st root = none ∧
    (∀ a, a ∈ st.asms.map Prod.fst → a ≠ root →
      asmType st a = some "assembly" ∧ asmParent st a ≠ none ∧
      (∀ p, asmParent st a = some p → p ∈ st.asms.map Prod.fst)) := by
  obtain ⟨st1, hres, hfr⟩ := from_folder_ok_elim h
  obtain ⟨hroots, hst⟩ := findRoot_ok_elim hfr
  obtain ⟨wK, wTP, wPK⟩ := resolveAll_wf hres
  have hnodup1 : (st1.asms.map Prod.fst).Nodup := by
    rw [wK]; exact initAsms_keys_nodup tables
  have hkeys : st.asms.map Prod.fst = (initAsms tables).map Prod.fst := by
    rw [hst, pdbSet_keys, wK]
  -- extract the unique parentless entry of st1
  obtain ⟨d, hdmem, hdpar⟩ :
      ∃ d, (root, d) ∈ st1.asms ∧ d.parent = none := by
    cases hf : st1.asms.filter (fun p => decide (p.2.parent = none)) with
    | nil => rw [hf] at hroots; exact absurd hroots (by simp)
    | cons q qs =>
      rw [hf] at hroots
      have hq : q ∈ st1.asms.filter (fun p => decide (p.2.parent = none)) := by
        rw [hf]; exact List.mem_cons_self _ _
      have hq2 := List.mem_filter.mp hq
      have hq1 : q.1 = root := by
        have := congrArg (fun l => l.headD "") hroots
        simpa using this
      refine ⟨q.2, ?_, of_decide_eq_true hq2.2⟩
      rw [← hq1]
      exact hq2.1
  have hlook : alookup root st1.asms = some d := nodup_alookup hnodup1 hdmem
  have hroot_par1 : asmParent st1 root = none := by
    unfold asmParent
    rw [hlook]
    exact hdpar
  have hrootmem : root ∈ (initAsms tables).map Prod.fst := by
    rw [← wK]
    exact List.mem_map_of_mem Prod.fst hdmem
  have hroot_type1 : asmType st1 root = none := by
    have := wTP root hrootmem
    rw [hroot_par1] at this
    simpa using this
  refine ⟨?_, ?_, ?_⟩
  · rw [hst, pdbSet_asmType]; exact hroot_type1
  · rw [hst, pdbSet_asmParent]; exact hroot_par1
  · intro a hamem hane
    have hamem1 : a ∈ st1.asms.map Prod.fst := by
      rw [wK, ← hkeys]; exact hamem
    obtain ⟨da, hda⟩ := Option.isSome_iff_exists.mp ((alookup_isSome_iff a st1.asms).mpr hamem1)
    have hdamem := alookup_mem hda
    have hpar_ne : da.parent ≠ none := by
      intro hpar
      have hfmem : (a, da) ∈ st1.asms.filter (fun p => decide (p.2.parent = none)) :=
        List.mem_filter.mpr ⟨hdamem, by rw [hpar]; rfl⟩
      have : a ∈ (st1.asms.filter (fun p => decide (p.2.parent = none))).map Prod.fst :=
        List.mem_map_of_mem Prod.fst hfmem
      rw [hroots] at this
      exact hane (List.mem_singleton.mp this)
    have hpar1 : asmParent st1 a = da.parent := by
      unfold asmParent
      rw [hda]
      rfl
    have htype1 : asmType st1 a = some "assembly" := by
      have := wTP a (by rw [← wK]; exact hamem1)
      rw [hpar1] at this
      rw [this, if_pos (Option.isSome_iff_ne_none.mpr hpar_ne)]
    refine ⟨?_, ?_, ?_⟩
    · rw [hst, pdbSet_asmType]; exact htype1
    · rw [hst, pdbSet_asmParent, hpar1]; exact hpar_ne
    · intro p hp
      rw [hst, pdbSet_asmParent] at hp
      rw [hkeys]
      exact wPK a p hp

/-- Witness for C9 at Example A: the non-root assembly `SUB` of the
built tree has item kind `'assembly'`. -/
theorem c9_witness : asmType exA_st "SUB" = some "assembly" :=
  ((c9_amended exA_master exA_tables "TOP" exA_st rfl).2.2 "SUB" (by decide) (by decide)).1

/-- Claim C10 amended: at most one `Item` instance is ever created per
PN in a build (the catalog keys of every successful build are without
duplicates, and resolution never creates further Items), and when the
same part PN occurs in two rows of one assembly both rows do append the
very same `Item` instance to the pending child list with no alias
created (its owning parent is still unset until the child list is
assigned) — but the child-list assignment then fails with `TreeError`
(`anytree` refuses the same node twice), so the build aborts instead of
making both rows children. -/
theorem c10_amended :
    (∀ (master : List Row) (tables : List Table) (root : String) (st : St),
      BOM.from_folder master tables = .ok (root, st) →
      (st.catalog.map Prod.fst).Nodup) ∧
    resolveRows (initSt exTwice_master exTwice_tables) "TOP" [⟨"P1", []⟩, ⟨"P1", []⟩]
      = .ok (initSt exTwice_master exTwice_tables, [Child.item "P1", Child.item "P1"]) ∧
    alookup "P1" (initSt exTwice_master exTwice_tables).catalog
      = some { parent := none, item_type := "part", kwargs := [] } ∧
    BOM.from_folder exTwice_master exTwice_tables = .error .treeError := by
  refine ⟨?_, rfl, rfl, rfl⟩
  intro master tables root st h
  rw [from_folder_catalogKeys h]
  exact mkCatalog_keys_nodup master

/-- Witness for C10: the successful Example A build has duplicate-free
catalog keys. -/
theorem c10_witness : (exA_st.catalog.map Prod.fst).Nodup :=
  c10_amended.1 exA_master exA_tables "TOP" exA_st rfl

/-! ### Parent-chain termination -/

theorem parentIter_none (st : St) : ∀ n, parentIter st n none = none
  | 0 => rfl
  | n + 1 => by
    show parentIter st n (none.bind (asmParent st)) = none
    exact parentIter_none st n

theorem parentIter_add (st : St) (m n : Nat) (o : Option String) :
    parentIter st (m + n) o = parentIter st n (parentIter st m o) := by
  induction m generalizing o with
  | zero => rw [Nat.zero_add]; rfl
  | succ k ih =>
    have h1 : k + 1 + n = (k + n) + 1 := by omega
    rw [h1]
    show parentIter st (k + n) (o.bind (asmParent st)) =
      parentIter st n (parentIter st k (o.bind (asmParent st)))
    exact ih (o.bind (asmParent st))

theorem dies_mono (st : St) {n : Nat} {o : Option String}
    (h : parentIter st n o = none) {m : Nat} (hm : n ≤ m) :
    parentIter st m o = none := by
  obtain ⟨k, rfl⟩ := Nat.le.dest hm
  rw [parentIter_add, h, parentIter_none]

theorem mem_ancestorChain_of_iter (st : St) :
    ∀ (k F : Nat) (q y : String), k < F → parentIter st k (some q) = some y →
      y ∈ ancestorChain st F (some q) := by
  intro k
  induction k with
  | zero =>
    intro F q y hF hit
    injection hit with h1
    cases F with
    | zero => exact absurd hF (by omega)
    | succ F' =>
      rw [ancestorChain, h1]
      exact List.mem_cons_self _ _
  | succ m ih =>
    intro F q y hF hit
    cases F with
    | zero => exact absurd hF (by omega)
    | succ F' =>
      replace hit : parentIter st m (asmParent st q) = some y := hit
      cases hp : asmParent st q with
      | none =>
        rw [hp, parentIter_none] at hit
        exact Option.noConfusion hit
      | some q' =>
        rw [hp] at hit
        rw [ancestorChain]
        refine List.mem_cons_of_mem _ ?_
        show y ∈ ancestorChain st F' (asmParent st q)
        rw [hp]
        exact ih F' q' y (by omega) hit

theorem parentIter_congr {st1 st2 : St}
    (h : ∀ x, asmParent st1 x = asmParent st2 x) :
    ∀ (n : Nat) (o : Option String), parentIter st1 n o = parentIter st2 n o := by
  intro n
  induction n with
  | zero => intro o; rfl
  | succ m ih =>
    intro o
    cases o with
    | none =>
      show parentIter st1 m (none.bind _) = parentIter st2 m (none.bind _)
      exact ih none
    | some x =>
      show parentIter st1 m (asmParent st1 x) = parentIter st2 m (asmParent st2 x)
      rw [h x]
      exact ih (asmParent st2 x)

theorem parentIter_eq_of_avoid {st st' : St} {a0 : String} {v : Option String}
    (hP : ∀ x, asmParent st' x = if x = a0 then v else asmParent st x) :
    ∀ (n : Nat) (o : Option String),
      (∀ k, k < n → parentIter st' k o ≠ some a0) →
      parentIter st' n o = parentIter st n o := by
  intro n
  induction n with
  | zero => intro o _; rfl
  | succ m ih =>
    intro o havoid
    cases o with
    | none =>
      show parentIter st' m (none.bind _) = parentIter st m (none.bind _)
      rw [show (none : Option String).bind (asmParent st') = none from rfl,
        show (none : Option String).bind (asmParent st) = none from rfl,
        parentIter_none, parentIter_none]
    | some x =>
      have hx : x ≠ a0 := fun hh => havoid 0 (by omega) (by rw [hh]; rfl)
      have hstep : asmParent st' x = asmParent st x := by rw [hP x, if_neg hx]
      show parentIter st' m (asmParent st' x) = parentIter st m (asmParent st x)
      rw [hstep]
      apply ih
      intro k hk hcontra
      refine havoid (k + 1) (by omega) ?_
      show parentIter st' k (asmParent st' x) = some a0
      rw [hstep]
      exact hcontra

theorem no_cycle_updated {st st' : St} {a0 : String} {v : Option String} {L : Nat}
    (hP : ∀ x, asmParent st' x = if x = a0 then v else asmParent st x)
    (hterm : TermB st (L + 1))
    (hloop : ∀ k, parentIter st k v ≠ some a0) :
    ∀ (z : String) (m : Nat), 1 ≤ m → parentIter st' m (some z) ≠ some z := by
  intro z m hm hcyc
  by_cases hvisit : ∃ k, parentIter st' k (some z) = some a0
  · obtain ⟨k0, hk0⟩ := hvisit
    have h1 : parentIter st' (m + k0) (some z) = some a0 := by
      rw [parentIter_add st' m k0, hcyc, hk0]
    have h2 : parentIter st' (k0 + m) (some z) = parentIter st' m (some a0) := by
      rw [parentIter_add st' k0 m, hk0]
    have hcyca0 : parentIter st' m (some a0) = some a0 := by
      rw [← h2, Nat.add_comm k0 m, h1]
    obtain ⟨m', rfl⟩ : ∃ m', m = m' + 1 := ⟨m - 1, by omega⟩
    have hstep0 : parentIter st' (m' + 1) (some a0) = parentIter st' m' v := by
      show parentIter st' m' (asmParent st' a0) = _
      rw [hP a0, if_pos rfl]
    rw [hstep0] at hcyca0
    have hex : ∃ k, parentIter st' k v = some a0 := ⟨m', hcyca0⟩
    have hkm := Nat.find_spec hex
    have havoid : ∀ k, k < Nat.find hex → parentIter st' k v ≠ some a0 :=
      fun k hk => Nat.find_min hex hk
    rw [parentIter_eq_of_avoid hP _ _ havoid] at hkm
    exact hloop _ hkm
  · push_neg at hvisit
    have hagree : ∀ n, parentIter st' n (some z) = parentIter st n (some z) :=
      fun n => parentIter_eq_of_avoid hP n _ (fun k _ => hvisit k)
    have hiter : ∀ q, parentIter st' (q * m) (some z) = some z := by
      intro q
      induction q with
      | zero => rw [Nat.zero_mul]; rfl
      | succ qq ih =>
        have hq : (qq + 1) * m = qq * m + m := by ring
        rw [hq, parentIter_add, ih, hcyc]
    have hge : L + 1 ≤ (L + 2) * m := by
      have := Nat.mul_le_mul_left (L + 2) hm
      omega
    have hdead : parentIter st' ((L + 2) * m) (some z) = none := by
      have h0 : parentIter st' (L + 1) (some z) = none := by
        rw [hagree]; exact hterm z
      exact dies_mono st' h0 hge
    rw [hiter (L + 2)] at hdead
    exact Option.noConfusion hdead

theorem termB_updated {st st' : St} {a0 : String} {v : Option String} {L : Nat}
    (hP : ∀ x, asmParent st' x = if x = a0 then v else asmParent st x)
    (hterm : TermB st (L + 1))
    (hloop : ∀ k, parentIter st k v ≠ some a0)
    (hkeys : ∀ x p, asmParent st' x = some p → p ∈ asmKeys st')
    (hlen : (asmKeys st').length = L) :
    TermB st' (L + 1) := by
  intro x
  by_contra hne
  have hall : ∀ k, k ≤ L + 1 → parentIter st' k (some x) ≠ none := by
    intro k hk hnone
    exact hne (dies_mono st' hnone hk)
  set f : Nat → String := fun k => (parentIter st' k (some x)).getD "" with hf
  have hfk : ∀ k, k ≤ L + 1 → parentIter st' k (some x) = some (f k) := by
    intro k hk
    cases hc : parentIter st' k (some x) with
    | none => exact absurd hc (hall k hk)
    | some y => rw [hf]; simp [hc]
  have hmem : ∀ k, k + 1 ≤ L + 1 → f (k + 1) ∈ asmKeys st' := by
    intro k hk
    have hstep : parentIter st' (k + 1) (some x) =
        parentIter st' 1 (parentIter st' k (some x)) := by
      rw [← parentIter_add]
    rw [hfk (k + 1) hk, hfk k (by omega)] at hstep
    replace hstep : some (f (k + 1)) = asmParent st' (f k) := hstep
    exact hkeys (f k) (f (k + 1)) hstep.symm
  have hmapsto : ∀ k ∈ Finset.range (L + 1), f (k + 1) ∈ (asmKeys st').toFinset := by
    intro k hk
    rw [List.mem_toFinset]
    have hkr := Finset.mem_range.mp hk
    exact hmem k (by omega)
  have hcardlt : (asmKeys st').toFinset.card < (Finset.range (L + 1)).card := by
    have h1 : (asmKeys st').toFinset.card ≤ (asmKeys st').length := List.toFinset_card_le _
    rw [hlen] at h1
    rw [Finset.card_range]
    omega
  obtain ⟨i, hi, j, hj, hij, heq⟩ :=
    Finset.exists_ne_map_eq_of_card_lt_of_maps_to hcardlt hmapsto
  have hcycle : ∀ {i j : Nat}, i ∈ Finset.range (L + 1) → j ∈ Finset.range (L + 1) →
      i < j → f (i + 1) = f (j + 1) → False := by
    intro i j hi hj hij heq
    have hiL := Finset.mem_range.mp hi
    have hjL := Finset.mem_range.mp hj
    have hchain : parentIter st' (j - i) (some (f (i + 1))) = some (f (j + 1)) := by
      have := parentIter_add st' (i + 1) (j - i) (some x)
      rw [hfk (i + 1) (by omega)] at this
      have harith : i + 1 + (j - i) = j + 1 := by omega
      rw [harith, hfk (j + 1) (by omega)] at this
      exact this.symm
    rw [← heq] at hchain
    exact no_cycle_updated hP hterm hloop (f (i + 1)) (j - i) (by omega) hchain
  rcases Nat.lt_or_ge i j with hlt | hge
  · exact hcycle hi hj hlt heq
  · have hlt : j < i := by omega
    exact hcycle hj hi hlt heq.symm

theorem hloop_of_checkLoop {st : St} {a0 p : String} {L : Nat}
    (hterm : TermB st (L + 1)) (hL : st.asms.length = L)
    (hcl : a0 ∉ ancestorChain st (st.asms.length + 1) (some p)) :
    ∀ k, parentIter st k (some p) ≠ some a0 := by
  intro k hk
  by_cases hkL : k < L + 1
  · refine hcl ?_
    rw [hL]
    exact mem_ancestorChain_of_iter st k (L + 1) p a0 hkL hk
  · have hdead : parentIter st k (some p) = none :=
      dies_mono st (hterm p) (by omega)
    rw [hdead] at hk
    exact Option.noConfusion hk

theorem hloop_none {st : St} {a0 : String} :
    ∀ k, parentIter st k (none : Option String) ≠ some a0 := by
  intro k hk
  rw [parentIter_none] at hk
  exact Option.noConfusion hk

/-! ### Frame lemmas for canonicity and pointers -/

theorem setParent_ok_elim2 {st : St} {c : Child} {v : Option String} {st' : St}
    (h : setParent st c v = .ok st') :
    (parentOf st c = v ∧ st' = st) ∨
    (parentOf st c ≠ v ∧ checkLoop st c v = .ok () ∧ st' = setParentForce st c v) := by
  unfold setParent at h
  by_cases hp : parentOf st c = v
  · rw [if_pos hp] at h
    injection h with h1
    exact Or.inl ⟨hp, h1.symm⟩
  · rw [if_neg hp] at h
    cases hc : checkLoop st c v with
    | error e => rw [hc] at h; exact Except.noConfusion h
    | ok u =>
      rw [hc] at h
      injection h with h1
      cases u
      refine Or.inr ⟨hp, ?_, h1.symm⟩
      rfl

theorem checkLoop_ok_not_mem {st : St} {a0 p : String}
    (h : checkLoop st (.asm a0) (some p) = .ok ()) :
    a0 ∉ ancestorChain st (st.asms.length + 1) (some p) := by
  intro hm
  have h' : (if a0 ∈ ancestorChain st (st.asms.length + 1) (some p) then
      (Except.error BuildError.loopError : Except BuildError Unit) else Except.ok ()) =
      Except.ok () := h
  rw [if_pos hm] at h'
  exact Except.noConfusion h'

theorem links_removeFromTuple (st : St) (q : String) (c : Child) :
    (removeFromTuple st q c).links = st.links := rfl

theorem links_appendToTuple (st : St) (q : String) (c : Child) :
    (appendToTuple st q c).links = st.links := rfl

theorem links_detachStep (st : St) (c : Child) :
    (detachStep st c).links = st.links := by
  unfold detachStep
  cases hp : parentOf st c
  · rfl
  · rfl

theorem parentOf_removeFromTuple (st : St) (q : String) (c0 : Child) (c : Child) :
    parentOf (removeFromTuple st q c0) c = parentOf st c := by
  cases c with
  | item pn => rfl
  | link lid t => rfl
  | asm a => exact asmParent_removeFromTuple st q c0 a

theorem parentOf_appendToTuple (st : St) (q : String) (c0 : Child) (c : Child) :
    parentOf (appendToTuple st q c0) c = parentOf st c := by
  cases c with
  | item pn => rfl
  | link lid t => rfl
  | asm a => exact asmParent_appendToTuple st q c0 a

theorem parentOf_detachStep (st : St) (c0 : Child) (c : Child) :
    parentOf (detachStep st c0) c = parentOf st c := by
  unfold detachStep
  cases hp : parentOf st c0
  · rfl
  · exact parentOf_removeFromTuple st _ _ c

theorem parentOf_setPtr_cases (st : St) (c0 c : Child) (v : Option String) :
    parentOf (setPtr st c0 v) c = parentOf st c ∨ parentOf (setPtr st c0 v) c = v := by
  cases c0 with
  | item pn0 =>
    cases c with
    | item pn =>
      unfold parentOf setPtr
      simp only [alookup_aset]
      by_cases h : pn = pn0
      · subst h
        cases hl : alookup pn st.catalog with
        | none => left; simp [hl]
        | some d => right; simp [hl]
      · left; simp [h]
    | link lid t => left; rfl
    | asm a => left; rfl
  | link lid0 t0 =>
    cases c with
    | item pn => left; rfl
    | link lid t =>
      unfold parentOf setPtr
      simp only [alookup_aset]
      by_cases h : lid = lid0
      · subst h
        cases hl : alookup lid st.links with
        | none => left; simp [hl]
        | some d => right; simp [hl]
      · left; simp [h]
    | asm a => left; rfl
  | asm a0 =>
    cases c with
    | item pn => left; rfl
    | link lid t => left; rfl
    | asm a =>
      unfold parentOf setPtr
      simp only [alookup_aset]
      by_cases h : a = a0
      · subst h
        cases hl : alookup a st.asms with
        | none => left; simp [hl]
        | some d => right; simp [hl]
      · left; simp [h]

theorem parentOf_force_cases (st : St) (c0 c : Child) (v : Option String) :
    parentOf (setParentForce st c0 v) c = parentOf st c ∨
    parentOf (setParentForce st c0 v) c = v := by
  unfold setParentForce
  cases v with
  | none =>
    rcases parentOf_setPtr_cases (detachStep st c0) c0 c none with h | h
    · left; rw [h, parentOf_detachStep]
    · right; rw [h]
  | some p =>
    rcases parentOf_setPtr_cases (detachStep st c0) c0 c (some p) with h | h
    · left; rw [parentOf_appendToTuple, h, parentOf_detachStep]
    · right; rw [parentOf_appendToTuple, h]

theorem exists_target_congr {o1 o2 : Option ItemLink} {t : String}
    (h : o1.map (·.target) = o2.map (·.target)) :
    (∃ l, o1 = some l ∧ l.target = t) ↔ (∃ l, o2 = some l ∧ l.target = t) := by
  cases o1 <;> cases o2 <;> simp_all

theorem canonical_congr {st1 st2 : St}
    (hcat : st1.catalog.map Prod.fst = st2.catalog.map Prod.fst)
    (hasm : st1.asms.map Prod.fst = st2.asms.map Prod.fst)
    (hlnk : ∀ lid, (alookup lid st1.links).map (·.target) =
      (alookup lid st2.links).map (·.target))
    (c : Child) : canonical st1 c ↔ canonical st2 c := by
  cases c with
  | item pn => unfold canonical; rw [hcat]
  | asm a => unfold canonical; rw [hasm]
  | link lid t => exact exists_target_congr (hlnk lid)

theorem linkTargets_setPtr (st : St) (c : Child) (v : Option String) (lid : Nat) :
    (alookup lid (setPtr st c v).links).map (·.target) =
      (alookup lid st.links).map (·.target) := by
  cases c with
  | item pn => rfl
  | asm a => rfl
  | link lid0 t0 =>
    unfold setPtr
    simp only [alookup_aset]
    by_cases h : lid = lid0
    · subst h
      cases hl : alookup lid st.links <;> simp [hl]
    · simp [h]

theorem linkTargets_force (st : St) (c : Child) (v : Option String) (lid : Nat) :
    (alookup lid (setParentForce st c v).links).map (·.target) =
      (alookup lid st.links).map (·.target) := by
  unfold setParentForce
  cases v with
  | none => rw [linkTargets_setPtr, links_detachStep]
  | some p =>
    rw [links_appendToTuple, linkTargets_setPtr, links_detachStep]

theorem canonical_detachStep_iff (st : St) (c0 : Child) (c : Child) :
    canonical (detachStep st c0) c ↔ canonical st c := by
  refine canonical_congr ?_ ?_ ?_ c
  · rw [catalog_detachStep]
  · rw [asmsKeys_detachStep]
  · intro lid; rw [links_detachStep]

theorem canonical_force_iff (st : St) (c0 : Child) (v : Option String) (c : Child) :
    canonical (setParentForce st c0 v) c ↔ canonical st c := by
  refine canonical_congr ?_ ?_ ?_ c
  · exact catalogKeys_setParentForce st c0 v
  · exact asmsKeys_setParentForce st c0 v
  · exact linkTargets_force st c0 v

theorem canonical_setParent_iff {st : St} {c0 : Child} {v : Option String} {st' : St}
    (h : setParent st c0 v = .ok st') (c : Child) :
    canonical st' c ↔ canonical st c := by
  rcases setParent_ok_elim h with ⟨_, rfl⟩ | ⟨_, rfl⟩
  · exact Iff.rfl
  · exact canonical_force_iff st c0 v c

theorem parentOf_setPtr_self (st : St) (c : Child) (v : Option String)
    (hc : canonical st c) :
    parentOf (setPtr st c v) c = v := by
  cases c with
  | item pn =>
    obtain ⟨d, hd⟩ := Option.isSome_iff_exists.mp ((alookup_isSome_iff pn st.catalog).mpr hc)
    unfold parentOf setPtr
    simp [alookup_aset, hd]
  | link lid t =>
    obtain ⟨l, hl, _⟩ := hc
    unfold parentOf setPtr
    simp [alookup_aset, hl]
  | asm a =>
    exact asmParent_setPtr_self st v a hc

theorem parentOf_setPtr_ne (st : St) (c c' : Child) (v : Option String)
    (hc : canonical st c) (hc' : canonical st c') (hne : c' ≠ c) :
    parentOf (setPtr st c v) c' = parentOf st c' := by
  cases c with
  | item pn0 =>
    cases c' with
    | item pn =>
      have hpn : pn ≠ pn0 := fun hh => hne (by rw [hh])
      unfold parentOf setPtr
      simp [alookup_aset, hpn]
    | link lid t => rfl
    | asm a => rfl
  | link lid0 t0 =>
    cases c' with
    | item pn => rfl
    | link lid t =>
      obtain ⟨l0, hl0, ht0⟩ := hc
      obtain ⟨l, hl, ht⟩ := hc'
      have hlid : lid ≠ lid0 := by
        intro hh
        subst hh
        rw [hl0] at hl
        injection hl with hll
        subst hll
        exact hne (by rw [← ht, ← ht0])
      unfold parentOf setPtr
      simp [alookup_aset, hlid]
    | asm a => rfl
  | asm a0 =>
    cases c' with
    | item pn => rfl
    | link lid t => rfl
    | asm a =>
      have haa : a ≠ a0 := fun hh => hne (by rw [hh])
      unfold parentOf setPtr
      simp [alookup_aset, haa]

theorem parentOf_force_self (st : St) (c : Child) (v : Option String)
    (hc : canonical st c) :
    parentOf (setParentForce st c v) c = v := by
  have hc2 : canonical (detachStep st c) c := (canonical_detachStep_iff st c c).mpr hc
  unfold setParentForce
  cases v with
  | none => exact parentOf_setPtr_self _ _ _ hc2
  | some p =>
    rw [parentOf_appendToTuple]
    exact parentOf_setPtr_self _ _ _ hc2

theorem parentOf_force_ne (st : St) (c c' : Child) (v : Option String)
    (hc : canonical st c) (hc' : canonical st c') (hne : c' ≠ c) :
    parentOf (setParentForce st c v) c' = parentOf st c' := by
  have hc2 : canonical (detachStep st c) c := (canonical_detachStep_iff st c c).mpr hc
  have hc2' : canonical (detachStep st c) c' := (canonical_detachStep_iff st c c').mpr hc'
  unfold setParentForce
  cases v with
  | none =>
    rw [parentOf_setPtr_ne _ _ _ _ hc2 hc2' hne, parentOf_detachStep]
  | some p =>
    rw [parentOf_appendToTuple, parentOf_setPtr_ne _ _ _ _ hc2 hc2' hne, parentOf_detachStep]

theorem count_filter_ne_self {α : Type} [DecidableEq α] (l : List α) (c : α) :
    (l.filter (fun x => x ≠ c)).count c = 0 := by
  rw [List.count_eq_zero]
  intro hmem
  have h := List.of_mem_filter hmem
  simp at h

theorem count_filter_ne_other {α : Type} [DecidableEq α] (l : List α) (c c' : α)
    (h : c' ≠ c) :
    (l.filter (fun x => x ≠ c)).count c' = l.count c' := by
  induction l with
  | nil => rfl
  | cons a t ih =>
    by_cases hac : a = c
    · subst hac
      rw [List.filter_cons_of_neg (by simp), List.count_cons_of_ne h, ih]
    · rw [List.filter_cons_of_pos (by simp [hac]), List.count_cons, List.count_cons, ih]

theorem catalogTypes_setPtr (st : St) (c : Child) (v : Option String) (pn : String) :
    (alookup pn (setPtr st c v).catalog).map (·.item_type) =
      (alookup pn st.catalog).map (·.item_type) := by
  cases c with
  | link lid t => rfl
  | asm a => rfl
  | item pn0 =>
    unfold setPtr
    simp only [alookup_aset]
    by_cases h : pn = pn0
    · subst h
      cases hl : alookup pn st.catalog <;> simp [hl]
    · simp [h]

theorem catalogTypes_force (st : St) (c : Child) (v : Option String) (pn : String) :
    (alookup pn (setParentForce st c v).catalog).map (·.item_type) =
      (alookup pn st.catalog).map (·.item_type) := by
  unfold setParentForce
  cases v with
  | none => rw [catalogTypes_setPtr, catalog_detachStep]
  | some p => rw [catalog_appendToTuple, catalogTypes_setPtr, catalog_detachStep]

theorem linksKeys_setPtr (st : St) (c : Child) (v : Option String) :
    (setPtr st c v).links.map Prod.fst = st.links.map Prod.fst := by
  cases c with
  | item pn => rfl
  | asm a => rfl
  | link lid t => simp [setPtr, aset_keys]

theorem linksKeys_force (st : St) (c : Child) (v : Option String) :
    (setParentForce st c v).links.map Prod.fst = st.links.map Prod.fst := by
  unfold setParentForce
  cases v with
  | none => rw [linksKeys_setPtr, links_detachStep]
  | some p => rw [links_appendToTuple, linksKeys_setPtr, links_detachStep]

theorem nextLink_setPtr (st : St) (c : Child) (v : Option String) :
    (setPtr st c v).nextLink = st.nextLink := by
  cases c with
  | item pn => rfl
  | asm a => rfl
  | link lid t => rfl

theorem nextLink_detachStep (st : St) (c : Child) :
    (detachStep st c).nextLink = st.nextLink := by
  unfold detachStep
  cases hp : parentOf st c
  · rfl
  · rfl

theorem nextLink_force (st : St) (c : Child) (v : Option String) :
    (setParentForce st c v).nextLink = st.nextLink := by
  unfold setParentForce
  cases v with
  | none => rw [nextLink_setPtr, nextLink_detachStep]
  | some p =>
    show (setPtr (detachStep st c) c (some p)).nextLink = _
    rw [nextLink_setPtr, nextLink_detachStep]

theorem mem_childrenOf_force {st : St} {c : Child} {v : Option String} {b : String}
    {x : Child} (hx : x ∈ childrenOf (setParentForce st c v) b) :
    x ∈ childrenOf st b ∨ x = c := by
  cases v with
  | none =>
    rw [childrenOf_setParentForce_ne st c none b (by intro hh; exact Option.noConfusion hh)] at hx
    by_cases hpb : parentOf st c = some b
    · rw [if_pos hpb] at hx; exact Or.inl (List.mem_of_mem_filter hx)
    · rw [if_neg hpb] at hx; exact Or.inl hx
  | some p =>
    by_cases hbp : b = p
    · subst hbp
      by_cases hbk : b ∈ st.asms.map Prod.fst
      · rw [childrenOf_setParentForce_self st c b hbk] at hx
        rcases List.mem_append.mp hx with hx1 | hx1
        · by_cases hpb : parentOf st c = some b
          · rw [if_pos hpb] at hx1; exact Or.inl (List.mem_of_mem_filter hx1)
          · rw [if_neg hpb] at hx1; exact Or.inl hx1
        · exact Or.inr (List.mem_singleton.mp hx1)
      · have hb' : b ∉ (setParentForce st c (some b)).asms.map Prod.fst := by
          rw [asmsKeys_setParentForce]; exact hbk
        rw [childrenOf_not_mem _ _ hb'] at hx
        exact absurd hx (List.not_mem_nil x)
    · rw [childrenOf_setParentForce_ne st c (some p) b
        (fun hh => hbp (Option.some.inj hh).symm)] at hx
      by_cases hpb : parentOf st c = some b
      · rw [if_pos hpb] at hx; exact Or.inl (List.mem_of_mem_filter hx)
      · rw [if_neg hpb] at hx; exact Or.inl hx

theorem buildInv_setParent {keys0 catKeys0 : List String} {st : St} {c : Child}
    {v : Option String} {st' : St}
    (inv : BuildInv keys0 catKeys0 st)
    (hc : canonical st c)
    (hv : ∀ p, v = some p → p ∈ keys0)
    (h : setParent st c v = .ok st') :
    BuildInv keys0 catKeys0 st' := by
  rcases setParent_ok_elim2 h with ⟨_, rfl⟩ | ⟨hne, hcl, rfl⟩
  · exact inv
  have hKL : st.asms.length = keys0.length := by
    have h1 := congrArg List.length inv.keysEq
    simp only [asmKeys, List.length_map] at h1
    exact h1
  have hvk : ∀ p, v = some p → p ∈ st.asms.map Prod.fst := by
    intro p hp
    have h2 : p ∈ asmKeys st := by rw [inv.keysEq]; exact hv p hp
    exact h2
  refine ⟨?_, ?_, ?_, ?_, ?_, ?_, ?_, ?_, ?_, ?_⟩
  · show (setParentForce st c v).asms.map Prod.fst = keys0
    rw [asmsKeys_setParentForce]
    exact inv.keysEq
  · rw [catalogKeys_setParentForce]
    exact inv.catKeysEq
  · intro c' hc' b
    have hc'0 : canonical st c' := (canonical_force_iff st c v c').mp hc'
    by_cases hcc : c' = c
    · subst hcc
      rw [parentOf_force_self st c' v hc'0]
      cases v with
      | none =>
        rw [childrenOf_setParentForce_ne st c' none b (by intro hh; exact Option.noConfusion hh)]
        by_cases hpb : parentOf st c' = some b
        · rw [if_pos hpb, count_filter_ne_self]
          simp
        · rw [if_neg hpb, inv.tc c' hc'0 b, if_neg hpb]
          simp
      | some p =>
        have hpk : p ∈ st.asms.map Prod.fst := hvk p rfl
        by_cases hbp : b = p
        · subst hbp
          rw [childrenOf_setParentForce_self st c' b hpk, List.count_append]
          have h1 : ((if parentOf st c' = some b then (childrenOf st b).filter (· ≠ c')
              else childrenOf st b)).count c' = 0 := by
            by_cases hpb : parentOf st c' = some b
            · rw [if_pos hpb]; exact count_filter_ne_self _ _
            · rw [if_neg hpb, inv.tc c' hc'0 b, if_neg hpb]
          rw [h1]
          simp
        · rw [childrenOf_setParentForce_ne st c' (some p) b
            (fun hh => hbp (Option.some.inj hh).symm)]
          have hvb : ¬((some p : Option String) = some b) :=
            fun hh => hbp (Option.some.inj hh).symm
          rw [if_neg hvb]
          by_cases hpb : parentOf st c' = some b
          · rw [if_pos hpb]
            exact count_filter_ne_self _ _
          · rw [if_neg hpb, inv.tc c' hc'0 b, if_neg hpb]
    · rw [parentOf_force_ne st c c' v hc hc'0 hcc]
      have hcount : (childrenOf (setParentForce st c v) b).count c' =
          (childrenOf st b).count c' := by
        cases v with
        | none =>
          rw [childrenOf_setParentForce_ne st c none b (by intro hh; exact Option.noConfusion hh)]
          by_cases hpb : parentOf st c = some b
          · rw [if_pos hpb]; exact count_filter_ne_other _ _ _ hcc
          · rw [if_neg hpb]
        | some p =>
          by_cases hbp : b = p
          · subst hbp
            have hpk : b ∈ st.asms.map Prod.fst := hvk b rfl
            rw [childrenOf_setParentForce_self st c b hpk, List.count_append]
            have h2 : List.count c' [c] = 0 := by simp [List.count_cons, hcc]
            rw [h2, Nat.add_zero]
            by_cases hpb : parentOf st c = some b
            · rw [if_pos hpb]; exact count_filter_ne_other _ _ _ hcc
            · rw [if_neg hpb]
          · rw [childrenOf_setParentForce_ne st c (some p) b
              (fun hh => hbp (Option.some.inj hh).symm)]
            by_cases hpb : parentOf st c = some b
            · rw [if_pos hpb]; exact count_filter_ne_other _ _ _ hcc
            · rw [if_neg hpb]
      rw [hcount]
      exact inv.tc c' hc'0 b
  · intro b c' hmem
    rcases mem_childrenOf_force hmem with h1 | rfl
    · exact (canonical_force_iff st c v c').mpr (inv.refs b c' h1)
    · exact (canonical_force_iff st c' v c').mpr hc
  · intro c'' b hp
    rcases parentOf_force_cases st c c'' v with he | he
    · rw [he] at hp; exact inv.pk c'' b hp
    · rw [he] at hp; exact hv b hp
  · cases c with
    | asm a0 =>
      have ha0 : a0 ∈ st.asms.map Prod.fst := hc
      have hP : ∀ x, asmParent (setParentForce st (.asm a0) v) x =
          if x = a0 then v else asmParent st x := by
        intro x
        by_cases hx : x = a0
        · subst hx
          rw [if_pos rfl]
          exact asmParent_setParentForce_self st v x ha0
        · rw [if_neg hx]
          exact asmParent_setParentForce_ne st _ v x
            (fun hh => hx (by injection hh with h2; exact h2.symm))
      have hloop : ∀ k, parentIter st k v ≠ some a0 := by
        cases v with
        | none => exact hloop_none
        | some p =>
          exact hloop_of_checkLoop inv.term hKL (checkLoop_ok_not_mem hcl)
      have hkeys2 : ∀ x p, asmParent (setParentForce st (.asm a0) v) x = some p →
          p ∈ asmKeys (setParentForce st (.asm a0) v) := by
        intro x p hp
        have hp' : parentOf (setParentForce st (.asm a0) v) (.asm x) = some p := hp
        have hmem : p ∈ keys0 := by
          rcases parentOf_force_cases st (.asm a0) (.asm x) v with he | he
          · rw [he] at hp'; exact inv.pk _ p hp'
          · rw [he] at hp'; exact hv p hp'
        show p ∈ (setParentForce st (.asm a0) v).asms.map Prod.fst
        rw [asmsKeys_setParentForce, show st.asms.map Prod.fst = keys0 from inv.keysEq]
        exact hmem
      have hlen2 : (asmKeys (setParentForce st (.asm a0) v)).length = keys0.length := by
        show ((setParentForce st (.asm a0) v).asms.map Prod.fst).length = keys0.length
        rw [asmsKeys_setParentForce, show st.asms.map Prod.fst = keys0 from inv.keysEq]
      exact termB_updated hP inv.term hloop hkeys2 hlen2
    | item pn =>
      have hEq : ∀ x, asmParent (setParentForce st (.item pn) v) x = asmParent st x :=
        fun x => asmParent_setParentForce_ne st _ v x (by intro hh; exact Child.noConfusion hh)
      intro a
      rw [parentIter_congr hEq]
      exact inv.term a
    | link lid t =>
      have hEq : ∀ x, asmParent (setParentForce st (.link lid t) v) x = asmParent st x :=
        fun x => asmParent_setParentForce_ne st _ v x (by intro hh; exact Child.noConfusion hh)
      intro a
      rw [parentIter_congr hEq]
      exact inv.term a
  · intro pn d hd
    have hf := catalogTypes_force st c v pn
    rw [hd] at hf
    cases hl : alookup pn st.catalog with
    | none => rw [hl] at hf; exact Option.noConfusion hf
    | some d0 =>
      rw [hl] at hf
      have h3 : some d.item_type = some d0.item_type := hf
      injection h3 with h4
      rw [h4]
      exact inv.ctypes pn d0 hl
  · intro lid l hl
    have hf := linkTargets_force st c v lid
    rw [hl] at hf
    cases hl0 : alookup lid st.links with
    | none => rw [hl0] at hf; exact Option.noConfusion hf
    | some l0 =>
      rw [hl0] at hf
      have h3 : some l.target = some l0.target := hf
      injection h3 with h4
      rw [h4]
      exact inv.ltgt lid l0 hl0
  · intro lid hmem
    rw [linksKeys_force] at hmem
    rw [nextLink_force]
    exact inv.lfresh lid hmem
  · rw [linksKeys_force]
    exact inv.lnd

theorem foldlM_inv_mem {σ α : Type} {P : σ → Prop} {f : σ → α → Except BuildError σ} :
    ∀ (l : List α),
      (∀ s a s', a ∈ l → f s a = .ok s' → P s → P s') →
      ∀ (s s' : σ), l.foldlM f s = .ok s' → P s → P s' := by
  intro l
  induction l with
  | nil =>
    intro _ s s' h hp
    simp only [List.foldlM_nil] at h
    injection h with h1
    exact h1 ▸ hp
  | cons x t ih =>
    intro hf s s' h hp
    rw [List.foldlM_cons] at h
    cases hf1 : f s x with
    | error e => rw [hf1] at h; exact Except.noConfusion h
    | ok s1 =>
      rw [hf1] at h
      exact ih (fun s2 a s3 ha => hf s2 a s3 (List.mem_cons_of_mem x ha)) s1 s' h
        (hf s x s1 (List.mem_cons_self x t) hf1 hp)

theorem alookup_append_left [DecidableEq α] {a : α} {l1 : List (α × β)}
    (l2 : List (α × β)) {v : β} (h : alookup a l1 = some v) :
    alookup a (l1 ++ l2) = some v := by
  rw [alookup_append, h]

theorem links_linkAdd_lookup (st : St) (pn : String) (lid : Nat) :
    alookup lid
      ({ st with
          links := st.links ++ [(st.nextLink, { target := pn, parent := none })],
          nextLink := st.nextLink + 1 } : St).links =
      match alookup lid st.links with
      | some l => some l
      | none =>
        if st.nextLink = lid then some { target := pn, parent := none } else none := by
  show alookup lid (st.links ++ [(st.nextLink, { target := pn, parent := none })]) = _
  rw [alookup_append]
  cases alookup lid st.links with
  | some l => rfl
  | none => rfl

theorem parentOf_typeSet (st : St) (pn : String) (c : Child) :
    parentOf
      { st with asms := aset pn (fun d => { d with item_type := some "assembly" }) st.asms }
      c = parentOf st c := by
  cases c with
  | item pn' => rfl
  | link lid t => rfl
  | asm a => exact typeSet_asmParent st pn a

theorem linkAdd_fresh_not_child {keys0 catKeys0 : List String} {st : St}
    (inv : BuildInv keys0 catKeys0 st) (t : String) (b : String) :
    Child.link st.nextLink t ∉ childrenOf st b := by
  intro hmem
  obtain ⟨l, hl, _⟩ := inv.refs b _ hmem
  have hk : st.nextLink ∈ st.links.map Prod.fst :=
    (alookup_isSome_iff _ _).mp (by rw [hl]; rfl)
  exact absurd (inv.lfresh _ hk) (lt_irrefl _)

theorem linkAdd_fresh_none {keys0 catKeys0 : List String} {st : St}
    (inv : BuildInv keys0 catKeys0 st) :
    alookup st.nextLink st.links = none := by
  rw [alookup_eq_none_iff]
  intro hmem
  exact absurd (inv.lfresh _ hmem) (lt_irrefl _)

theorem buildInv_typeSet {keys0 catKeys0 : List String} {st st2 : St} {pn : String}
    (h2 : st2 = { st with
        asms := aset pn (fun d => { d with item_type := some "assembly" }) st.asms })
    (inv : BuildInv keys0 catKeys0 st) :
    BuildInv keys0 catKeys0 st2 ∧ (∀ x, canonical st2 x ↔ canonical st x) := by
  subst h2
  have hcan : ∀ x, canonical
      ({ st with asms := aset pn (fun d => { d with item_type := some "assembly" }) st.asms } : St) x
      ↔ canonical st x := by
    intro x
    refine canonical_congr ?_ ?_ ?_ x
    · rfl
    · exact typeSet_keys st pn
    · intro _; rfl
  refine ⟨⟨?_, ?_, ?_, ?_, ?_, ?_, ?_, ?_, ?_, ?_⟩, hcan⟩
  · show ({ st with
      asms := aset pn (fun d => { d with item_type := some "assembly" }) st.asms } : St).asms.map
        Prod.fst = keys0
    rw [typeSet_keys]
    exact inv.keysEq
  · exact inv.catKeysEq
  · intro c hc b
    rw [typeSet_childrenOf, parentOf_typeSet]
    exact inv.tc c ((hcan c).mp hc) b
  · intro b c hmem
    rw [typeSet_childrenOf] at hmem
    exact (hcan c).mpr (inv.refs b c hmem)
  · intro c b hp
    rw [parentOf_typeSet] at hp
    exact inv.pk c b hp
  · intro a
    rw [parentIter_congr (fun x => typeSet_asmParent st pn x)]
    exact inv.term a
  · exact inv.ctypes
  · exact inv.ltgt
  · exact inv.lfresh
  · exact inv.lnd

theorem buildInv_linkAdd {keys0 catKeys0 : List String} {st st2 : St} {pn : String}
    (h2 : st2 = { st with
        links := st.links ++ [(st.nextLink, { target := pn, parent := none })],
        nextLink := st.nextLink + 1 })
    (inv : BuildInv keys0 catKeys0 st) (hpn : pn ∈ catKeys0) :
    BuildInv keys0 catKeys0 st2 ∧
    canonical st2 (.link st.nextLink pn) ∧
    (∀ x, canonical st x → canonical st2 x) := by
  subst h2
  have hfresh := linkAdd_fresh_none inv
  have hmono : ∀ x, canonical st x → canonical
      ({ st with
          links := st.links ++ [(st.nextLink, { target := pn, parent := none })],
          nextLink := st.nextLink + 1 } : St) x := by
    intro x hx
    cases x with
    | item pn' => exact hx
    | asm a => exact hx
    | link lid t =>
      obtain ⟨l, hl, ht⟩ := hx
      exact ⟨l, by rw [links_linkAdd_lookup, hl], ht⟩
  have hnew : canonical
      ({ st with
          links := st.links ++ [(st.nextLink, { target := pn, parent := none })],
          nextLink := st.nextLink + 1 } : St) (.link st.nextLink pn) := by
    refine ⟨{ target := pn, parent := none }, ?_, rfl⟩
    rw [links_linkAdd_lookup, hfresh]
    simp
  have hcases : ∀ x, canonical
      ({ st with
          links := st.links ++ [(st.nextLink, { target := pn, parent := none })],
          nextLink := st.nextLink + 1 } : St) x →
      canonical st x ∨ x = .link st.nextLink pn := by
    intro x hx
    cases x with
    | item pn' => exact Or.inl hx
    | asm a => exact Or.inl hx
    | link lid t =>
      obtain ⟨l, hl, ht⟩ := hx
      rw [links_linkAdd_lookup] at hl
      cases hl0 : alookup lid st.links with
      | some l0 =>
        rw [hl0] at hl
        injection hl with h1
        exact Or.inl ⟨l0, hl0, by rw [h1]; exact ht⟩
      | none =>
        rw [hl0] at hl
        by_cases heq : st.nextLink = lid
        · rw [if_pos heq] at hl
          injection hl with h1
          right
          rw [← heq, ← ht, ← h1]
        · rw [if_neg heq] at hl
          exact Option.noConfusion hl
  have hpar : ∀ x, canonical st x → parentOf
      ({ st with
          links := st.links ++ [(st.nextLink, { target := pn, parent := none })],
          nextLink := st.nextLink + 1 } : St) x = parentOf st x := by
    intro x hx
    cases x with
    | item pn' => rfl
    | asm a => rfl
    | link lid t =>
      obtain ⟨l, hl, _⟩ := hx
      show (alookup lid
        ({ st with
            links := st.links ++ [(st.nextLink, { target := pn, parent := none })],
            nextLink := st.nextLink + 1 } : St).links).bind (·.parent) = _
      rw [links_linkAdd_lookup, hl]
      show (some l).bind (·.parent) = (alookup lid st.links).bind (·.parent)
      rw [hl]
  have hparNew : parentOf
      ({ st with
          links := st.links ++ [(st.nextLink, { target := pn, parent := none })],
          nextLink := st.nextLink + 1 } : St) (.link st.nextLink pn) = none := by
    show (alookup st.nextLink
      ({ st with
          links := st.links ++ [(st.nextLink, { target := pn, parent := none })],
          nextLink := st.nextLink + 1 } : St).links).bind (·.parent) = none
    rw [links_linkAdd_lookup, hfresh]
    simp
  refine ⟨⟨?_, ?_, ?_, ?_, ?_, ?_, ?_, ?_, ?_, ?_⟩, hnew, hmono⟩
  · exact inv.keysEq
  · exact inv.catKeysEq
  · intro c hc b
    rcases hcases c hc with hcs | rfl
    · rw [hpar c hcs]
      exact inv.tc c hcs b
    · rw [hparNew]
      have h0 : (childrenOf st b).count (Child.link st.nextLink pn) = 0 :=
        List.count_eq_zero.mpr (linkAdd_fresh_not_child inv pn b)
      rw [show childrenOf
        ({ st with
            links := st.links ++ [(st.nextLink, { target := pn, parent := none })],
            nextLink := st.nextLink + 1 } : St) b = childrenOf st b from rfl, h0]
      simp
  · intro b c hmem
    exact hmono c (inv.refs b c hmem)
  · intro c b hp
    cases c with
    | item pn' =>
      have hp' : parentOf st (.item pn') = some b := hp
      exact inv.pk _ b hp'
    | asm a =>
      have hp' : parentOf st (.asm a) = some b := hp
      exact inv.pk _ b hp'
    | link lid t =>
      replace hp : (alookup lid
        ({ st with
            links := st.links ++ [(st.nextLink, { target := pn, parent := none })],
            nextLink := st.nextLink + 1 } : St).links).bind (·.parent) = some b := hp
      rw [links_linkAdd_lookup] at hp
      cases hl0 : alookup lid st.links with
      | some l0 =>
        rw [hl0] at hp
        refine inv.pk (.link lid t) b ?_
        show (alookup lid st.links).bind (·.parent) = some b
        rw [hl0]
        exact hp
      | none =>
        rw [hl0] at hp
        by_cases heq : st.nextLink = lid
        · rw [if_pos heq] at hp
          exact Option.noConfusion hp
        · rw [if_neg heq] at hp
          exact Option.noConfusion hp
  · intro a
    have hEq : ∀ x, asmParent
        ({ st with
            links := st.links ++ [(st.nextLink, { target := pn, parent := none })],
            nextLink := st.nextLink + 1 } : St) x = asmParent st x := fun x => rfl
    rw [parentIter_congr hEq]
    exact inv.term a
  · exact inv.ctypes
  · intro lid l hl
    replace hl : alookup lid
      ({ st with
          links := st.links ++ [(st.nextLink, { target := pn, parent := none })],
          nextLink := st.nextLink + 1 } : St).links = some l := hl
    rw [links_linkAdd_lookup] at hl
    cases hl0 : alookup lid st.links with
    | some l0 =>
      rw [hl0] at hl
      injection hl with h1
      rw [← h1]
      exact inv.ltgt lid l0 hl0
    | none =>
      rw [hl0] at hl
      by_cases heq : st.nextLink = lid
      · rw [if_pos heq] at hl
        injection hl with h1
        rw [← h1]
        exact hpn
      · rw [if_neg heq] at hl
        exact Option.noConfusion hl
  · intro lid hmem
    replace hmem : lid ∈ (st.links ++ [(st.nextLink,
      ({ target := pn, parent := none } : ItemLink))]).map Prod.fst := hmem
    rw [List.map_append] at hmem
    show lid < st.nextLink + 1
    rcases List.mem_append.mp hmem with hm | hm
    · have := inv.lfresh lid hm
      omega
    · have : lid = st.nextLink := by
        simpa using hm
      omega
  · show ((st.links ++ [(st.nextLink, ({ target := pn, parent := none } : ItemLink))]).map
      Prod.fst).Nodup
    rw [List.map_append]
    refine List.Nodup.append inv.lnd (by simp) ?_
    intro x hx hx2
    have hxn : x = st.nextLink := by simpa using hx2
    subst hxn
    exact absurd (inv.lfresh _ hx) (lt_irrefl _)

theorem buildInv_resolveRow {keys0 catKeys0 : List String} {b : String} (hb : b ∈ keys0) :
    ∀ (s : St × List Child) (row : Row) (s' : St × List Child),
      resolveRow s.1 b s.2 row = .ok s' →
      (BuildInv keys0 catKeys0 s.1 ∧ ∀ x ∈ s.2, canonical s.1 x) →
      (BuildInv keys0 catKeys0 s'.1 ∧ ∀ x ∈ s'.2, canonical s'.1 x) := by
  rintro ⟨st, acc⟩ row ⟨st', acc'⟩ h ⟨inv, hacc⟩
  rcases resolveRow_elim h with
    ⟨hpnk, st1, hsp, hst', hacc'⟩ | ⟨hpnk, it, hcat, hbr⟩
  · subst hacc'
    have hcanAsm : canonical st (.asm row.PN) := hpnk
    have hv : ∀ p, (some b : Option String) = some p → p ∈ keys0 := by
      intro p hp
      injection hp with h1
      exact h1 ▸ hb
    have inv1 : BuildInv keys0 catKeys0 st1 := buildInv_setParent inv hcanAsm hv hsp
    obtain ⟨inv2, hcan2⟩ := buildInv_typeSet hst' inv1
    refine ⟨inv2, ?_⟩
    intro x hx
    rcases List.mem_append.mp hx with hx1 | hx1
    · exact (hcan2 x).mpr ((canonical_setParent_iff hsp x).mpr (hacc x hx1))
    · rw [List.mem_singleton.mp hx1]
      exact (hcan2 _).mpr ((canonical_setParent_iff hsp _).mpr hcanAsm)
  · rcases hbr with ⟨hown, hst', hacc'⟩ | ⟨hown, hst', hacc'⟩
    · subst hacc'
      have hpnc : row.PN ∈ catKeys0 := by
        rw [← inv.catKeysEq]
        exact (alookup_isSome_iff _ _).mp (by rw [hcat]; rfl)
      obtain ⟨inv2, hnew, hmono⟩ := buildInv_linkAdd hst' inv hpnc
      refine ⟨inv2, ?_⟩
      intro x hx
      rcases List.mem_append.mp hx with hx1 | hx1
      · exact hmono x (hacc x hx1)
      · rw [List.mem_singleton.mp hx1]
        exact hnew
    · subst hst' hacc'
      refine ⟨inv, ?_⟩
      intro x hx
      rcases List.mem_append.mp hx with hx1 | hx1
      · exact hacc x hx1
      · rw [List.mem_singleton.mp hx1]
        exact (alookup_isSome_iff _ _).mp (by rw [hcat]; rfl)

theorem buildInv_resolveRows {keys0 catKeys0 : List String} {b : String} (hb : b ∈ keys0)
    {rows : List Row} {st st' : St} {cs : List Child}
    (h : resolveRows st b rows = .ok (st', cs))
    (inv : BuildInv keys0 catKeys0 st) :
    BuildInv keys0 catKeys0 st' ∧ ∀ x ∈ cs, canonical st' x := by
  unfold resolveRows at h
  exact foldlM_inv (buildInv_resolveRow hb) rows (st, []) (st', cs) h
    ⟨inv, fun x hx => absurd hx (List.not_mem_nil x)⟩

theorem buildInv_detachAll {keys0 catKeys0 : List String} {st : St} {b : String} {st' : St}
    (inv : BuildInv keys0 catKeys0 st)
    (h : detachAll st b = .ok st') :
    BuildInv keys0 catKeys0 st' ∧ (∀ x, canonical st x → canonical st' x) := by
  unfold detachAll at h
  have hstep : ∀ s c s', c ∈ childrenOf st b → setParent s c none = .ok s' →
      (BuildInv keys0 catKeys0 s ∧ (∀ x, canonical st x → canonical s x)) →
      (BuildInv keys0 catKeys0 s' ∧ (∀ x, canonical st x → canonical s' x)) := by
    intro s c s' hcmem hok ⟨invs, hmon⟩
    have hcan : canonical s c := hmon c (inv.refs b c hcmem)
    have hv : ∀ p, (none : Option String) = some p → p ∈ keys0 := by
      intro p hp
      exact Option.noConfusion hp
    exact ⟨buildInv_setParent invs hcan hv hok,
      fun x hx => (canonical_setParent_iff hok x).mpr (hmon x hx)⟩
  exact foldlM_inv_mem (childrenOf st b) hstep st st' h ⟨inv, fun x hx => hx⟩

theorem buildInv_attachAll {keys0 catKeys0 : List String} {st : St} {b : String}
    {cs : List Child} {st' : St}
    (hb : b ∈ keys0)
    (inv : BuildInv keys0 catKeys0 st)
    (hcs : ∀ x ∈ cs, canonical st x)
    (h : attachAll st b cs = .ok st') :
    BuildInv keys0 catKeys0 st' ∧ (∀ x, canonical st x → canonical st' x) := by
  unfold attachAll at h
  have hstep : ∀ s c s', c ∈ cs → setParent s c (some b) = .ok s' →
      (BuildInv keys0 catKeys0 s ∧ (∀ x, canonical st x → canonical s x)) →
      (BuildInv keys0 catKeys0 s' ∧ (∀ x, canonical st x → canonical s' x)) := by
    intro s c s' hcmem hok ⟨invs, hmon⟩
    have hcan : canonical s c := hmon c (hcs c hcmem)
    have hv : ∀ p, (some b : Option String) = some p → p ∈ keys0 := by
      intro p hp
      injection hp with h1
      exact h1 ▸ hb
    exact ⟨buildInv_setParent invs hcan hv hok,
      fun x hx => (canonical_setParent_iff hok x).mpr (hmon x hx)⟩
  exact foldlM_inv_mem cs hstep st st' h ⟨inv, fun x hx => hx⟩

theorem buildInv_setChildren {keys0 catKeys0 : List String} {st : St} {b : String}
    {cs : List Child} {st' : St}
    (hb : b ∈ keys0) (inv : BuildInv keys0 catKeys0 st)
    (hcs : ∀ x ∈ cs, canonical st x)
    (h : setChildren st b cs = .ok st') :
    BuildInv keys0 catKeys0 st' := by
  unfold setChildren at h
  by_cases hnd : cs.Nodup
  · rw [if_pos hnd] at h
    cases hd : detachAll st b with
    | error e => rw [hd] at h; exact Except.noConfusion h
    | ok st1 =>
      rw [hd] at h
      obtain ⟨inv1, hmono1⟩ := buildInv_detachAll inv hd
      have hcs1 : ∀ x ∈ cs, canonical st1 x := fun x hx => hmono1 x (hcs x hx)
      exact (buildInv_attachAll hb inv1 hcs1 h).1
  · rw [if_neg hnd] at h
    exact Except.noConfusion h

theorem buildInv_resolveAsm {keys0 catKeys0 : List String} {st : St} {b : String} {st' : St}
    (hb : b ∈ keys0) (inv : BuildInv keys0 catKeys0 st)
    (h : resolveAsm st b = .ok st') :
    BuildInv keys0 catKeys0 st' := by
  simp only [resolveAsm] at h
  cases hr : resolveRows st b
      (match alookup b st.asms with
        | some d => d.rows
        | none => []) with
  | error e => rw [hr] at h; exact Except.noConfusion h
  | ok pr =>
    obtain ⟨st1, cs⟩ := pr
    rw [hr] at h
    obtain ⟨inv1, hcsn⟩ := buildInv_resolveRows hb hr inv
    exact buildInv_setChildren hb inv1 hcsn h

theorem buildInv_resolveAll {keys0 catKeys0 : List String} {st st' : St}
    (inv : BuildInv keys0 catKeys0 st)
    (h : resolveAll st = .ok st') :
    BuildInv keys0 catKeys0 st' := by
  unfold resolveAll at h
  have hstep : ∀ s b s', b ∈ st.asms.map Prod.fst → resolveAsm s b = .ok s' →
      BuildInv keys0 catKeys0 s → BuildInv keys0 catKeys0 s' := by
    intro s b s' hbmem hok invs
    have hb : b ∈ keys0 := by
      rw [← inv.keysEq]
      exact hbmem
    exact buildInv_resolveAsm hb invs hok
  exact foldlM_inv_mem (st.asms.map Prod.fst) hstep st st' h inv

theorem termB_of_no_parents {st : St} (h : ∀ a, asmParent st a = none) (n : Nat) :
    TermB st (n + 1) := by
  intro a
  show parentIter st n ((some a).bind (asmParent st)) = none
  rw [show (some a).bind (asmParent st) = none from h a]
  exact parentIter_none st n

theorem asmParent_init (master : List Row) (tables : List Table) (a : String) :
    asmParent (initSt master tables) a = none := by
  show (alookup a (initAsms tables)).bind (·.parent) = none
  rw [alookup_initAsms]
  cases tables.reverse.find? (fun t => decide (t.name = a)) <;> simp

theorem parentOf_init (master : List Row) (tables : List Table) (c : Child) :
    parentOf (initSt master tables) c = none := by
  cases c with
  | item pn =>
    show (alookup pn (mkCatalog master)).bind (·.parent) = none
    rw [alookup_mkCatalog]
    cases master.reverse.find? (fun r => decide (r.PN = pn)) <;> simp
  | link lid t => rfl
  | asm a => exact asmParent_init master tables a

theorem buildInv_init (master : List Row) (tables : List Table) :
    BuildInv ((initAsms tables).map Prod.fst) ((mkCatalog master).map Prod.fst)
      (initSt master tables) := by
  refine ⟨rfl, rfl, ?_, ?_, ?_, ?_, ?_, ?_, ?_, ?_⟩
  · intro c _ b
    rw [initSt_children_empty, parentOf_init]
    simp
  · intro b c hmem
    rw [initSt_children_empty] at hmem
    exact absurd hmem (List.not_mem_nil c)
  · intro c b hp
    rw [parentOf_init] at hp
    exact Option.noConfusion hp
  · exact termB_of_no_parents (asmParent_init master tables) _
  · intro pn d hd
    replace hd : alookup pn (mkCatalog master) = some d := hd
    rw [alookup_mkCatalog] at hd
    cases hf : master.reverse.find? (fun r => decide (r.PN = pn)) with
    | none => rw [hf] at hd; exact Option.noConfusion hd
    | some r =>
      rw [hf] at hd
      injection hd with h1
      rw [← h1]
  · intro lid l hl
    exact Option.noConfusion hl
  · intro lid hmem
    exact absurd hmem (List.not_mem_nil lid)
  · exact List.nodup_nil

theorem parentOf_pdbSet (st : St) (r : String) (pd : Option (List (String × Item)))
    (c : Child) :
    parentOf { st with asms := aset r (fun d => { d with parts_db := pd }) st.asms } c
      = parentOf st c := by
  cases c with
  | item pn => rfl
  | link lid t => rfl
  | asm a => exact pdbSet_asmParent st r pd a

theorem buildInv_pdbSet {keys0 catKeys0 : List String} {st st2 : St} {r : String}
    {pd : Option (List (String × Item))}
    (h2 : st2 = { st with asms := aset r (fun d => { d with parts_db := pd }) st.asms })
    (inv : BuildInv keys0 catKeys0 st) :
    BuildInv keys0 catKeys0 st2 ∧ (∀ x, canonical st2 x ↔ canonical st x) := by
  subst h2
  have hcan : ∀ x, canonical
      ({ st with asms := aset r (fun d => { d with parts_db := pd }) st.asms } : St) x
      ↔ canonical st x := by
    intro x
    refine canonical_congr ?_ ?_ ?_ x
    · rfl
    · exact pdbSet_keys st r pd
    · intro _; rfl
  refine ⟨⟨?_, ?_, ?_, ?_, ?_, ?_, ?_, ?_, ?_, ?_⟩, hcan⟩
  · show ({ st with
      asms := aset r (fun d => { d with parts_db := pd }) st.asms } : St).asms.map
        Prod.fst = keys0
    rw [pdbSet_keys]
    exact inv.keysEq
  · exact inv.catKeysEq
  · intro c hc b
    rw [pdbSet_childrenOf, parentOf_pdbSet]
    exact inv.tc c ((hcan c).mp hc) b
  · intro b c hmem
    rw [pdbSet_childrenOf] at hmem
    exact (hcan c).mpr (inv.refs b c hmem)
  · intro c b hp
    rw [parentOf_pdbSet] at hp
    exact inv.pk c b hp
  · intro a
    rw [parentIter_congr (fun x => pdbSet_asmParent st r pd x)]
    exact inv.term a
  · exact inv.ctypes
  · exact inv.ltgt
  · exact inv.lfresh
  · exact inv.lnd

theorem buildInv_from_folder {master : List Row} {tables : List Table} {root : String}
    {st : St} (h : BOM.from_folder master tables = .ok (root, st)) :
    BuildInv ((initAsms tables).map Prod.fst) ((mkCatalog master).map Prod.fst) st := by
  obtain ⟨st1, hra, hfr⟩ := from_folder_ok_elim h
  have inv1 := buildInv_resolveAll (buildInv_init master tables) hra
  obtain ⟨hroots, hst⟩ := findRoot_ok_elim hfr
  exact (buildInv_pdbSet hst inv1).1

theorem catalog_setPtr_nonitem (st : St) (c : Child) (v : Option String)
    (h : ∀ pn, c ≠ .item pn) : (setPtr st c v).catalog = st.catalog := by
  cases c with
  | item pn => exact absurd rfl (h pn)
  | link lid t => rfl
  | asm a => rfl

theorem catalog_setParentForce_nonitem (st : St) (c : Child) (v : Option String)
    (h : ∀ pn, c ≠ .item pn) : (setParentForce st c v).catalog = st.catalog := by
  unfold setParentForce
  cases v with
  | none => rw [catalog_setPtr_nonitem _ _ _ h, catalog_detachStep]
  | some p => rw [catalog_appendToTuple, catalog_setPtr_nonitem _ _ _ h, catalog_detachStep]

theorem catalog_setParent_nonitem {st : St} {c : Child} {v : Option String} {st' : St}
    (hspc : setParent st c v = .ok st') (h : ∀ pn, c ≠ .item pn) :
    st'.catalog = st.catalog := by
  rcases setParent_ok_elim hspc with ⟨_, rfl⟩ | ⟨_, rfl⟩
  · rfl
  · exact catalog_setParentForce_nonitem _ _ _ h

theorem parentOf_item_congr {st1 st2 : St} (h : st1.catalog = st2.catalog) (pn : String) :
    parentOf st1 (.item pn) = parentOf st2 (.item pn) := by
  show (alookup pn st1.catalog).bind (·.parent) = (alookup pn st2.catalog).bind (·.parent)
  rw [h]

theorem rowsOf_removeFromTuple (st : St) (q : String) (c : Child) (b : String) :
    rowsOf (removeFromTuple st q c) b = rowsOf st b := by
  unfold rowsOf removeFromTuple
  simp only [alookup_aset]
  by_cases h : b = q
  · subst h; cases hl : alookup b st.asms <;> simp [hl]
  · simp [h]

theorem rowsOf_appendToTuple (st : St) (q : String) (c : Child) (b : String) :
    rowsOf (appendToTuple st q c) b = rowsOf st b := by
  unfold rowsOf appendToTuple
  simp only [alookup_aset]
  by_cases h : b = q
  · subst h; cases hl : alookup b st.asms <;> simp [hl]
  · simp [h]

theorem rowsOf_setPtr (st : St) (c : Child) (v : Option String) (b : String) :
    rowsOf (setPtr st c v) b = rowsOf st b := by
  cases c with
  | item pn => rfl
  | link lid t => rfl
  | asm a =>
    unfold rowsOf setPtr
    simp only [alookup_aset]
    by_cases h : b = a
    · subst h; cases hl : alookup b st.asms <;> simp [hl]
    · simp [h]

theorem rowsOf_detachStep (st : St) (c : Child) (b : String) :
    rowsOf (detachStep st c) b = rowsOf st b := by
  unfold detachStep
  cases hp : parentOf st c
  · rfl
  · exact rowsOf_removeFromTuple _ _ _ _

theorem rowsOf_setParentForce (st : St) (c : Child) (v : Option String) (b : String) :
    rowsOf (setParentForce st c v) b = rowsOf st b := by
  unfold setParentForce
  cases v with
  | none => rw [rowsOf_setPtr, rowsOf_detachStep]
  | some p => rw [rowsOf_appendToTuple, rowsOf_setPtr, rowsOf_detachStep]

theorem rowsOf_setParent {st : St} {c : Child} {v : Option String} {st' : St}
    (h : setParent st c v = .ok st') (b : String) :
    rowsOf st' b = rowsOf st b := by
  rcases setParent_ok_elim h with ⟨_, rfl⟩ | ⟨_, rfl⟩
  · rfl
  · exact rowsOf_setParentForce _ _ _ _

theorem rowsOf_typeSet (st : St) (pn : String) (b : String) :
    rowsOf
      { st with asms := aset pn (fun d => { d with item_type := some "assembly" }) st.asms }
      b = rowsOf st b := by
  unfold rowsOf
  simp only [alookup_aset]
  by_cases h : b = pn
  · subst h; cases hl : alookup b st.asms <;> simp [hl]
  · simp [h]

theorem rowsOf_pdbSet (st : St) (r : String) (pd : Option (List (String × Item)))
    (b : String) :
    rowsOf { st with asms := aset r (fun d => { d with parts_db := pd }) st.asms } b
      = rowsOf st b := by
  unfold rowsOf
  simp only [alookup_aset]
  by_cases h : b = r
  · subst h; cases hl : alookup b st.asms <;> simp [hl]
  · simp [h]

theorem linksTargeting_aset (k : Nat) (v : Option String) (pn : String) :
    ∀ l : List (Nat × ItemLink),
      ((aset k (fun d => { d with parent := v }) l).filter
        (fun q => q.2.target = pn)).length =
      (l.filter (fun q => q.2.target = pn)).length := by
  intro l
  induction l with
  | nil => rfl
  | cons p t ih =>
    have hstep : aset k (fun d => { d with parent := v }) (p :: t) =
        (if p.1 = k then (p.1, { p.2 with parent := v }) else p) ::
          aset k (fun d => { d with parent := v }) t := rfl
    rw [hstep]
    by_cases h : p.1 = k
    · rw [if_pos h]
      by_cases hpn : p.2.target = pn
      · rw [List.filter_cons_of_pos (by simp [hpn]), List.filter_cons_of_pos (by simp [hpn])]
        simp [ih]
      · rw [List.filter_cons_of_neg (by simp [hpn]), List.filter_cons_of_neg (by simp [hpn])]
        exact ih
    · rw [if_neg h]
      by_cases hpn : p.2.target = pn
      · rw [List.filter_cons_of_pos (by simp [hpn]), List.filter_cons_of_pos (by simp [hpn])]
        simp [ih]
      · rw [List.filter_cons_of_neg (by simp [hpn]), List.filter_cons_of_neg (by simp [hpn])]
        exact ih

theorem linksTargeting_setPtr (st : St) (c : Child) (v : Option String) (pn : String) :
    linksTargeting (setPtr st c v) pn = linksTargeting st pn := by
  cases c with
  | item pn' => rfl
  | asm a => rfl
  | link lid t =>
    show ((aset lid (fun d => { d with parent := v }) st.links).filter
        (fun q => q.2.target = pn)).length = _
    exact linksTargeting_aset lid v pn st.links

theorem linksTargeting_detachStep (st : St) (c : Child) (pn : String) :
    linksTargeting (detachStep st c) pn = linksTargeting st pn := by
  unfold detachStep
  cases hp : parentOf st c
  · rfl
  · rfl

theorem linksTargeting_setParentForce (st : St) (c : Child) (v : Option String)
    (pn : String) :
    linksTargeting (setParentForce st c v) pn = linksTargeting st pn := by
  unfold setParentForce
  cases v with
  | none =>
    rw [linksTargeting_setPtr]
    exact linksTargeting_detachStep _ _ _
  | some p =>
    show linksTargeting (setPtr (detachStep st c) c (some p)) pn = _
    rw [linksTargeting_setPtr]
    exact linksTargeting_detachStep _ _ _

theorem linksTargeting_setParent {st : St} {c : Child} {v : Option String} {st' : St}
    (h : setParent st c v = .ok st') (pn : String) :
    linksTargeting st' pn = linksTargeting st pn := by
  rcases setParent_ok_elim h with ⟨_, rfl⟩ | ⟨_, rfl⟩
  · rfl
  · exact linksTargeting_setParentForce _ _ _ _

theorem ownerTruthy_eq {keys0 catKeys0 : List String} {st : St}
    (inv : BuildInv keys0 catKeys0 st) {pn : String} {it : Item}
    (hit : alookup pn st.catalog = some it) :
    ownerTruthy st it.parent = (parentOf st (.item pn)).isSome := by
  have h003 : parentOf st (.item pn) = it.parent := by
    show (alookup pn st.catalog).bind (·.parent) = it.parent
    rw [hit]
    rfl
  cases hp : it.parent with
  | none =>
    rw [h003, hp]
    rfl
  | some p =>
    rw [h003, hp]
    have hcan : canonical st (.item pn) :=
      (alookup_isSome_iff _ _).mp (by rw [hit]; rfl)
    have hpar : parentOf st (.item pn) = some p := by rw [h003, hp]
    have hcnt := inv.tc (.item pn) hcan p
    rw [if_pos hpar] at hcnt
    show (match alookup p st.asms with
      | some d => !d.childrenT.isEmpty
      | none => false) = true
    cases hl : alookup p st.asms with
    | none =>
      have hemp : childrenOf st p = [] := by
        unfold childrenOf
        rw [hl]
      rw [hemp] at hcnt
      exact absurd hcnt (by simp)
    | some d =>
      have hch : childrenOf st p = d.childrenT := by
        unfold childrenOf
        rw [hl]
      rw [hch] at hcnt
      have hmem : Child.item pn ∈ d.childrenT := by
        rw [← List.count_pos_iff, hcnt]
        omega
      cases hd : d.childrenT with
      | nil => rw [hd] at hmem; exact absurd hmem (List.not_mem_nil _)
      | cons x xs => simp [hd]

theorem links_setPtr_nonlink (st : St) (c : Child) (v : Option String)
    (h : ∀ lid t, c ≠ .link lid t) : (setPtr st c v).links = st.links := by
  cases c with
  | item pn => rfl
  | link lid t => exact absurd rfl (h lid t)
  | asm a => rfl

theorem links_setParentForce_nonlink (st : St) (c : Child) (v : Option String)
    (h : ∀ lid t, c ≠ .link lid t) : (setParentForce st c v).links = st.links := by
  unfold setParentForce
  cases v with
  | none => rw [links_setPtr_nonlink _ _ _ h, links_detachStep]
  | some p => rw [links_appendToTuple, links_setPtr_nonlink _ _ _ h, links_detachStep]

theorem links_setParent_nonlink {st : St} {c : Child} {v : Option String} {st' : St}
    (hspc : setParent st c v = .ok st') (h : ∀ lid t, c ≠ .link lid t) :
    st'.links = st.links := by
  rcases setParent_ok_elim hspc with ⟨_, rfl⟩ | ⟨_, rfl⟩
  · rfl
  · exact links_setParentForce_nonlink _ _ _ h

theorem filter_append_singleton_length {α : Type} (p : α → Bool) (l : List α) (x : α) :
    ((l ++ [x]).filter p).length = (l.filter p).length + (if p x then 1 else 0) := by
  rw [List.filter_append, List.length_append]
  by_cases h : p x
  · rw [if_pos h, List.filter_cons_of_pos h]
    rfl
  · rw [if_neg h, List.filter_cons_of_neg h]
    rfl

theorem rowLoop_acct {keys0 catKeys0 : List String} {b pn : String}
    (hb : b ∈ keys0) (hpn : pn ∉ keys0) :
    ∀ (rows : List Row) (st : St) (acc : List Child) (st1 : St) (acc' : List Child),
      rows.foldlM (fun s row => resolveRow s.1 b s.2 row) (st, acc) = .ok (st1, acc') →
      BuildInv keys0 catKeys0 st → (∀ x ∈ acc, canonical st x) →
      (st1.catalog = st.catalog ∧
       (∀ lid l, alookup lid st.links = some l → alookup lid st1.links = some l) ∧
       (∀ lid l, alookup lid st1.links = some l →
         alookup lid st.links = some l ∨ (Child.link lid l.target ∈ acc' ∧ l.parent = none)) ∧
       linksTargeting st1 pn = linksTargeting st pn +
         (if (parentOf st (.item pn)).isSome then
           (rows.filter (fun r => r.PN = pn)).length else 0) ∧
       (acc'.filter (fun c => c = Child.item pn)).length =
         (acc.filter (fun c => c = Child.item pn)).length +
         (if (parentOf st (.item pn)).isSome then 0
          else (rows.filter (fun r => r.PN = pn)).length) ∧
       (acc'.filter (isLinkPN pn)).length = (acc.filter (isLinkPN pn)).length +
         (if (parentOf st (.item pn)).isSome then
           (rows.filter (fun r => r.PN = pn)).length else 0) ∧
       (∀ x ∈ acc, x ∈ acc') ∧
       (∀ b', rowsOf st1 b' = rowsOf st b')) := by
  intro rows
  induction rows with
  | nil =>
    intro st acc st1 acc' h inv hacc
    simp only [List.foldlM_nil] at h
    injection h with h1
    rw [Prod.mk.injEq] at h1
    obtain ⟨h2, h3⟩ := h1
    subst h2
    subst h3
    refine ⟨rfl, fun lid l hl => hl, fun lid l hl => Or.inl hl, ?_, ?_, ?_,
      fun x hx => hx, fun b' => rfl⟩
    · cases (parentOf st (.item pn)).isSome <;> simp
    · cases (parentOf st (.item pn)).isSome <;> simp
    · cases (parentOf st (.item pn)).isSome <;> simp
  | cons row rows' ih =>
    intro st acc st1 acc' h inv hacc
    rw [List.foldlM_cons] at h
    cases hstep : resolveRow st b acc row with
    | error e => rw [hstep] at h; exact Except.noConfusion h
    | ok pr =>
      obtain ⟨s1, a1⟩ := pr
      rw [hstep] at h
      obtain ⟨inv1, hacc1⟩ :=
        buildInv_resolveRow hb (st, acc) row (s1, a1) hstep ⟨inv, hacc⟩
      have hfacts :
          s1.catalog = st.catalog ∧
          (∀ lid l, alookup lid st.links = some l → alookup lid s1.links = some l) ∧
          (∀ lid l, alookup lid s1.links = some l →
            alookup lid st.links = some l ∨ (Child.link lid l.target ∈ a1 ∧ l.parent = none)) ∧
          linksTargeting s1 pn = linksTargeting st pn +
            (if (parentOf st (.item pn)).isSome then
              (if row.PN = pn then 1 else 0) else 0) ∧
          (a1.filter (fun c => c = Child.item pn)).length =
            (acc.filter (fun c => c = Child.item pn)).length +
            (if (parentOf st (.item pn)).isSome then 0
             else (if row.PN = pn then 1 else 0)) ∧
          (a1.filter (isLinkPN pn)).length = (acc.filter (isLinkPN pn)).length +
            (if (parentOf st (.item pn)).isSome then
              (if row.PN = pn then 1 else 0) else 0) ∧
          (∀ x ∈ acc, x ∈ a1) ∧
          (∀ b', rowsOf s1 b' = rowsOf st b') := by
        rcases resolveRow_elim hstep with
          ⟨hpnk, stA, hsp, hst', hacc'⟩ | ⟨hpnk, it, hcat, hbr⟩
        · -- sub-assembly branch: row.PN is an assembly name, hence ≠ pn
          have hrne : ¬(row.PN = pn) := by
            intro hh
            refine hpn ?_
            rw [← hh, ← inv.keysEq]
            exact hpnk
          have hcatA : s1.catalog = st.catalog := by
            rw [hst']
            show stA.catalog = st.catalog
            exact catalog_setParent_nonitem hsp (fun pn' hh => Child.noConfusion hh)
          have hlinksA : s1.links = st.links := by
            rw [hst']
            show stA.links = st.links
            exact links_setParent_nonlink hsp (fun lid t hh => Child.noConfusion hh)
          subst hacc'
          refine ⟨hcatA, ?_, ?_, ?_, ?_, ?_, ?_, ?_⟩
          · intro lid l hl
            rw [hlinksA]
            exact hl
          · intro lid l hl
            rw [hlinksA] at hl
            exact Or.inl hl
          · show linksTargeting s1 pn = _
            unfold linksTargeting
            rw [hlinksA]
            simp [hrne]
          · rw [filter_append_singleton_length]
            simp [hrne]
          · rw [filter_append_singleton_length]
            simp [isLinkPN, hrne]
          · intro x hx
            exact List.mem_append_left _ hx
          · intro b'
            rw [hst']
            rw [rowsOf_typeSet]
            exact rowsOf_setParent hsp b'
        · rcases hbr with ⟨hown, hst', hacc'⟩ | ⟨hown, hst', hacc'⟩
          · -- owned part: a fresh link is appended
            subst hacc'
            have hcatA : s1.catalog = st.catalog := by rw [hst']
            have hlinksA : s1.links =
                st.links ++ [(st.nextLink, { target := row.PN, parent := none })] := by
              rw [hst']
            refine ⟨hcatA, ?_, ?_, ?_, ?_, ?_, ?_, ?_⟩
            · intro lid l hl
              rw [hlinksA]
              exact alookup_append_left _ hl
            · intro lid l hl
              rw [hst'] at hl
              rw [links_linkAdd_lookup] at hl
              cases hl0 : alookup lid st.links with
              | some l0 =>
                rw [hl0] at hl
                injection hl with h1
                refine Or.inl ?_
                rw [← h1]
              | none =>
                rw [hl0] at hl
                by_cases heq : st.nextLink = lid
                · rw [if_pos heq] at hl
                  injection hl with h1
                  refine Or.inr ⟨?_, by rw [← h1]⟩
                  rw [← h1, ← heq]
                  exact List.mem_append_right _ (List.mem_singleton.mpr rfl)
                · rw [if_neg heq] at hl
                  exact Option.noConfusion hl
            · show linksTargeting s1 pn = _
              unfold linksTargeting
              rw [hlinksA, filter_append_singleton_length]
              by_cases hr : row.PN = pn
              · subst hr
                have hiso : (parentOf st (.item row.PN)).isSome = true := by
                  rw [← ownerTruthy_eq inv hcat]
                  exact hown
                rw [hiso]
                simp
              · simp [hr]
            · rw [filter_append_singleton_length]
              by_cases hr : row.PN = pn
              · subst hr
                have hiso : (parentOf st (.item row.PN)).isSome = true := by
                  rw [← ownerTruthy_eq inv hcat]
                  exact hown
                rw [hiso]
                simp
              · simp [hr]
            · rw [filter_append_singleton_length]
              by_cases hr : row.PN = pn
              · subst hr
                have hiso : (parentOf st (.item row.PN)).isSome = true := by
                  rw [← ownerTruthy_eq inv hcat]
                  exact hown
                rw [hiso]
                simp [isLinkPN]
              · simp [isLinkPN, hr]
            · intro x hx
              exact List.mem_append_left _ hx
            · intro b'
              rw [hst']
              rfl
          · -- unowned part: the Item itself is appended, no state change
            subst hacc'
            have hcatA : s1.catalog = st.catalog := by rw [hst']
            have hlinksA : s1.links = st.links := by rw [hst']
            refine ⟨hcatA, ?_, ?_, ?_, ?_, ?_, ?_, ?_⟩
            · intro lid l hl
              rw [hlinksA]
              exact hl
            · intro lid l hl
              rw [hlinksA] at hl
              exact Or.inl hl
            · show linksTargeting s1 pn = _
              unfold linksTargeting
              rw [hlinksA]
              by_cases hr : row.PN = pn
              · have hiso : (parentOf st (.item pn)).isSome = false := by
                  rw [← hr, ← ownerTruthy_eq inv hcat]
                  exact hown
                simp [hiso]
              · cases (parentOf st (.item pn)).isSome <;> simp [hr]
            · rw [filter_append_singleton_length]
              by_cases hr : row.PN = pn
              · have hiso : (parentOf st (.item pn)).isSome = false := by
                  rw [← hr, ← ownerTruthy_eq inv hcat]
                  exact hown
                simp [hiso, hr]
              · simp [hr, Child.item.injEq]
            · rw [filter_append_singleton_length]
              by_cases hr : row.PN = pn
              · have hiso : (parentOf st (.item pn)).isSome = false := by
                  rw [← hr, ← ownerTruthy_eq inv hcat]
                  exact hown
                simp [isLinkPN, hiso]
              · simp [isLinkPN, hr]
            · intro x hx
              exact List.mem_append_left _ hx
            · intro b'
              rw [hst']
      obtain ⟨hcatA, hlk12, hlk21, hltA, hitA, hlnA, hextA, hrowsA⟩ := hfacts
      obtain ⟨hcatB, hlk12B, hlk21B, hltB, hitB, hlnB, hextB, hrowsB⟩ :=
        ih s1 a1 st1 acc' h inv1 hacc1
      have hiso : parentOf s1 (.item pn) = parentOf st (.item pn) :=
        parentOf_item_congr hcatA pn
      have hsplit : ((row :: rows').filter (fun r => r.PN = pn)).length =
          (if row.PN = pn then 1 else 0) + (rows'.filter (fun r => r.PN = pn)).length := by
        by_cases hr : row.PN = pn
        · rw [List.filter_cons_of_pos (by simp [hr]), if_pos hr, List.length_cons]
          omega
        · rw [List.filter_cons_of_neg (by simp [hr]), if_neg hr]
          omega
      refine ⟨by rw [hcatB, hcatA], ?_, ?_, ?_, ?_, ?_, ?_, ?_⟩
      · intro lid l hl
        exact hlk12B lid l (hlk12 lid l hl)
      · intro lid l hl
        rcases hlk21B lid l hl with h1 | h1
        · rcases hlk21 lid l h1 with h2 | ⟨h2, h3⟩
          · exact Or.inl h2
          · exact Or.inr ⟨hextB _ h2, h3⟩
        · exact Or.inr h1
      · rw [hltB, hiso, hltA, hsplit]
        by_cases ho : (parentOf st (.item pn)).isSome
        · rw [if_pos ho, if_pos ho, if_pos ho]
          try omega
        · rw [if_neg ho, if_neg ho, if_neg ho]
          try omega
      · rw [hitB, hiso, hitA, hsplit]
        by_cases ho : (parentOf st (.item pn)).isSome
        · rw [if_pos ho, if_pos ho, if_pos ho]
          try omega
        · rw [if_neg ho, if_neg ho, if_neg ho]
          try omega
      · rw [hlnB, hiso, hlnA, hsplit]
        by_cases ho : (parentOf st (.item pn)).isSome
        · rw [if_pos ho, if_pos ho, if_pos ho]
          try omega
        · rw [if_neg ho, if_neg ho, if_neg ho]
          try omega
      · intro x hx
        exact hextB x (hextA x hx)
      · intro b'
        rw [hrowsB, hrowsA]

theorem parentOf_setParent_self2 {st : St} {c : Child} {v : Option String} {st' : St}
    (h : setParent st c v = .ok st') (hc : canonical st c) :
    parentOf st' c = v := by
  rcases setParent_ok_elim h with ⟨hp, rfl⟩ | ⟨_, rfl⟩
  · exact hp
  · exact parentOf_force_self st c v hc

theorem parentOf_setParent_ne2 {st : St} {c c' : Child} {v : Option String} {st' : St}
    (h : setParent st c v = .ok st') (hc : canonical st c) (hc' : canonical st c')
    (hne : c' ≠ c) :
    parentOf st' c' = parentOf st c' := by
  rcases setParent_ok_elim h with ⟨_, rfl⟩ | ⟨_, rfl⟩
  · rfl
  · exact parentOf_force_ne st c c' v hc hc' hne

theorem attachAll_sets {keys0 catKeys0 : List String} {b : String} (hb : b ∈ keys0) :
    ∀ (cs : List Child) (st st' : St),
      attachAll st b cs = .ok st' →
      BuildInv keys0 catKeys0 st →
      (∀ x ∈ cs, canonical st x) →
      cs.Nodup →
      (BuildInv keys0 catKeys0 st' ∧
       (∀ x, canonical st' x ↔ canonical st x) ∧
       (∀ x ∈ cs, parentOf st' x = some b) ∧
       (∀ x, canonical st x → x ∉ cs → parentOf st' x = parentOf st x)) := by
  intro cs
  induction cs with
  | nil =>
    intro st st' h inv _ _
    unfold attachAll at h
    simp only [List.foldlM_nil] at h
    injection h with h1
    subst h1
    exact ⟨inv, fun x => Iff.rfl, fun x hx => absurd hx (List.not_mem_nil x),
      fun x _ _ => rfl⟩
  | cons c t ih =>
    intro st st' h inv hcs hnd
    unfold attachAll at h
    rw [List.foldlM_cons] at h
    cases h1 : setParent st c (some b) with
    | error e => rw [h1] at h; exact Except.noConfusion h
    | ok s1 =>
      rw [h1] at h
      have hv : ∀ p, (some b : Option String) = some p → p ∈ keys0 := by
        intro p hp
        injection hp with h2
        exact h2 ▸ hb
      have hcanc : canonical st c := hcs c (List.mem_cons_self c t)
      have inv1 : BuildInv keys0 catKeys0 s1 := buildInv_setParent inv hcanc hv h1
      have hcan1 : ∀ x, canonical s1 x ↔ canonical st x :=
        canonical_setParent_iff h1
      obtain ⟨hndc, hndt⟩ := List.nodup_cons.mp hnd
      obtain ⟨invF, hcanF, hsetT, hframeT⟩ :=
        ih s1 st' h inv1 (fun x hx => (hcan1 x).mpr (hcs x (List.mem_cons_of_mem c hx))) hndt
      refine ⟨invF, fun x => (hcanF x).trans (hcan1 x), ?_, ?_⟩
      · intro x hx
        rcases List.mem_cons.mp hx with rfl | hx1
        · rw [hframeT x ((hcan1 x).mpr hcanc) hndc]
          exact parentOf_setParent_self2 h1 hcanc
        · exact hsetT x hx1
      · intro x hcx hnx
        have hnxc : x ≠ c := fun hh => hnx (hh ▸ List.mem_cons_self c t)
        have hnxt : x ∉ t := fun hh => hnx (List.mem_cons_of_mem c hh)
        rw [hframeT x ((hcan1 x).mpr hcx) hnxt]
        exact parentOf_setParent_ne2 h1 hcanc hcx hnxc

theorem detachFold_frame {keys0 catKeys0 : List String} :
    ∀ (l : List Child) (st st' : St),
      l.foldlM (fun s c => setParent s c none) st = .ok st' →
      BuildInv keys0 catKeys0 st →
      (∀ x ∈ l, canonical st x) →
      (BuildInv keys0 catKeys0 st' ∧
       (∀ x, canonical st' x ↔ canonical st x) ∧
       (∀ x, canonical st x → x ∉ l → parentOf st' x = parentOf st x)) := by
  intro l
  induction l with
  | nil =>
    intro st st' h inv _
    simp only [List.foldlM_nil] at h
    injection h with h1
    subst h1
    exact ⟨inv, fun x => Iff.rfl, fun x _ _ => rfl⟩
  | cons c t ih =>
    intro st st' h inv hcs
    rw [List.foldlM_cons] at h
    cases h1 : setParent st c none with
    | error e => rw [h1] at h; exact Except.noConfusion h
    | ok s1 =>
      rw [h1] at h
      have hv : ∀ p, (none : Option String) = some p → p ∈ keys0 := by
        intro p hp
        exact Option.noConfusion hp
      have hcanc : canonical st c := hcs c (List.mem_cons_self c t)
      have inv1 : BuildInv keys0 catKeys0 s1 := buildInv_setParent inv hcanc hv h1
      have hcan1 : ∀ x, canonical s1 x ↔ canonical st x :=
        canonical_setParent_iff h1
      obtain ⟨invF, hcanF, hframeT⟩ :=
        ih s1 st' h inv1 (fun x hx => (hcan1 x).mpr (hcs x (List.mem_cons_of_mem c hx)))
      refine ⟨invF, fun x => (hcanF x).trans (hcan1 x), ?_⟩
      intro x hcx hnx
      have hnxc : x ≠ c := fun hh => hnx (hh ▸ List.mem_cons_self c t)
      have hnxt : x ∉ t := fun hh => hnx (List.mem_cons_of_mem c hh)
      rw [hframeT x ((hcan1 x).mpr hcx) hnxt]
      exact parentOf_setParent_ne2 h1 hcanc hcx hnxc

theorem foldSetParent_frames (v : Option String) :
    ∀ (cs : List Child) (s s' : St),
      cs.foldlM (fun s c => setParent s c v) s = .ok s' →
      ((∀ pn, linksTargeting s' pn = linksTargeting s pn) ∧
       (∀ b', rowsOf s' b' = rowsOf s b')) := by
  intro cs s s' h
  have hstep : ∀ (s2 : St) (c : Child) (s3 : St), setParent s2 c v = .ok s3 →
      ((∀ pn, linksTargeting s2 pn = linksTargeting s pn) ∧
       (∀ b', rowsOf s2 b' = rowsOf s b')) →
      ((∀ pn, linksTargeting s3 pn = linksTargeting s pn) ∧
       (∀ b', rowsOf s3 b' = rowsOf s b')) := by
    intro s2 c s3 hok hp
    obtain ⟨hlt, hro⟩ := hp
    exact ⟨fun pn => by rw [linksTargeting_setParent hok, hlt pn],
      fun b' => by rw [rowsOf_setParent hok b', hro b']⟩
  exact foldlM_inv hstep cs s s' h ⟨fun pn => rfl, fun b' => rfl⟩

theorem setChildren_post {keys0 catKeys0 : List String} {st : St} {b : String}
    {cs : List Child} {st' : St}
    (hb : b ∈ keys0) (inv : BuildInv keys0 catKeys0 st)
    (hcs : ∀ x ∈ cs, canonical st x)
    (hsub : ∀ x ∈ childrenOf st b, x ∈ cs)
    (h : setChildren st b cs = .ok st') :
    BuildInv keys0 catKeys0 st' ∧
    (∀ x, canonical st' x ↔ canonical st x) ∧
    (∀ x ∈ cs, parentOf st' x = some b) ∧
    (∀ x, canonical st x → x ∉ cs → parentOf st' x = parentOf st x) ∧
    cs.Nodup ∧
    (∀ pn, linksTargeting st' pn = linksTargeting st pn) ∧
    (∀ b', rowsOf st' b' = rowsOf st b') := by
  unfold setChildren at h
  by_cases hnd : cs.Nodup
  · rw [if_pos hnd] at h
    cases hd : detachAll st b with
    | error e => rw [hd] at h; exact Except.noConfusion h
    | ok st1 =>
      rw [hd] at h
      have hd' : (childrenOf st b).foldlM (fun s c => setParent s c none) st = .ok st1 := hd
      obtain ⟨inv1, hcan1, hframe1⟩ :=
        detachFold_frame (childrenOf st b) st st1 hd' inv (fun x hx => inv.refs b x hx)
      obtain ⟨invF, hcanF, hsetF, hframeF⟩ :=
        attachAll_sets hb cs st1 st' h inv1 (fun x hx => (hcan1 x).mpr (hcs x hx)) hnd
      obtain ⟨hlt1, hro1⟩ := foldSetParent_frames none (childrenOf st b) st st1 hd'
      obtain ⟨hltF, hroF⟩ := foldSetParent_frames (some b) cs st1 st' h
      refine ⟨invF, fun x => (hcanF x).trans (hcan1 x), hsetF, ?_, hnd,
        fun pn => by rw [hltF pn, hlt1 pn],
        fun b' => by rw [hroF b', hro1 b']⟩
      intro x hcx hnx
      have hnchild : x ∉ childrenOf st b := fun hh => hnx (hsub x hh)
      rw [hframeF x ((hcan1 x).mpr hcx) hnx]
      exact hframe1 x hcx hnchild
  · rw [if_neg hnd] at h
    exact Except.noConfusion h

theorem nodup_filter_eq_le_one {α : Type} [DecidableEq α] {l : List α} (hnd : l.Nodup)
    (a : α) : (l.filter (fun c => c = a)).length ≤ 1 := by
  cases hfe : l.filter (fun c => c = a) with
  | nil => simp
  | cons x xs =>
    cases hxs : xs with
    | nil => simp
    | cons y ys =>
      exfalso
      have hndf : (l.filter (fun c => c = a)).Nodup := List.Nodup.filter _ hnd
      rw [hfe, hxs] at hndf
      have hx : x = a := by
        have hmx : x ∈ l.filter (fun c => c = a) := by
          rw [hfe]
          exact List.mem_cons_self x _
        simpa using List.of_mem_filter hmx
      have hy : y = a := by
        have hmy : y ∈ l.filter (fun c => c = a) := by
          rw [hfe, hxs]
          exact List.mem_cons_of_mem x (List.mem_cons_self y ys)
        simpa using List.of_mem_filter hmy
      have hxy : x ≠ y := by
        have := List.nodup_cons.mp hndf
        exact fun hh => this.1 (hh ▸ List.mem_cons_self y ys)
      exact hxy (by rw [hx, hy])

theorem filter_eq_length_zero_not_mem {α : Type} [DecidableEq α] {l : List α} {a : α}
    (h : (l.filter (fun c => c = a)).length = 0) : a ∉ l := by
  intro hmem
  have hmf : a ∈ l.filter (fun c => c = a) :=
    List.mem_filter.mpr ⟨hmem, by simp⟩
  rw [List.length_eq_zero] at h
  rw [h] at hmf
  exact absurd hmf (List.not_mem_nil a)

theorem filter_eq_length_pos_mem {α : Type} [DecidableEq α] {l : List α} {a : α}
    (h : 1 ≤ (l.filter (fun c => c = a)).length) : a ∈ l := by
  cases hfe : l.filter (fun c => c = a) with
  | nil => rw [hfe] at h; exact absurd h (by simp)
  | cons x xs =>
    have hmx : x ∈ l.filter (fun c => c = a) := by
      rw [hfe]
      exact List.mem_cons_self x _
    have hx : x = a := by simpa using List.of_mem_filter hmx
    exact hx ▸ List.mem_of_mem_filter hmx

theorem rowsOf_eq_match (st : St) (b : String) :
    rowsOf st b = (match alookup b st.asms with
      | some d => d.rows
      | none => []) := by
  unfold rowsOf
  cases alookup b st.asms with
  | none => rfl
  | some d => rfl

theorem childSub_rowLoop {b : String} :
    ∀ (rows : List Row) (st : St) (acc : List Child) (st1 : St) (acc' : List Child),
      rows.foldlM (fun s row => resolveRow s.1 b s.2 row) (st, acc) = .ok (st1, acc') →
      (∀ x ∈ childrenOf st b, x ∈ acc) →
      (∀ x ∈ childrenOf st1 b, x ∈ acc') := by
  have hstep : ∀ (s : St × List Child) (row : Row) (s' : St × List Child),
      resolveRow s.1 b s.2 row = .ok s' →
      (∀ x ∈ childrenOf s.1 b, x ∈ s.2) →
      (∀ x ∈ childrenOf s'.1 b, x ∈ s'.2) := by
    rintro ⟨st, acc⟩ row ⟨st', acc'⟩ h hP
    rcases resolveRow_elim h with
      ⟨hpnk, stA, hsp, hst', hacc'⟩ | ⟨hpnk, it, hcat, hbr⟩
    · subst hst' hacc'
      intro x hx
      replace hx : x ∈ childrenOf stA b := by
        rw [typeSet_childrenOf] at hx
        exact hx
      rcases childrenOf_setParent_sub_self hsp x hx with h1 | rfl
      · exact List.mem_append_left _ (hP x h1)
      · exact List.mem_append_right _ (List.mem_singleton.mpr rfl)
    · rcases hbr with ⟨hown, hst', hacc'⟩ | ⟨hown, hst', hacc'⟩
      · subst hst' hacc'
        intro x hx
        exact List.mem_append_left _ (hP x hx)
      · subst hacc'
        intro x hx
        rw [hst'] at hx
        exact List.mem_append_left _ (hP x hx)
  intro rows st acc st1 acc' h hP
  exact foldlM_inv hstep rows (st, acc) (st1, acc') h hP

theorem children_sub_rowLoop {b : String} (st : St) :
    ∀ (rows : List Row) (s0 : St) (acc : List Child) (st1 : St) (acc' : List Child),
      rows.foldlM (fun s row => resolveRow s.1 b s.2 row) (s0, acc) = .ok (st1, acc') →
      (∀ p, p ≠ b → childrenOf s0 p ⊆ childrenOf st p) →
      (∀ p, p ≠ b → childrenOf st1 p ⊆ childrenOf st p) := by
  have hstep : ∀ (s : St × List Child) (row : Row) (s' : St × List Child),
      resolveRow s.1 b s.2 row = .ok s' →
      (∀ p, p ≠ b → childrenOf s.1 p ⊆ childrenOf st p) →
      (∀ p, p ≠ b → childrenOf s'.1 p ⊆ childrenOf st p) := by
    rintro ⟨s2, acc⟩ row ⟨st', acc'⟩ h hP
    rcases resolveRow_elim h with
      ⟨hpnk, stA, hsp, hst', hacc'⟩ | ⟨hpnk, it, hcat, hbr⟩
    · subst hst' hacc'
      intro p hp x hx
      replace hx : x ∈ childrenOf stA p := by
        rw [typeSet_childrenOf] at hx
        exact hx
      have hbp : (some b : Option String) ≠ some p :=
        fun hh => hp (Option.some.inj hh).symm
      exact hP p hp (childrenOf_setParent_sub_ne hsp p hbp hx)
    · rcases hbr with ⟨hown, hst', hacc'⟩ | ⟨hown, hst', hacc'⟩
      · subst hst' hacc'
        intro p hp x hx
        exact hP p hp hx
      · subst hacc'
        intro p hp x hx
        rw [hst'] at hx
        exact hP p hp hx
  intro rows s0 acc st1 acc' h hP
  exact foldlM_inv hstep rows (s0, acc) (st1, acc') h hP

theorem setChildren_children_sub {st : St} {b : String} {cs : List Child} {st' : St}
    (h : setChildren st b cs = .ok st') :
    ∀ p, p ≠ b → childrenOf st' p ⊆ childrenOf st p := by
  unfold setChildren at h
  by_cases hnd : cs.Nodup
  · rw [if_pos hnd] at h
    cases hd : detachAll st b with
    | error e => rw [hd] at h; exact Except.noConfusion h
    | ok st1 =>
      rw [hd] at h
      unfold detachAll at hd
      unfold attachAll at h
      obtain ⟨_, _, _, _, _, dSub⟩ := foldSetParent_post none _ _ _ hd
      obtain ⟨_, _, _, _, _, aSub⟩ := foldSetParent_post (some b) _ _ _ h
      intro p hp x hx
      have hbp : (some b : Option String) ≠ some p :=
        fun hh => hp (Option.some.inj hh).symm
      exact dSub p (fun hh => Option.noConfusion hh) (aSub p hbp hx)
  · rw [if_neg hnd] at h
    exact Except.noConfusion h

theorem canonical_item_of_parent_isSome {st : St} {pn : String}
    (h : (parentOf st (.item pn)).isSome = true) : canonical st (.item pn) := by
  show pn ∈ st.catalog.map Prod.fst
  rw [← alookup_isSome_iff]
  cases hl : alookup pn st.catalog with
  | none =>
    exfalso
    replace h : ((alookup pn st.catalog).bind (·.parent)).isSome = true := h
    rw [hl] at h
    simp at h
  | some d => rfl

theorem canonical_item_congr {st1 st2 : St} (h : st1.catalog = st2.catalog) (pn : String) :
    canonical st1 (.item pn) ↔ canonical st2 (.item pn) := by
  show pn ∈ st1.catalog.map Prod.fst ↔ pn ∈ st2.catalog.map Prod.fst
  rw [h]

theorem ownedBit_eq_parent (st : St) (pn : String) :
    ownedBit st pn = if (parentOf st (.item pn)).isSome then 1 else 0 := rfl

theorem acct_resolveAsm {keys0 catKeys0 : List String} {st st' : St} {b pn : String}
    (hb : b ∈ keys0) (hpn : pn ∉ keys0)
    (inv : BuildInv keys0 catKeys0 st)
    (hemp : childrenOf st b = [])
    (h : resolveAsm st b = .ok st') :
    BuildInv keys0 catKeys0 st' ∧
    (ownedBit st' pn + linksTargeting st' pn =
      ownedBit st pn + linksTargeting st pn + rowCountAt st b pn) ∧
    (ownedBit st pn = 1 → ownedBit st' pn = 1) ∧
    (1 ≤ rowCountAt st b pn → ownedBit st' pn = 1) ∧
    ((∀ lid t, canonical st (.link lid t) → (parentOf st (.link lid t)).isSome = true) →
      (∀ lid t, canonical st' (.link lid t) → (parentOf st' (.link lid t)).isSome = true)) ∧
    (∀ b', rowsOf st' b' = rowsOf st b') ∧
    (∀ p, p ≠ b → childrenOf st' p ⊆ childrenOf st p) := by
  simp only [resolveAsm] at h
  cases hrr : resolveRows st b
      (match alookup b st.asms with
        | some d => d.rows
        | none => []) with
  | error e => rw [hrr] at h; exact Except.noConfusion h
  | ok pr =>
    obtain ⟨st1, cs⟩ := pr
    rw [hrr] at h
    obtain ⟨inv1, hcsn⟩ := buildInv_resolveRows hb hrr inv
    have hfold := hrr
    unfold resolveRows at hfold
    obtain ⟨hcat1, hlk12, hlk21, hlt1, hit1, hln1, _, hrows1⟩ :=
      rowLoop_acct hb hpn _ st [] st1 cs hfold inv
        (fun x hx => absurd hx (List.not_mem_nil x))
    have hsub : ∀ x ∈ childrenOf st1 b, x ∈ cs :=
      childSub_rowLoop _ st [] st1 cs hfold
        (by rw [hemp]; intro x hx; exact absurd hx (List.not_mem_nil x))
    obtain ⟨invF, hcanF, hsetF, hframeF, hnodup, hltF, hroF⟩ :=
      setChildren_post hb inv1 hcsn hsub h
    have hiso1 : parentOf st1 (.item pn) = parentOf st (.item pn) :=
      parentOf_item_congr hcat1 pn
    have hrcEq : rowCountAt st b pn =
        (((match alookup b st.asms with
          | some d => d.rows
          | none => []) : List Row).filter (fun (r : Row) => r.PN = pn)).length := by
      show ((rowsOf st b).filter (fun (r : Row) => r.PN = pn)).length = _
      rw [rowsOf_eq_match]
    -- shared conjuncts
    have hlat : (∀ lid t, canonical st (.link lid t) → (parentOf st (.link lid t)).isSome = true) →
        (∀ lid t, canonical st' (.link lid t) → (parentOf st' (.link lid t)).isSome = true) := by
      intro hlat0 lid t hcanL'
      have hcanL1 : canonical st1 (.link lid t) := (hcanF _).mp hcanL'
      obtain ⟨l, hlkp, htg⟩ := hcanL1
      by_cases hmem : Child.link lid t ∈ cs
      · rw [hsetF _ hmem]
        rfl
      · rw [hframeF (Child.link lid t) ⟨l, hlkp, htg⟩ hmem]
        rcases hlk21 lid l hlkp with hOld | ⟨hIn, hpar⟩
        · have hcanL : canonical st (.link lid t) := ⟨l, hOld, htg⟩
          have hattached := hlat0 lid t hcanL
          have heq1 : parentOf st1 (.link lid t) = parentOf st (.link lid t) := by
            show (alookup lid st1.links).bind (·.parent) =
              (alookup lid st.links).bind (·.parent)
            rw [hlkp, hOld]
          rw [heq1]
          exact hattached
        · exact absurd (htg ▸ hIn) hmem
    have hrowsF : ∀ b', rowsOf st' b' = rowsOf st b' := by
      intro b'
      rw [hroF b', hrows1 b']
    have hsubF : ∀ p, p ≠ b → childrenOf st' p ⊆ childrenOf st p := by
      intro p hp x hx
      refine children_sub_rowLoop st _ st [] st1 cs hfold
        (fun p' _ => List.Subset.refl _) p hp ?_
      exact setChildren_children_sub h p hp hx
    -- per-ownership accounting
    have htri : (ownedBit st' pn + linksTargeting st' pn =
          ownedBit st pn + linksTargeting st pn + rowCountAt st b pn) ∧
        (ownedBit st pn = 1 → ownedBit st' pn = 1) ∧
        (1 ≤ rowCountAt st b pn → ownedBit st' pn = 1) := by
      by_cases ho : (parentOf st (.item pn)).isSome
      · -- item already owned before this assembly
        have hit1' := hit1
        rw [if_pos ho] at hit1'
        simp at hit1'
        have hnotin : Child.item pn ∉ cs := fun hmem => hit1' _ hmem rfl
        have hcanitem : canonical st (.item pn) := canonical_item_of_parent_isSome ho
        have hparF : parentOf st' (.item pn) = parentOf st (.item pn) := by
          rw [hframeF _ ((canonical_item_congr hcat1 pn).mpr hcanitem) hnotin, hiso1]
        have hlt' : linksTargeting st' pn =
            linksTargeting st pn + rowCountAt st b pn := by
          rw [hltF pn, hlt1, if_pos ho, hrcEq]
        refine ⟨?_, ?_, ?_⟩
        · rw [ownedBit_eq_parent, ownedBit_eq_parent, hparF, if_pos ho, hlt']
          omega
        · intro _
          rw [ownedBit_eq_parent, hparF, if_pos ho]
        · intro _
          rw [ownedBit_eq_parent, hparF, if_pos ho]
      · -- item not yet owned
        have hob0 : ownedBit st pn = 0 := by
          rw [ownedBit_eq_parent, if_neg ho]
        have hit1' := hit1
        rw [if_neg ho] at hit1'
        simp at hit1'
        have hrcle : rowCountAt st b pn ≤ 1 := by
          rw [hrcEq, ← hit1']
          exact nodup_filter_eq_le_one hnodup _
        have hlt' : linksTargeting st' pn = linksTargeting st pn := by
          rw [hltF pn, hlt1, if_neg ho]
          omega
        rcases Nat.lt_or_ge (rowCountAt st b pn) 1 with hrc0 | hrc1
        · have hrc00 : rowCountAt st b pn = 0 := by omega
          have hitem0 : (cs.filter (fun c => c = Child.item pn)).length = 0 := by
            rw [hit1', ← hrcEq, hrc00]
          have hnotin := filter_eq_length_zero_not_mem hitem0
          have hobF : ownedBit st' pn = 0 := by
            by_cases hcanit : canonical st (.item pn)
            · have hparF : parentOf st' (.item pn) = parentOf st (.item pn) := by
                rw [hframeF _ ((canonical_item_congr hcat1 pn).mpr hcanit) hnotin, hiso1]
              rw [ownedBit_eq_parent, hparF, if_neg ho]
            · have hnk : pn ∉ st'.catalog.map Prod.fst := by
                rw [invF.catKeysEq, ← inv.catKeysEq]
                exact hcanit
              have hnone' : parentOf st' (.item pn) = none := by
                show (alookup pn st'.catalog).bind (·.parent) = none
                rw [(alookup_eq_none_iff _ _).mpr hnk]
                rfl
              rw [ownedBit_eq_parent, hnone']
              rfl
          refine ⟨?_, ?_, ?_⟩
          · rw [hobF, hob0, hlt', hrc00]
            omega
          · intro h01
            rw [hob0] at h01
            exact Nat.noConfusion h01
          · intro h11
            omega
        · have hrc11 : rowCountAt st b pn = 1 := by omega
          have hmemcs : Child.item pn ∈ cs := by
            apply filter_eq_length_pos_mem
            rw [hit1', ← hrcEq, hrc11]
          have hparF : parentOf st' (.item pn) = some b := hsetF _ hmemcs
          have hobF : ownedBit st' pn = 1 := by
            rw [ownedBit_eq_parent, hparF]
            rfl
          refine ⟨?_, ?_, ?_⟩
          · rw [hobF, hob0, hlt', hrc11]
            omega
          · intro h01
            rw [hob0] at h01
            exact Nat.noConfusion h01
          · intro _
            exact hobF
    exact ⟨invF, htri.1, htri.2.1, htri.2.2, hlat, hrowsF, hsubF⟩

theorem rowCountAt_congr {st1 st2 : St} (h : ∀ b, rowsOf st1 b = rowsOf st2 b)
    (b pn : String) : rowCountAt st1 b pn = rowCountAt st2 b pn := by
  unfold rowCountAt
  rw [h b]

theorem acct_resolveAll {keys0 catKeys0 : List String} {pn : String} (hpn : pn ∉ keys0) :
    ∀ (names : List String) (st st' : St),
      names.foldlM resolveAsm st = .ok st' →
      BuildInv keys0 catKeys0 st →
      (∀ n ∈ names, n ∈ keys0) →
      (∀ n ∈ names, childrenOf st n = []) →
      names.Nodup →
      (BuildInv keys0 catKeys0 st' ∧
       (ownedBit st' pn + linksTargeting st' pn =
         ownedBit st pn + linksTargeting st pn +
           (names.map (fun b => rowCountAt st b pn)).sum) ∧
       (ownedBit st pn = 1 → ownedBit st' pn = 1) ∧
       ((∃ b, b ∈ names ∧ 1 ≤ rowCountAt st b pn) → ownedBit st' pn = 1) ∧
       ((∀ lid t, canonical st (.link lid t) → (parentOf st (.link lid t)).isSome = true) →
         (∀ lid t, canonical st' (.link lid t) → (parentOf st' (.link lid t)).isSome = true)) ∧
       (∀ b', rowsOf st' b' = rowsOf st b')) := by
  intro names
  induction names with
  | nil =>
    intro st st' h inv _ _ _
    simp only [List.foldlM_nil] at h
    injection h with h1
    subst h1
    refine ⟨inv, by simp, fun h1 => h1, ?_, fun hl => hl, fun b' => rfl⟩
    rintro ⟨b0, hmem, _⟩
    exact absurd hmem (List.not_mem_nil b0)
  | cons b t ih =>
    intro st st' h inv hkeys hemp hnd
    rw [List.foldlM_cons] at h
    cases h1 : resolveAsm st b with
    | error e => rw [h1] at h; exact Except.noConfusion h
    | ok s1 =>
      rw [h1] at h
      have hb : b ∈ keys0 := hkeys b (List.mem_cons_self b t)
      obtain ⟨inv1, eq1, mono1, trig1, lat1, rows1, sub1⟩ :=
        acct_resolveAsm hb hpn inv (hemp b (List.mem_cons_self b t)) h1
      obtain ⟨hndb, hndt⟩ := List.nodup_cons.mp hnd
      have hemp1 : ∀ n ∈ t, childrenOf s1 n = [] := by
        intro n hn
        have hne : n ≠ b := fun hh => hndb (hh ▸ hn)
        have hsb := sub1 n hne
        rw [hemp n (List.mem_cons_of_mem b hn)] at hsb
        exact List.subset_nil.mp hsb
      obtain ⟨invF, eqT, monoT, trigT, latT, rowsT⟩ :=
        ih s1 st' h inv1 (fun n hn => hkeys n (List.mem_cons_of_mem b hn)) hemp1 hndt
      have hrcc : ∀ b', rowCountAt s1 b' pn = rowCountAt st b' pn :=
        fun b' => rowCountAt_congr rows1 b' pn
      refine ⟨invF, ?_, fun h01 => monoT (mono1 h01), ?_, fun hl => latT (lat1 hl), ?_⟩
      · rw [eqT, eq1, List.map_cons, List.sum_cons]
        have hmapeq : t.map (fun b' => rowCountAt s1 b' pn) =
            t.map (fun b' => rowCountAt st b' pn) :=
          List.map_congr_left (fun b' _ => hrcc b')
        rw [hmapeq]
        omega
      · rintro ⟨b0, hmem, hrc⟩
        rcases List.mem_cons.mp hmem with rfl | hmem'
        · exact monoT (trig1 hrc)
        · refine trigT ⟨b0, hmem', ?_⟩
          rw [hrcc b0]
          exact hrc
      · intro b'
        rw [rowsT b', rows1 b']

theorem linksTargeting_init (master : List Row) (tables : List Table) (pn : String) :
    linksTargeting (initSt master tables) pn = 0 := rfl

theorem ownedBit_init (master : List Row) (tables : List Table) (pn : String) :
    ownedBit (initSt master tables) pn = 0 := by
  rw [ownedBit_eq_parent, parentOf_init]
  rfl

theorem acct_from_folder {master : List Row} {tables : List Table} {root : String}
    {st : St} {pn : String}
    (h : BOM.from_folder master tables = .ok (root, st))
    (hpn : pn ∉ (initAsms tables).map Prod.fst) :
    ownedBit st pn + linksTargeting st pn =
      (((initAsms tables).map Prod.fst).map
        (fun b => rowCountAt (initSt master tables) b pn)).sum ∧
    ((∃ b, b ∈ (initAsms tables).map Prod.fst ∧
        1 ≤ rowCountAt (initSt master tables) b pn) →
      ownedBit st pn = 1) ∧
    (∀ lid t, canonical st (.link lid t) → (parentOf st (.link lid t)).isSome = true) := by
  obtain ⟨st1, hra, hfr⟩ := from_folder_ok_elim h
  have hfold := hra
  unfold resolveAll at hfold
  obtain ⟨inv1, eqA, monoA, trigA, latA, rowsA⟩ :=
    acct_resolveAll hpn ((initSt master tables).asms.map Prod.fst)
      (initSt master tables) st1 hfold (buildInv_init master tables)
      (fun n hn => hn) (fun n _ => initSt_children_empty master tables n)
      (initAsms_keys_nodup tables)
  have hlat1 : ∀ lid t, canonical st1 (.link lid t) →
      (parentOf st1 (.link lid t)).isSome = true := by
    refine latA ?_
    intro lid t hcan
    obtain ⟨l, hl, _⟩ := hcan
    exact absurd hl (by intro hh; exact Option.noConfusion hh)
  obtain ⟨hroots, hst⟩ := findRoot_ok_elim hfr
  -- transport through the parts_db attachment
  have hcan2 : ∀ x, canonical st x ↔ canonical st1 x := (buildInv_pdbSet hst inv1).2
  have hpar2 : ∀ c, parentOf st c = parentOf st1 c := by
    intro c
    rw [hst]
    exact parentOf_pdbSet st1 root _ c
  have hob2 : ownedBit st pn = ownedBit st1 pn := by
    rw [ownedBit_eq_parent, ownedBit_eq_parent, hpar2]
  have hlt2 : linksTargeting st pn = linksTargeting st1 pn := by
    rw [hst]
    rfl
  have hkeysEq : (initSt master tables).asms.map Prod.fst =
      (initAsms tables).map Prod.fst := rfl
  rw [hkeysEq] at eqA
  refine ⟨?_, ?_, ?_⟩
  · rw [hob2, hlt2, eqA, ownedBit_init, linksTargeting_init]
    omega
  · intro hex
    rw [hob2]
    exact trigA hex
  · intro lid t hcan
    rw [hpar2]
    exact hlat1 lid t ((hcan2 _).mp hcan)

theorem ainsert_not_present [DecidableEq α] {k : α} {l : List (α × β)}
    (h : alookup k l = none) (v : β) : ainsert k v l = l ++ [(k, v)] := by
  unfold ainsert
  rw [h]
  rfl

theorem initAsms_eq_of_nodup :
    ∀ (tables : List Table), (tables.map Table.name).Nodup →
    ∀ (acc : List (String × BOMData)),
      (∀ t ∈ tables, alookup t.name acc = none) →
      tables.foldl (fun acc t => ainsert t.name (mkBOMData t) acc) acc =
      acc ++ tables.map (fun t => (t.name, mkBOMData t)) := by
  intro tables
  induction tables with
  | nil =>
    intro _ acc _
    simp
  | cons t ts ih =>
    intro hnd acc hacc
    rw [List.foldl_cons]
    have h0 : alookup t.name acc = none := hacc t (List.mem_cons_self t ts)
    rw [ainsert_not_present h0 _]
    have hnd' : (t.name :: ts.map Table.name).Nodup := by simpa using hnd
    obtain ⟨hnd1, hndts⟩ := List.nodup_cons.mp hnd'
    have hacc' : ∀ t' ∈ ts,
        alookup t'.name (acc ++ [(t.name, mkBOMData t)]) = none := by
      intro t' ht'
      rw [alookup_append, hacc t' (List.mem_cons_of_mem _ ht')]
      have hne : t.name ≠ t'.name :=
        fun hh => hnd1 (hh ▸ List.mem_map_of_mem Table.name ht')
      simp [alookup, hne]
    rw [ih hndts _ hacc']
    simp

theorem rowsOf_init_of_nodup {tables : List Table} (hnd : (tables.map Table.name).Nodup)
    (master : List Row) {t : Table} (ht : t ∈ tables) :
    rowsOf (initSt master tables) t.name = t.rows := by
  have hsome : (tables.reverse.find? (fun t' => decide (t'.name = t.name))).isSome := by
    rw [List.find?_isSome]
    exact ⟨t, List.mem_reverse.mpr ht, by simp⟩
  obtain ⟨t', hft⟩ := Option.isSome_iff_exists.mp hsome
  have ht'mem : t' ∈ tables := List.mem_reverse.mp (List.mem_of_find?_eq_some hft)
  have ht'name : t'.name = t.name := by
    have h2 := List.find?_some hft
    simpa using h2
  have ht'eq : t' = t := List.inj_on_of_nodup_map hnd ht'mem ht ht'name
  show ((alookup t.name (initAsms tables)).map (·.rows)).getD [] = t.rows
  rw [alookup_initAsms, hft, ht'eq]
  rfl

theorem sum_rowCount_init (master : List Row) {tables : List Table}
    (hnd : (tables.map Table.name).Nodup) (pn : String) :
    (((initAsms tables).map Prod.fst).map
      (fun b => rowCountAt (initSt master tables) b pn)).sum = rowOccurrences tables pn := by
  have hIA : initAsms tables = tables.map (fun t => (t.name, mkBOMData t)) := by
    show tables.foldl (fun acc t => ainsert t.name (mkBOMData t) acc) [] = _
    rw [initAsms_eq_of_nodup tables hnd [] (fun t _ => rfl)]
    rfl
  have hkeys : (initAsms tables).map Prod.fst = tables.map Table.name := by
    rw [hIA, List.map_map]
    rfl
  rw [hkeys, List.map_map]
  unfold rowOccurrences
  refine congrArg List.sum (List.map_congr_left ?_)
  intro t ht
  show rowCountAt (initSt master tables) t.name pn =
    (t.rows.filter (fun r => r.PN = pn)).length
  unfold rowCountAt
  rw [rowsOf_init_of_nodup hnd master ht]

theorem filter_filter_of_imp {α : Type} (P q : α → Bool) :
    ∀ l : List α, (∀ x ∈ l, P x = true → q x = true) →
      (l.filter q).filter P = l.filter P := by
  intro l
  induction l with
  | nil => intro _; rfl
  | cons a t ih =>
    intro h
    have ht := fun x hx => h x (List.mem_cons_of_mem a hx)
    cases hq : q a with
    | true =>
      rw [List.filter_cons_of_pos hq]
      cases hP : P a with
      | true =>
        rw [List.filter_cons_of_pos hP, List.filter_cons_of_pos hP, ih ht]
      | false =>
        rw [List.filter_cons_of_neg (by rw [hP]; exact Bool.false_ne_true),
          List.filter_cons_of_neg (by rw [hP]; exact Bool.false_ne_true), ih ht]
    | false =>
      have hP : P a = false := by
        cases hP : P a with
        | true => exact absurd (h a (List.mem_cons_self a t) hP) (by rw [hq]; exact Bool.false_ne_true)
        | false => rfl
      rw [List.filter_cons_of_neg (by rw [hq]; exact Bool.false_ne_true),
        List.filter_cons_of_neg (by rw [hP]; exact Bool.false_ne_true), ih ht]

theorem length_filter_eq_sum_indicator {α : Type} (p : α → Bool) :
    ∀ l : List α, (l.filter p).length = (l.map (fun x => if p x then 1 else 0)).sum := by
  intro l
  induction l with
  | nil => rfl
  | cons a t ih =>
    rw [List.map_cons, List.sum_cons]
    by_cases hp : p a
    · rw [List.filter_cons_of_pos hp, List.length_cons, if_pos hp, ih]
      omega
    · rw [List.filter_cons_of_neg hp, if_neg hp, ih]
      omega

theorem sum_map_add {α : Type} (f g : α → Nat) :
    ∀ l : List α, (l.map (fun x => f x + g x)).sum = (l.map f).sum + (l.map g).sum := by
  intro l
  induction l with
  | nil => rfl
  | cons a t ih =>
    simp only [List.map_cons, List.sum_cons, ih]
    omega

theorem list_sum_comm {α β : Type} (f : α → β → Nat) :
    ∀ (l1 : List α) (l2 : List β),
      (l1.map (fun x => (l2.map (f x)).sum)).sum =
      (l2.map (fun y => (l1.map (fun x => f x y)).sum)).sum := by
  intro l1
  induction l1 with
  | nil =>
    intro l2
    simp
  | cons a t ih =>
    intro l2
    simp only [List.map_cons, List.sum_cons, ih l2]
    rw [← sum_map_add (f a) (fun y => (t.map (fun x => f x y)).sum) l2]

theorem mul_sum_list {α : Type} (t : Nat) (f : α → Nat) :
    ∀ l : List α, t * (l.map f).sum = (l.map (fun x => t * f x)).sum := by
  intro l
  induction l with
  | nil => rfl
  | cons a s ih =>
    simp only [List.map_cons, List.sum_cons, Nat.mul_add, ih]

theorem sum_if_single {α : Type} [DecidableEq α] (v : α → Nat) :
    ∀ (l : List α) (b : α), l.Nodup → b ∈ l →
      (l.map (fun a => if a = b then v a else 0)).sum = v b := by
  intro l
  induction l with
  | nil =>
    intro b _ hb
    exact absurd hb (List.not_mem_nil b)
  | cons a t ih =>
    intro b hnd hb
    obtain ⟨hna, hndt⟩ := List.nodup_cons.mp hnd
    rw [List.map_cons, List.sum_cons]
    by_cases hab : a = b
    · have h0 : (t.map (fun a' => if a' = b then v a' else 0)).sum = 0 := by
        refine List.sum_eq_zero ?_
        intro x hx
        obtain ⟨a', ha', hval⟩ := List.mem_map.mp hx
        rw [← hval, if_neg (fun hh : a' = b => hna ((hh.trans hab.symm) ▸ ha'))]
      rw [if_pos hab, h0, hab]
      try omega
    · rcases List.mem_cons.mp hb with hba | hbt
      · exact absurd hba.symm hab
      · rw [if_neg hab, ih b hndt hbt]
        try omega

theorem count_filter_ite {α : Type} [DecidableEq α] (p : α → Bool) (a : α) :
    ∀ l : List α, (l.filter p).count a = if p a then l.count a else 0 := by
  intro l
  induction l with
  | nil =>
    by_cases hp : p a <;> simp [hp]
  | cons x t ih =>
    by_cases hp : p x
    · rw [List.filter_cons_of_pos hp, List.count_cons, List.count_cons, ih]
      by_cases hpa : p a
      · rw [if_pos hpa, if_pos hpa]
      · rw [if_neg hpa, if_neg hpa]
        have hax : ¬(x == a) = true := by
          intro hh
          have h2 : x = a := by simpa using hh
          rw [← h2, hp] at hpa
          exact hpa rfl
        rw [if_neg hax]
    · rw [List.filter_cons_of_neg hp, List.count_cons, ih]
      by_cases hpa : p a
      · rw [if_pos hpa, if_pos hpa]
        have hax : ¬(x == a) = true := by
          intro hh
          have h2 : x = a := by simpa using hh
          rw [← h2] at hpa
          exact hp hpa
        rw [if_neg hax]
        omega
      · rw [if_neg hpa, if_neg hpa]

theorem count_eq_sum_indicator {α : Type} [DecidableEq α] (a : α) :
    ∀ l : List α, l.count a = (l.map (fun x => if x = a then 1 else 0)).sum := by
  intro l
  induction l with
  | nil => rfl
  | cons x t ih =>
    rw [List.map_cons, List.sum_cons, List.count_cons, ih]
    by_cases hxa : x = a
    · rw [if_pos hxa]
      have hbeq : (x == a) = true := by simp [hxa]
      rw [if_pos hbeq]
      omega
    · rw [if_neg hxa]
      have hbeq : ¬(x == a) = true := by simp [hxa]
      rw [if_neg hbeq]
      omega

theorem length_filter_flatten {α : Type} (P : α → Bool) :
    ∀ L : List (List α),
      ((L.flatten).filter P).length = (L.map (fun l => (l.filter P).length)).sum := by
  intro L
  induction L with
  | nil => rfl
  | cons l t ih =>
    rw [List.flatten_cons, List.filter_append, List.length_append, List.map_cons,
      List.sum_cons, ih]

theorem parentIter_back (st : St) (k : Nat) (o : Option String) :
    parentIter st (k + 1) o = (parentIter st k o).bind (asmParent st) := by
  rw [parentIter_add st k 1 o]
  rfl

theorem hitCount_split (st : St) (a b : String) (fuel : Nat) :
    hitCount st a b (fuel + 1) =
      (if a = b then 1 else 0) + hitPar st a b fuel := by
  unfold hitCount hitPar
  rw [List.range_succ_eq_map, List.filter_cons]
  have hfm : (((List.range fuel).map Nat.succ).filter
      (fun k => parentIter st k (some a) = some b)).length =
      ((List.range fuel).filter
        (fun k => (parentIter st k (some a)).bind (asmParent st) = some b)).length := by
    rw [List.filter_map, List.length_map]
    refine congrArg List.length (List.filter_congr ?_)
    intro k _
    show decide (parentIter st (Nat.succ k) (some a) = some b) = _
    rw [parentIter_back st k (some a)]
  by_cases hab : a = b
  · have h0 : decide (parentIter st 0 (some a) = some b) = true := by
      subst hab
      simp [parentIter]
    rw [h0, if_pos rfl, List.length_cons, hfm, if_pos hab]
    omega
  · have h0 : decide (parentIter st 0 (some a) = some b) = false := by
      simp [parentIter]
      intro hh
      exact absurd hh hab
    rw [h0, if_neg Bool.false_ne_true, hfm, if_neg hab]
    omega

theorem no_cycle_of_termB {st : St} {L : Nat} (hterm : TermB st (L + 1)) :
    ∀ (z : String) (m : Nat), 1 ≤ m → parentIter st m (some z) ≠ some z := by
  intro z m hm hcyc
  have hrep : ∀ j, parentIter st (m * j) (some z) = some z := by
    intro j
    induction j with
    | zero => rfl
    | succ j ihj =>
      have hms : m * (j + 1) = m * j + m := by ring
      rw [hms, parentIter_add, ihj, hcyc]
  have hdead : parentIter st (m * (L + 1)) (some z) = none := by
    refine dies_mono st (hterm z) ?_
    exact Nat.le_mul_of_pos_left _ hm
  rw [hrep (L + 1)] at hdead
  exact Option.noConfusion hdead

theorem hits_unique {st : St} {L : Nat} (hterm : TermB st (L + 1)) (a b : String) :
    ∀ k1 k2, parentIter st k1 (some a) = some b →
      parentIter st k2 (some a) = some b → k1 = k2 := by
  have key : ∀ k1 k2, k1 < k2 → parentIter st k1 (some a) = some b →
      parentIter st k2 (some a) = some b → False := by
    intro k1 k2 hlt h1 h2
    have hsplit : k2 = k1 + (k2 - k1) := by omega
    rw [hsplit, parentIter_add, h1] at h2
    exact no_cycle_of_termB hterm b (k2 - k1) (by omega) h2
  intro k1 k2 h1 h2
  rcases Nat.lt_trichotomy k1 k2 with h | h | h
  · exact (key k1 k2 h h1 h2).elim
  · exact h
  · exact (key k2 k1 h h2 h1).elim

theorem nodup_filter_le_one_of_uniq {α : Type} {l : List α} (hnd : l.Nodup)
    (p : α → Bool)
    (huniq : ∀ x ∈ l, ∀ y ∈ l, p x = true → p y = true → x = y) :
    (l.filter p).length ≤ 1 := by
  cases hfe : l.filter p with
  | nil => simp
  | cons x xs =>
    cases hxs : xs with
    | nil => simp
    | cons y ys =>
      exfalso
      have hndf : (l.filter p).Nodup := List.Nodup.filter _ hnd
      rw [hfe, hxs] at hndf
      have hmx : x ∈ l.filter p := by
        rw [hfe]
        exact List.mem_cons_self x _
      have hmy : y ∈ l.filter p := by
        rw [hfe, hxs]
        exact List.mem_cons_of_mem x (List.mem_cons_self y ys)
      have hxy : x ≠ y := by
        have h2 := List.nodup_cons.mp hndf
        exact fun hh => h2.1 (hh ▸ List.mem_cons_self y ys)
      exact hxy (huniq x (List.mem_of_mem_filter hmx) y (List.mem_of_mem_filter hmy)
        (List.of_mem_filter hmx) (List.of_mem_filter hmy))

theorem hitCount_le_one {st : St} {L : Nat} (hterm : TermB st (L + 1))
    (a b : String) (fuel : Nat) : hitCount st a b fuel ≤ 1 := by
  refine nodup_filter_le_one_of_uniq (List.nodup_range fuel) _ ?_
  intro k1 _ k2 _ h1 h2
  exact hits_unique hterm a b k1 k2 (of_decide_eq_true h1) (of_decide_eq_true h2)

theorem hitCount_pos {st : St} {a b : String} {fuel k : Nat} (hk : k < fuel)
    (hit : parentIter st k (some a) = some b) : 1 ≤ hitCount st a b fuel := by
  have hmem : k ∈ (List.range fuel).filter
      (fun k => parentIter st k (some a) = some b) :=
    List.mem_filter.mpr ⟨List.mem_range.mpr hk, by rw [hit]; simp⟩
  cases hfe : (List.range fuel).filter (fun k => parentIter st k (some a) = some b) with
  | nil =>
    rw [hfe] at hmem
    exact absurd hmem (List.not_mem_nil k)
  | cons x xs =>
    unfold hitCount
    rw [hfe]
    simp

theorem find_parentless {st : St} :
    ∀ (n : Nat) (a : String), parentIter st n (some a) = none →
      ∃ k, k < n ∧ ∃ z, parentIter st k (some a) = some z ∧ asmParent st z = none := by
  intro n
  induction n with
  | zero =>
    intro a h
    exact Option.noConfusion h
  | succ n ih =>
    intro a h
    cases hpa : asmParent st a with
    | none => exact ⟨0, Nat.succ_pos n, a, rfl, hpa⟩
    | some p =>
      have h2 : parentIter st n (some p) = none := by
        have h3 : parentIter st (n + 1) (some a) = parentIter st n (some p) := by
          show parentIter st n ((some a).bind (asmParent st)) = _
          rw [show (some a).bind (asmParent st) = some p from hpa]
        rw [← h3]
        exact h
      obtain ⟨k, hk, z, hz, hzp⟩ := ih p h2
      refine ⟨k + 1, by omega, z, ?_, hzp⟩
      show parentIter st k ((some a).bind (asmParent st)) = some z
      rw [show (some a).bind (asmParent st) = some p from hpa]
      exact hz

theorem iter_mem_keys {keys0 catKeys0 : List String} {st : St}
    (inv : BuildInv keys0 catKeys0 st) :
    ∀ (k : Nat) (a z : String), a ∈ keys0 → parentIter st k (some a) = some z →
      z ∈ keys0 := by
  intro k
  induction k with
  | zero =>
    intro a z ha h
    injection h with h1
    exact h1 ▸ ha
  | succ k ih =>
    intro a z ha h
    cases hpa : asmParent st a with
    | none =>
      rw [show parentIter st (k + 1) (some a) = parentIter st k none from by
        show parentIter st k ((some a).bind (asmParent st)) = _
        rw [show (some a).bind (asmParent st) = none from hpa]] at h
      rw [parentIter_none] at h
      exact Option.noConfusion h
    | some p =>
      have hp : p ∈ keys0 := inv.pk (.asm a) p hpa
      refine ih p z hp ?_
      have h3 : parentIter st (k + 1) (some a) = parentIter st k (some p) := by
        show parentIter st k ((some a).bind (asmParent st)) = _
        rw [show (some a).bind (asmParent st) = some p from hpa]
      rw [← h3]
      exact h

theorem parentless_eq_root {st : St} {root : String}
    (hroots : (st.asms.filter (fun p => p.2.parent = none)).map Prod.fst = [root])
    {z : String} (hz : z ∈ st.asms.map Prod.fst) (hzp : asmParent st z = none) :
    z = root := by
  obtain ⟨d, hd⟩ := Option.isSome_iff_exists.mp ((alookup_isSome_iff z st.asms).mpr hz)
  have hdp : d.parent = none := by
    have h2 : (alookup z st.asms).bind (·.parent) = none := hzp
    rw [hd] at h2
    exact h2
  have hmem : (z, d) ∈ st.asms := alookup_mem hd
  have hmf : z ∈ (st.asms.filter (fun p => p.2.parent = none)).map Prod.fst := by
    refine List.mem_map.mpr ⟨(z, d), ?_, rfl⟩
    exact List.mem_filter.mpr ⟨hmem, by simp [hdp]⟩
  rw [hroots] at hmf
  exact List.mem_singleton.mp hmf

theorem hitCount_root_eq_one {keys0 catKeys0 : List String} {st : St} {root : String}
    (inv : BuildInv keys0 catKeys0 st)
    (hroots : (st.asms.filter (fun p => p.2.parent = none)).map Prod.fst = [root])
    {a : String} (ha : a ∈ keys0) :
    hitCount st a root (keys0.length + 1) = 1 := by
  have hdead : parentIter st (keys0.length + 1) (some a) = none := inv.term a
  obtain ⟨k, hk, z, hz, hzp⟩ := find_parentless (keys0.length + 1) a hdead
  have hzk : z ∈ keys0 := iter_mem_keys inv k a z ha hz
  have hzr : z = root := by
    refine parentless_eq_root hroots ?_ hzp
    rw [show st.asms.map Prod.fst = keys0 from inv.keysEq]
    exact hzk
  subst hzr
  exact Nat.le_antisymm (hitCount_le_one inv.term a z _) (hitCount_pos hk hz)

theorem count_asm_assemblies {keys0 catKeys0 : List String} {st : St}
    (inv : BuildInv keys0 catKeys0 st)
    (hasmty : ∀ x p, asmParent st x = some p → asmType st x = some "assembly")
    (b x : String) :
    (BOM.assemblies st b).count (.asm x) =
      (if asmParent st x = some b then 1 else 0) := by
  unfold BOM.assemblies
  rw [count_filter_ite]
  by_cases hx : x ∈ keys0
  · have hcan : canonical st (.asm x) := by
      show x ∈ st.asms.map Prod.fst
      rw [show st.asms.map Prod.fst = keys0 from inv.keysEq]
      exact hx
    have htc := inv.tc (.asm x) hcan b
    rw [htc]
    by_cases hp : asmParent st x = some b
    · have hty : asmType st x = some "assembly" := hasmty x b hp
      have hpred : BOM.childType st (.asm x) = some "assembly" := hty
      have hp' : parentOf st (.asm x) = some b := hp
      rw [if_pos (by simp [hpred]), if_pos hp', if_pos hp]
    · have hp' : ¬ parentOf st (.asm x) = some b := hp
      rw [if_neg hp', if_neg hp]
      simp
  · have hp : ¬ asmParent st x = some b := by
      intro hh
      refine hx ?_
      rw [← show st.asms.map Prod.fst = keys0 from inv.keysEq]
      exact asmParent_isSome_mem hh
    rw [if_neg hp]
    have hnm : Child.asm x ∉ childrenOf st b := by
      intro hmem
      have hcan := inv.refs b _ hmem
      refine hx ?_
      rw [← show st.asms.map Prod.fst = keys0 from inv.keysEq]
      exact hcan
    rw [List.count_eq_zero.mpr hnm]
    simp

theorem assemblies_members {keys0 catKeys0 : List String} {st : St}
    (inv : BuildInv keys0 catKeys0 st) (b : String) :
    ∀ c ∈ BOM.assemblies st b,
      ∃ x, c = .asm x ∧ x ∈ keys0 ∧ asmParent st x = some b := by
  intro c hc
  have hmem : c ∈ childrenOf st b := List.mem_of_mem_filter hc
  have hpred : BOM.childType st c = some "assembly" := by
    have h2 := List.of_mem_filter hc
    simpa using h2
  have hcan := inv.refs b c hmem
  cases c with
  | item pn =>
    exfalso
    obtain ⟨d, hd⟩ := Option.isSome_iff_exists.mp
      ((alookup_isSome_iff pn st.catalog).mpr hcan)
    have hty := inv.ctypes pn d hd
    have h2 : BOM.childType st (.item pn) = some "part" := by
      show (alookup pn st.catalog).map (·.item_type) = some "part"
      rw [hd]
      simp [hty]
    rw [h2] at hpred
    exact absurd hpred (by decide)
  | link lid t =>
    exfalso
    obtain ⟨l, hl, ht⟩ := hcan
    have htk : l.target ∈ catKeys0 := inv.ltgt lid l hl
    have htk2 : t ∈ st.catalog.map Prod.fst := by
      rw [show st.catalog.map Prod.fst = catKeys0 from inv.catKeysEq]
      exact ht ▸ htk
    obtain ⟨d, hd⟩ := Option.isSome_iff_exists.mp
      ((alookup_isSome_iff t st.catalog).mpr htk2)
    have hty := inv.ctypes t d hd
    have h2 : BOM.childType st (.link lid t) = some "part" := by
      show (alookup t st.catalog).map (·.item_type) = some "part"
      rw [hd]
      simp [hty]
    rw [h2] at hpred
    exact absurd hpred (by decide)
  | asm x =>
    refine ⟨x, rfl, ?_, ?_⟩
    · rw [← show st.asms.map Prod.fst = keys0 from inv.keysEq]
      exact hcan
    · have htc := inv.tc (.asm x) hcan b
      have hcnt : 0 < (childrenOf st b).count (.asm x) := List.count_pos_iff.mpr hmem
      by_cases hp : parentOf st (.asm x) = some b
      · exact hp
      · rw [htc, if_neg hp] at hcnt
        exact absurd hcnt (by omega)

theorem hitCount_eq_sum_ind (st : St) (a x : String) (fuel : Nat) :
    hitCount st a x fuel =
      ((List.range fuel).map
        (fun k => if parentIter st k (some a) = some x then 1 else 0)).sum := by
  unfold hitCount
  rw [length_filter_eq_sum_indicator]
  refine congrArg List.sum (List.map_congr_left ?_)
  intro k _
  by_cases h : parentIter st k (some a) = some x
  · simp [h]
  · simp [h]

theorem hitPar_eq_sum_ind (st : St) (a b : String) (fuel : Nat) :
    hitPar st a b fuel =
      ((List.range fuel).map
        (fun k => if (parentIter st k (some a)).bind (asmParent st) = some b
          then 1 else 0)).sum := by
  unfold hitPar
  rw [length_filter_eq_sum_indicator]
  refine congrArg List.sum (List.map_congr_left ?_)
  intro k _
  by_cases h : (parentIter st k (some a)).bind (asmParent st) = some b
  · simp [h]
  · simp [h]

theorem hitPar_eq_sum_assemblies {keys0 catKeys0 : List String} {st : St}
    (inv : BuildInv keys0 catKeys0 st)
    (hasmty : ∀ x p, asmParent st x = some p → asmType st x = some "assembly")
    (a b : String) (fuel : Nat) :
    hitPar st a b fuel =
      ((BOM.assemblies st b).map (fun c =>
        match c with
        | .asm x => hitCount st a x fuel
        | _ => 0)).sum := by
  rw [hitPar_eq_sum_ind]
  have hpoint : ∀ k ∈ List.range fuel,
      (if (parentIter st k (some a)).bind (asmParent st) = some b then 1 else 0) =
      ((BOM.assemblies st b).map (fun c =>
        match c with
        | Child.asm x => if parentIter st k (some a) = some x then 1 else 0
        | _ => 0)).sum := by
    intro k _
    cases hik : parentIter st k (some a) with
    | none =>
      rw [show ((none : Option String).bind (asmParent st)) = none from rfl]
      rw [if_neg (by intro hh; exact Option.noConfusion hh)]
      symm
      refine List.sum_eq_zero ?_
      intro v hv
      obtain ⟨c, hcm, hval⟩ := List.mem_map.mp hv
      cases c with
      | asm x =>
        rw [← hval]
        show (if (none : Option String) = some x then 1 else 0) = 0
        rw [if_neg (by intro hh; exact Option.noConfusion hh)]
      | item pn =>
        rw [← hval]
      | link lid t =>
        rw [← hval]
    | some x0 =>
      rw [show ((some x0).bind (asmParent st)) = asmParent st x0 from rfl]
      rw [← count_asm_assemblies inv hasmty b x0]
      rw [count_eq_sum_indicator]
      refine congrArg List.sum (List.map_congr_left ?_)
      intro c hcm
      cases c with
      | asm x =>
        show (if Child.asm x = Child.asm x0 then 1 else 0) =
          (if (some x0 : Option String) = some x then 1 else 0)
        by_cases hxx : x = x0
        · subst hxx
          rw [if_pos rfl, if_pos rfl]
        · rw [if_neg (by intro hh; injection hh with h2; exact hxx h2),
            if_neg (fun hh => hxx (Option.some.inj hh).symm)]
      | item pn =>
        show (if Child.item pn = Child.asm x0 then 1 else 0) = (0 : Nat)
        rw [if_neg (by intro hh; exact Child.noConfusion hh)]
      | link lid t =>
        show (if Child.link lid t = Child.asm x0 then 1 else 0) = (0 : Nat)
        rw [if_neg (by intro hh; exact Child.noConfusion hh)]
  rw [List.map_congr_left hpoint]
  rw [list_sum_comm (fun k c =>
    match c with
    | Child.asm x => if parentIter st k (some a) = some x then 1 else 0
    | _ => 0) (List.range fuel) (BOM.assemblies st b)]
  refine congrArg List.sum (List.map_congr_left ?_)
  intro c hcm
  cases c with
  | asm x =>
    show ((List.range fuel).map
      (fun k => if parentIter st k (some a) = some x then 1 else 0)).sum =
      hitCount st a x fuel
    rw [hitCount_eq_sum_ind]
  | item pn =>
    show ((List.range fuel).map (fun k => (0 : Nat))).sum = 0
    refine List.sum_eq_zero ?_
    intro v hv
    obtain ⟨k, _, hval⟩ := List.mem_map.mp hv
    exact hval.symm
  | link lid t =>
    show ((List.range fuel).map (fun k => (0 : Nat))).sum = 0
    refine List.sum_eq_zero ?_
    intro v hv
    obtain ⟨k, _, hval⟩ := List.mem_map.mp hv
    exact hval.symm

theorem flatCount {keys0 catKeys0 : List String} {st : St}
    (inv : BuildInv keys0 catKeys0 st) (hnd : keys0.Nodup)
    (hasmty : ∀ x p, asmParent st x = some p → asmType st x = some "assembly")
    (P : Child → Bool)
    (hPpart : ∀ b ∈ keys0, ∀ c ∈ childrenOf st b, P c = true →
      BOM.childType st c = some "part") :
    ∀ (fuel : Nat) (b : String), b ∈ keys0 →
      ((BOM.flatFuel st fuel b).filter P).length =
        (keys0.map (fun a => ((childrenOf st a).filter P).length *
          hitCount st a b fuel)).sum := by
  intro fuel
  induction fuel with
  | zero =>
    intro b _
    symm
    refine List.sum_eq_zero ?_
    intro v hv
    obtain ⟨a, _, hval⟩ := List.mem_map.mp hv
    rw [← hval]
    show ((childrenOf st a).filter P).length * hitCount st a b 0 = 0
    have h0 : hitCount st a b 0 = 0 := by
      unfold hitCount
      simp
    rw [h0, Nat.mul_zero]
  | succ fuel ih =>
    intro b hb
    rw [show BOM.flatFuel st (fuel + 1) b = BOM.parts st b ++
      ((BOM.assemblies st b).map (fun c =>
        match c with
        | Child.asm a => BOM.flatFuel st fuel a
        | _ => [])).flatten from rfl]
    rw [List.filter_append, List.length_append]
    have hparts : ((BOM.parts st b).filter P).length =
        ((childrenOf st b).filter P).length := by
      have himp : ∀ c ∈ childrenOf st b, P c = true →
          decide (BOM.childType st c = some "part") = true := by
        intro c hc hP
        simp [hPpart b hb c hc hP]
      exact congrArg List.length (filter_filter_of_imp P _ (childrenOf st b) himp)
    rw [length_filter_flatten, List.map_map]
    have hchild : ∀ c ∈ BOM.assemblies st b,
        ((fun l => (l.filter P).length) ∘ (fun c =>
          match c with
          | Child.asm a => BOM.flatFuel st fuel a
          | _ => [])) c =
        (fun c => match c with
          | Child.asm x => (keys0.map (fun a' =>
              ((childrenOf st a').filter P).length * hitCount st a' x fuel)).sum
          | _ => 0) c := by
      intro c hcm
      obtain ⟨x, rfl, hxk, hxp⟩ := assemblies_members inv b c hcm
      show ((BOM.flatFuel st fuel x).filter P).length = _
      rw [ih x hxk]
    rw [List.map_congr_left hchild]
    have hsplit : ∀ a ∈ keys0,
        ((childrenOf st a).filter P).length * hitCount st a b (fuel + 1) =
        (if a = b then ((childrenOf st a).filter P).length else 0) +
          ((childrenOf st a).filter P).length * hitPar st a b fuel := by
      intro a _
      rw [hitCount_split, Nat.mul_add]
      by_cases hab : a = b
      · rw [if_pos hab, if_pos hab, Nat.mul_one]
      · rw [if_neg hab, if_neg hab, Nat.mul_zero]
    rw [List.map_congr_left hsplit, sum_map_add]
    rw [sum_if_single (fun a => ((childrenOf st a).filter P).length) keys0 b hnd hb]
    have hsum2 : ∀ a ∈ keys0,
        ((childrenOf st a).filter P).length * hitPar st a b fuel =
        ((BOM.assemblies st b).map (fun c =>
          match c with
          | Child.asm x => ((childrenOf st a).filter P).length * hitCount st a x fuel
          | _ => 0)).sum := by
      intro a _
      rw [hitPar_eq_sum_assemblies inv hasmty a b fuel, mul_sum_list]
      refine congrArg List.sum (List.map_congr_left ?_)
      intro c _
      cases c with
      | asm x => rfl
      | item pn =>
        show ((childrenOf st a).filter P).length * 0 = 0
        exact Nat.mul_zero _
      | link lid t =>
        show ((childrenOf st a).filter P).length * 0 = 0
        exact Nat.mul_zero _
    rw [List.map_congr_left hsum2]
    rw [list_sum_comm (fun a c =>
      match c with
      | Child.asm x => ((childrenOf st a).filter P).length * hitCount st a x fuel
      | _ => 0) keys0 (BOM.assemblies st b)]
    rw [hparts]
    congr 1
    refine congrArg List.sum (List.map_congr_left ?_)
    intro c hcm
    obtain ⟨x, rfl, hxk, hxp⟩ := assemblies_members inv b c hcm
    rfl

theorem sum_map_one {α : Type} : ∀ l : List α, (l.map (fun _ => (1 : Nat))).sum = l.length := by
  intro l
  induction l with
  | nil => rfl
  | cons a t ih =>
    rw [List.map_cons, List.sum_cons, ih, List.length_cons]
    omega

theorem sum_counts_eq_length {os : List Child} (hnd : os.Nodup)
    (l : List Child) (hsub : ∀ x ∈ l, x ∈ os) :
    (os.map (fun c => l.count c)).sum = l.length := by
  have h1 : ∀ c ∈ os, l.count c = (l.map (fun x => if x = c then 1 else 0)).sum :=
    fun c _ => count_eq_sum_indicator c l
  rw [List.map_congr_left h1,
    list_sum_comm (fun c x => if x = c then 1 else 0) os l]
  have h2 : ∀ x ∈ l, (os.map (fun c => if x = c then 1 else 0)).sum = 1 := by
    intro x hx
    have h3 : ∀ c ∈ os, (if x = c then 1 else 0) =
        (if c = x then (fun _ : Child => (1 : Nat)) c else 0) := by
      intro c _
      by_cases hcx : c = x
      · rw [if_pos hcx.symm, if_pos hcx]
      · rw [if_neg (fun hh => hcx hh.symm), if_neg hcx]
    rw [List.map_congr_left h3]
    exact sum_if_single (fun _ => 1) os x hnd (hsub x hx)
  rw [List.map_congr_left h2, sum_map_one]

theorem sum_counts_over_keys {keys0 catKeys0 : List String} {st : St}
    (inv : BuildInv keys0 catKeys0 st) (hnd : keys0.Nodup) {c : Child}
    (hcan : canonical st c) :
    (keys0.map (fun a => (childrenOf st a).count c)).sum =
      (if (parentOf st c).isSome then 1 else 0) := by
  have h1 : ∀ a ∈ keys0, (childrenOf st a).count c =
      (if parentOf st c = some a then 1 else 0) :=
    fun a _ => inv.tc c hcan a
  rw [List.map_congr_left h1]
  cases hpc : parentOf st c with
  | none =>
    simp
  | some a0 =>
    have ha0 : a0 ∈ keys0 := inv.pk c a0 hpc
    have h2 : ∀ a ∈ keys0, (if (some a0 : Option String) = some a then 1 else 0) =
        (if a = a0 then (fun _ : String => (1 : Nat)) a else 0) := by
      intro a _
      by_cases haa : a = a0
      · rw [if_pos (by rw [haa]), if_pos haa]
      · rw [if_neg (fun hh => haa (Option.some.inj hh).symm), if_neg haa]
    rw [List.map_congr_left h2, sum_if_single (fun _ => 1) keys0 a0 hnd ha0]
    rfl

theorem flat_filter_total {keys0 catKeys0 : List String} {st : St} {root : String}
    (inv : BuildInv keys0 catKeys0 st) (hnd : keys0.Nodup)
    (hasmty : ∀ x p, asmParent st x = some p → asmType st x = some "assembly")
    (hroots : (st.asms.filter (fun p => p.2.parent = none)).map Prod.fst = [root])
    (hrootk : root ∈ keys0)
    (P : Child → Bool)
    (hPpart : ∀ b ∈ keys0, ∀ c ∈ childrenOf st b, P c = true →
      BOM.childType st c = some "part") :
    ((BOM.flat st root).filter P).length =
      (keys0.map (fun a => ((childrenOf st a).filter P).length)).sum := by
  show ((BOM.flatFuel st (st.asms.length + 1) root).filter P).length = _
  have hlen : st.asms.length = keys0.length := by
    have h1 := congrArg List.length inv.keysEq
    simpa [asmKeys] using h1
  rw [hlen, flatCount inv hnd hasmty P hPpart (keys0.length + 1) root hrootk]
  refine congrArg List.sum (List.map_congr_left ?_)
  intro a ha
  rw [hitCount_root_eq_one inv hroots ha, Nat.mul_one]

theorem flat_total_objects {keys0 catKeys0 : List String} {st : St} {root : String}
    (inv : BuildInv keys0 catKeys0 st) (hnd : keys0.Nodup)
    (hasmty : ∀ x p, asmParent st x = some p → asmType st x = some "assembly")
    (hroots : (st.asms.filter (fun p => p.2.parent = none)).map Prod.fst = [root])
    (hrootk : root ∈ keys0)
    (P : Child → Bool)
    (hPpart : ∀ b ∈ keys0, ∀ c ∈ childrenOf st b, P c = true →
      BOM.childType st c = some "part")
    (os : List Child) (hosnd : os.Nodup)
    (hoscan : ∀ c ∈ os, canonical st c)
    (hmemP : ∀ a ∈ keys0, ∀ x ∈ childrenOf st a, P x = true → x ∈ os)
    (hPos : ∀ c ∈ os, P c = true) :
    ((BOM.flat st root).filter P).length =
      (os.map (fun c => if (parentOf st c).isSome then 1 else 0)).sum := by
  rw [flat_filter_total inv hnd hasmty hroots hrootk P hPpart]
  have hpera : ∀ a ∈ keys0, ((childrenOf st a).filter P).length =
      (os.map (fun c => (childrenOf st a).count c)).sum := by
    intro a ha
    have hsubf : ∀ x ∈ (childrenOf st a).filter P, x ∈ os := by
      intro x hx
      exact hmemP a ha x (List.mem_of_mem_filter hx) (List.of_mem_filter hx)
    rw [← sum_counts_eq_length hosnd ((childrenOf st a).filter P) hsubf]
    refine congrArg List.sum (List.map_congr_left ?_)
    intro c hc
    rw [count_filter_ite, if_pos (hPos c hc)]
  rw [List.map_congr_left hpera,
    list_sum_comm (fun a c => (childrenOf st a).count c) keys0 os]
  refine congrArg List.sum (List.map_congr_left ?_)
  intro c hc
  exact sum_counts_over_keys inv hnd (hoscan c hc)

theorem roots_aset :
    ∀ (l : List (String × BOMData)) (r : String) (pd : Option (List (String × Item))),
    ((aset r (fun d => { d with parts_db := pd }) l).filter
        (fun p => p.2.parent = none)).map Prod.fst
      = (l.filter (fun p => p.2.parent = none)).map Prod.fst := by
  intro l r pd
  induction l with
  | nil => rfl
  | cons q t ih =>
    unfold aset
    rw [List.map_cons]
    by_cases hq : q.1 = r
    · rw [if_pos hq]
      by_cases hp : q.2.parent = none
      · rw [List.filter_cons, List.filter_cons, if_pos (by simpa using hp),
          if_pos (by simpa using hp), List.map_cons, List.map_cons]
        exact congrArg (List.cons q.1) ih
      · rw [List.filter_cons, List.filter_cons, if_neg (by simpa using hp),
          if_neg (by simpa using hp)]
        exact ih
    · rw [if_neg hq]
      by_cases hp : q.2.parent = none
      · rw [List.filter_cons, List.filter_cons, if_pos (by simpa using hp),
          if_pos (by simpa using hp), List.map_cons, List.map_cons]
        exact congrArg (List.cons q.1) ih
      · rw [List.filter_cons, List.filter_cons, if_neg (by simpa using hp),
          if_neg (by simpa using hp)]
        exact ih

theorem nodup_link_map {l : List (Nat × ItemLink)} (hnd : (l.map Prod.fst).Nodup) :
    (l.map (fun p => Child.link p.1 p.2.target)).Nodup := by
  induction l with
  | nil => exact List.nodup_nil
  | cons q t ih =>
    rw [List.map_cons, List.nodup_cons] at hnd ⊢
    obtain ⟨hq, ht⟩ := hnd
    refine ⟨?_, ih ht⟩
    intro hmem
    obtain ⟨p, hp, hpe⟩ := List.mem_map.mp hmem
    have hpe2 : Child.link p.1 p.2.target = Child.link q.1 q.2.target := hpe
    have h1 : p.1 = q.1 := by
      injection hpe2
    exact hq (h1 ▸ List.mem_map_of_mem Prod.fst hp)

theorem sum_pos_exists : ∀ l : List Nat, 1 ≤ l.sum → ∃ x ∈ l, 1 ≤ x := by
  intro l
  induction l with
  | nil => intro h; exact absurd h (by simp)
  | cons a t ih =>
    intro h
    rw [List.sum_cons] at h
    by_cases ha : 1 ≤ a
    · exact ⟨a, List.mem_cons_self a t, ha⟩
    · have ht : 1 ≤ t.sum := by omega
      obtain ⟨x, hx, hx1⟩ := ih ht
      exact ⟨x, List.mem_cons_of_mem a hx, hx1⟩

theorem count_eq_length_filter {α : Type} [DecidableEq α] (l : List α) (a : α) :
    l.count a = (l.filter (fun x => x = a)).length := by
  rw [count_eq_sum_indicator, length_filter_eq_sum_indicator]
  refine congrArg List.sum (List.map_congr_left ?_)
  intro x _
  by_cases hx : x = a
  · rw [if_pos hx, if_pos (by simpa using hx)]
  · rw [if_neg hx, if_neg (by simpa using hx)]

theorem pyDedupAux_nodup_eq {α : Type} [DecidableEq α] :
    ∀ (l seen : List α), l.Nodup → (∀ x ∈ l, x ∉ seen) → pyDedupAux seen l = l := by
  intro l
  induction l with
  | nil => intro seen _ _; rfl
  | cons a t ih =>
    intro seen hnd hsn
    obtain ⟨ha, ht⟩ := List.nodup_cons.mp hnd
    unfold pyDedupAux
    rw [if_neg (hsn a (List.mem_cons_self a t))]
    refine congrArg (List.cons a) (ih (a :: seen) ht ?_)
    intro x hx
    rw [List.mem_cons]
    rintro (h1 | h1)
    · exact ha (h1 ▸ hx)
    · exact hsn x (List.mem_cons_of_mem a hx) h1

theorem pyDedup_of_nodup {α : Type} [DecidableEq α] {l : List α} (h : l.Nodup) :
    pyDedup l = l :=
  pyDedupAux_nodup_eq l [] h (fun x _ => List.not_mem_nil x)

theorem initAsms_keys_eq {tables : List Table} (hnd : (tables.map Table.name).Nodup) :
    (initAsms tables).map Prod.fst = tables.map Table.name := by
  have hIA : initAsms tables = tables.map (fun t => (t.name, mkBOMData t)) := by
    show tables.foldl (fun acc t => ainsert t.name (mkBOMData t) acc) [] = _
    rw [initAsms_eq_of_nodup tables hnd [] (fun t _ => rfl)]
    rfl
  rw [hIA, List.map_map]
  rfl

/-- The link children targeting a PN, as child values, in storage
order. -/
def linksFor (st : St) (pn : String) : List Child :=
  (st.links.filter (fun l => l.2.target = pn)).map (fun p => Child.link p.1 p.2.target)

theorem linksFor_length (st : St) (pn : String) :
    (linksFor st pn).length = linksTargeting st pn := by
  unfold linksFor linksTargeting
  rw [List.length_map]

theorem linksFor_canonical {st : St} (hnd : (st.links.map Prod.fst).Nodup) {pn : String}
    {c : Child} (hc : c ∈ linksFor st pn) :
    canonical st c ∧ ∃ lid, c = Child.link lid pn := by
  obtain ⟨p, hp, hpe⟩ := List.mem_map.mp hc
  have hpl : p ∈ st.links := List.mem_of_mem_filter hp
  have hpt : p.2.target = pn := by simpa using List.of_mem_filter hp
  have hlk : alookup p.1 st.links = some p.2 := nodup_alookup hnd hpl
  rw [← hpe]
  exact ⟨⟨p.2, hlk, rfl⟩, ⟨p.1, by rw [hpt]⟩⟩

theorem linksFor_nodup {st : St} (hnd : (st.links.map Prod.fst).Nodup) (pn : String) :
    (linksFor st pn).Nodup := by
  have hsub : ((st.links.filter (fun l => l.2.target = pn)).map Prod.fst).Sublist
      (st.links.map Prod.fst) := (List.filter_sublist _).map Prod.fst
  exact nodup_link_map (List.Nodup.sublist hsub hnd)

theorem linksFor_mem {st : St} {pn : String} {lid : Nat} {t : String} {l : ItemLink}
    (hlk : alookup lid st.links = some l) (ht : l.target = t) (htpn : t = pn) :
    Child.link lid t ∈ linksFor st pn := by
  refine List.mem_map.mpr ⟨(lid, l), ?_, ?_⟩
  · refine List.mem_filter.mpr ⟨alookup_mem hlk, ?_⟩
    simp [ht, htpn]
  · rw [ht, htpn]

theorem final_env {master : List Row} {tables : List Table} {root : String} {st : St}
    (hok : BOM.from_folder master tables = .ok (root, st)) :
    (st.asms.filter (fun p => p.2.parent = none)).map Prod.fst = [root] ∧
    root ∈ (initAsms tables).map Prod.fst ∧
    (∀ x p, asmParent st x = some p → asmType st x = some "assembly") := by
  obtain ⟨st1, hra, hfr⟩ := from_folder_ok_elim hok
  obtain ⟨hroots1, hst⟩ := findRoot_ok_elim hfr
  obtain ⟨wK, wTP, wPK⟩ := asmWF_from_folder hok
  have hrootsF : (st.asms.filter (fun p => p.2.parent = none)).map Prod.fst = [root] := by
    rw [hst]
    show ((aset root (fun d => { d with parts_db := some st1.catalog }) st1.asms).filter
      (fun p => p.2.parent = none)).map Prod.fst = [root]
    rw [roots_aset]
    exact hroots1
  refine ⟨hrootsF, ?_, ?_⟩
  · have hr1 : root ∈ (st.asms.filter (fun p => p.2.parent = none)).map Prod.fst := by
      rw [hrootsF]
      exact List.mem_singleton.mpr rfl
    obtain ⟨p, hpf, hpe⟩ := List.mem_map.mp hr1
    have hpm : p ∈ st.asms := List.mem_of_mem_filter hpf
    have hr2 : root ∈ st.asms.map Prod.fst := hpe ▸ List.mem_map_of_mem Prod.fst hpm
    exact wK ▸ hr2
  · intro x p hx
    have hxk : x ∈ st.asms.map Prod.fst := asmParent_isSome_mem hx
    rw [wTP x (wK ▸ hxk), if_pos (by rw [hx]; rfl)]

theorem sum_ind_linksFor {st : St}
    (hlat : ∀ lid t, canonical st (.link lid t) → (parentOf st (.link lid t)).isSome = true)
    (hnd : (st.links.map Prod.fst).Nodup) (pn : String) :
    ((linksFor st pn).map (fun c => if (parentOf st c).isSome then 1 else 0)).sum
      = linksTargeting st pn := by
  have h1 : ∀ c ∈ linksFor st pn,
      (if (parentOf st c).isSome then 1 else 0) = (fun _ : Child => (1 : Nat)) c := by
    intro c hc
    obtain ⟨hcan, lid, hce⟩ := linksFor_canonical hnd hc
    rw [hce] at hcan ⊢
    rw [if_pos (hlat lid pn hcan)]
  rw [List.map_congr_left h1, sum_map_one, linksFor_length]

theorem childType_item_part {keys0 catKeys0 : List String} {st : St}
    (inv : BuildInv keys0 catKeys0 st) {pn : String} (h : pn ∈ st.catalog.map Prod.fst) :
    BOM.childType st (.item pn) = some "part" := by
  obtain ⟨d, hd⟩ := Option.isSome_iff_exists.mp ((alookup_isSome_iff pn st.catalog).mpr h)
  show (alookup pn st.catalog).map (·.item_type) = some "part"
  rw [hd]
  show some d.item_type = some "part"
  rw [inv.ctypes pn d hd]

theorem childType_link_part {keys0 catKeys0 : List String} {st : St}
    (inv : BuildInv keys0 catKeys0 st) {lid : Nat} {t : String} {l : ItemLink}
    (hlk : alookup lid st.links = some l) (hlt : l.target = t) :
    BOM.childType st (.link lid t) = some "part" := by
  have h1 : t ∈ st.catalog.map Prod.fst := by
    have h2 := inv.ltgt lid l hlk
    rw [inv.catKeysEq, ← hlt]
    exact h2
  obtain ⟨d, hd⟩ := Option.isSome_iff_exists.mp ((alookup_isSome_iff t st.catalog).mpr h1)
  show (alookup t st.catalog).map (·.item_type) = some "part"
  rw [hd]
  show some d.item_type = some "part"
  rw [inv.ctypes t d hd]

theorem flat_pn_counts {master : List Row} {tables : List Table} {root : String} {st : St}
    {pn : String}
    (hok : BOM.from_folder master tables = .ok (root, st))
    (hnd : (tables.map Table.name).Nodup)
    (hpn : pn ∉ tables.map Table.name)
    (hN1 : 1 ≤ rowOccurrences tables pn) :
    ((BOM.flat st root).filter (fun c => childPN c = some pn)).length
        = rowOccurrences tables pn ∧
    ((BOM.flat st root).filter (fun c => c = Child.item pn)).length = 1 ∧
    ((BOM.flat st root).filter (isLinkPN pn)).length = rowOccurrences tables pn - 1 := by
  have inv := buildInv_from_folder hok
  have hkeys := initAsms_keys_eq hnd
  have hpn0 : pn ∉ (initAsms tables).map Prod.fst := by
    rw [hkeys]
    exact hpn
  have hnd0 : ((initAsms tables).map Prod.fst).Nodup := initAsms_keys_nodup tables
  obtain ⟨hacct, htrig, hlat⟩ := acct_from_folder hok hpn0
  have hsum := sum_rowCount_init master hnd pn
  have hNsum : ownedBit st pn + linksTargeting st pn = rowOccurrences tables pn := by
    rw [hacct, hsum]
  have howned : ownedBit st pn = 1 := by
    refine htrig ?_
    have h2 : 1 ≤ (((initAsms tables).map Prod.fst).map
        (fun b => rowCountAt (initSt master tables) b pn)).sum := by
      rw [hsum]
      exact hN1
    obtain ⟨x, hx, hx1⟩ := sum_pos_exists _ h2
    obtain ⟨b, hb, hbe⟩ := List.mem_map.mp hx
    have hbe2 : rowCountAt (initSt master tables) b pn = x := hbe
    exact ⟨b, hb, by rw [hbe2]; exact hx1⟩
  have hpnc : pn ∈ st.catalog.map Prod.fst := by
    rw [← alookup_isSome_iff]
    cases hl : alookup pn st.catalog with
    | none =>
      have : ownedBit st pn = 0 := by
        unfold ownedBit itemParent
        rw [hl]
        rfl
      rw [this] at howned
      exact Nat.noConfusion howned
    | some d => rfl
  have hitem : (parentOf st (Child.item pn)).isSome = true := by
    by_cases hi : (itemParent st pn).isSome
    · exact hi
    · exact absurd howned (by unfold ownedBit; rw [if_neg hi]; exact fun hh => Nat.noConfusion hh)
  obtain ⟨hroots, hrootk, hasmty⟩ := final_env hok
  have hcanItem : canonical st (Child.item pn) := hpnc
  -- occurrence count: the Leaf Item plus every stored alias targeting pn
  have hnlk : (Child.item pn :: linksFor st pn).Nodup := by
    rw [List.nodup_cons]
    refine ⟨?_, linksFor_nodup inv.lnd pn⟩
    intro hmem
    obtain ⟨_, lid, hce⟩ := linksFor_canonical inv.lnd hmem
    exact Child.noConfusion hce
  have hcan1 : ∀ c ∈ Child.item pn :: linksFor st pn, canonical st c := by
    intro c hc
    rcases List.mem_cons.mp hc with h1 | h1
    · rw [h1]; exact hcanItem
    · exact (linksFor_canonical inv.lnd h1).1
  have hmemP1 : ∀ a ∈ (initAsms tables).map Prod.fst, ∀ x ∈ childrenOf st a,
      (fun c => decide (childPN c = some pn)) x = true →
      x ∈ Child.item pn :: linksFor st pn := by
    intro a _ x hx hPx
    have hxcan := inv.refs a x hx
    cases x with
    | item pn2 =>
      have h2 : pn2 = pn := by simpa [childPN] using hPx
      rw [h2]
      exact List.mem_cons_self _ _
    | link lid t =>
      have h2 : t = pn := by simpa [childPN] using hPx
      obtain ⟨l, hlk, hlt⟩ := hxcan
      exact List.mem_cons_of_mem _ (linksFor_mem hlk hlt h2)
    | asm a2 =>
      simp [childPN] at hPx
  have hPos1 : ∀ c ∈ Child.item pn :: linksFor st pn,
      (fun c => decide (childPN c = some pn)) c = true := by
    intro c hc
    rcases List.mem_cons.mp hc with h1 | h1
    · rw [h1]; simp [childPN]
    · obtain ⟨_, lid, hce⟩ := linksFor_canonical inv.lnd h1
      rw [hce]
      simp [childPN]
  have hPpart1 : ∀ b ∈ (initAsms tables).map Prod.fst, ∀ c ∈ childrenOf st b,
      (fun c => decide (childPN c = some pn)) c = true →
      BOM.childType st c = some "part" := by
    intro b _ c hc hPc
    have hccan := inv.refs b c hc
    cases c with
    | item pn2 => exact childType_item_part inv hccan
    | link lid t =>
      obtain ⟨l, hlk, hlt⟩ := hccan
      exact childType_link_part inv hlk hlt
    | asm a2 => simp [childPN] at hPc
  have hres1 := flat_total_objects inv hnd0 hasmty hroots hrootk
    (fun c => decide (childPN c = some pn)) hPpart1
    (Child.item pn :: linksFor st pn) hnlk hcan1 hmemP1 hPos1
  have hsum1 : ((Child.item pn :: linksFor st pn).map
      (fun c => if (parentOf st c).isSome then 1 else 0)).sum
      = ownedBit st pn + linksTargeting st pn := by
    rw [List.map_cons, List.sum_cons, sum_ind_linksFor hlat inv.lnd pn, if_pos hitem]
    have hob : ownedBit st pn = 1 := howned
    rw [hob]
  refine ⟨?_, ?_, ?_⟩
  · rw [hres1, hsum1, hNsum]
  · -- the filter keeping only the Leaf Item itself
    have hmemP2 : ∀ a ∈ (initAsms tables).map Prod.fst, ∀ x ∈ childrenOf st a,
        (fun c => decide (c = Child.item pn)) x = true →
        x ∈ [Child.item pn] := by
      intro a _ x _ hPx
      have h2 : x = Child.item pn := by simpa using hPx
      rw [h2]
      exact List.mem_singleton.mpr rfl
    have hPos2 : ∀ c ∈ [Child.item pn],
        (fun c => decide (c = Child.item pn)) c = true := by
      intro c hc
      rw [List.mem_singleton.mp hc]
      simp
    have hPpart2 : ∀ b ∈ (initAsms tables).map Prod.fst, ∀ c ∈ childrenOf st b,
        (fun c => decide (c = Child.item pn)) c = true →
        BOM.childType st c = some "part" := by
      intro b _ c _ hPc
      have h2 : c = Child.item pn := by simpa using hPc
      rw [h2]
      exact childType_item_part inv hpnc
    have hcan2 : ∀ c ∈ [Child.item pn], canonical st c := by
      intro c hc
      rw [List.mem_singleton.mp hc]
      exact hcanItem
    have hres2 := flat_total_objects inv hnd0 hasmty hroots hrootk
      (fun c => decide (c = Child.item pn)) hPpart2
      [Child.item pn] (List.nodup_singleton _) hcan2 hmemP2 hPos2
    rw [hres2, List.map_singleton, List.sum_singleton, if_pos hitem]
  · -- the filter keeping only the aliases
    have hmemP3 : ∀ a ∈ (initAsms tables).map Prod.fst, ∀ x ∈ childrenOf st a,
        isLinkPN pn x = true → x ∈ linksFor st pn := by
      intro a _ x hx hPx
      have hxcan := inv.refs a x hx
      cases x with
      | item pn2 => exact absurd hPx (by simp [isLinkPN])
      | link lid t =>
        have h2 : t = pn := by simpa [isLinkPN] using hPx
        obtain ⟨l, hlk, hlt⟩ := hxcan
        exact linksFor_mem hlk hlt h2
      | asm a2 => exact absurd hPx (by simp [isLinkPN])
    have hPos3 : ∀ c ∈ linksFor st pn, isLinkPN pn c = true := by
      intro c hc
      obtain ⟨_, lid, hce⟩ := linksFor_canonical inv.lnd hc
      rw [hce]
      simp [isLinkPN]
    have hPpart3 : ∀ b ∈ (initAsms tables).map Prod.fst, ∀ c ∈ childrenOf st b,
        isLinkPN pn c = true → BOM.childType st c = some "part" := by
      intro b _ c hc hPc
      have hccan := inv.refs b c hc
      cases c with
      | item pn2 => exact absurd hPc (by simp [isLinkPN])
      | link lid t =>
        obtain ⟨l, hlk, hlt⟩ := hccan
        exact childType_link_part inv hlk hlt
      | asm a2 => exact absurd hPc (by simp [isLinkPN])
    have hres3 := flat_total_objects inv hnd0 hasmty hroots hrootk
      (isLinkPN pn) hPpart3
      (linksFor st pn) (linksFor_nodup inv.lnd pn)
      (fun c hc => (linksFor_canonical inv.lnd hc).1) hmemP3 hPos3
    rw [hres3, sum_ind_linksFor hlat inv.lnd pn]
    omega

theorem flat_count_one {master : List Row} {tables : List Table} {root : String} {st : St}
    (hok : BOM.from_folder master tables = .ok (root, st))
    {c : Child} (hc : c ∈ BOM.flat st root) :
    (BOM.flat st root).count c = 1 := by
  have inv := buildInv_from_folder hok
  have hnd0 : ((initAsms tables).map Prod.fst).Nodup := initAsms_keys_nodup tables
  obtain ⟨hroots, hrootk, hasmty⟩ := final_env hok
  obtain ⟨b2, hcb2⟩ := mem_flatFuel (st.asms.length + 1) root c hc
  have hcpart : BOM.childType st c = some "part" := by
    simpa using List.of_mem_filter hcb2
  have hcch : c ∈ childrenOf st b2 := List.mem_of_mem_filter hcb2
  have hccan := inv.refs b2 c hcch
  have hattach : (parentOf st c).isSome = true := by
    have h1 := inv.tc c hccan b2
    have h2 : 0 < (childrenOf st b2).count c := List.count_pos_iff.mpr hcch
    by_cases hp : parentOf st c = some b2
    · rw [hp]
      rfl
    · rw [if_neg hp] at h1
      rw [h1] at h2
      exact absurd h2 (by omega)
  have hmemP : ∀ a ∈ (initAsms tables).map Prod.fst, ∀ x ∈ childrenOf st a,
      (fun x => decide (x = c)) x = true → x ∈ [c] := by
    intro a _ x _ hPx
    have h2 : x = c := by simpa using hPx
    rw [h2]
    exact List.mem_singleton.mpr rfl
  have hPos : ∀ x ∈ [c], (fun x => decide (x = c)) x = true := by
    intro x hx
    rw [List.mem_singleton.mp hx]
    simp
  have hPpart : ∀ b ∈ (initAsms tables).map Prod.fst, ∀ x ∈ childrenOf st b,
      (fun x => decide (x = c)) x = true → BOM.childType st x = some "part" := by
    intro b _ x _ hPx
    have h2 : x = c := by simpa using hPx
    rw [h2]
    exact hcpart
  have hcanS : ∀ x ∈ [c], canonical st x := by
    intro x hx
    rw [List.mem_singleton.mp hx]
    exact hccan
  have hres := flat_total_objects inv hnd0 hasmty hroots hrootk
    (fun x => decide (x = c)) hPpart [c] (List.nodup_singleton c) hcanS hmemP hPos
  rw [count_eq_length_filter, hres, List.map_singleton, List.sum_singleton, if_pos hattach]

theorem flat_nodup {master : List Row} {tables : List Table} {root : String} {st : St}
    (hok : BOM.from_folder master tables = .ok (root, st)) :
    (BOM.flat st root).Nodup := by
  rw [List.nodup_iff_count_le_one]
  intro a
  by_cases ha : a ∈ BOM.flat st root
  · rw [flat_count_one hok ha]
  · rw [List.count_eq_zero_of_not_mem ha]
    exact Nat.zero_le 1

theorem quantities_flat_eq {master : List Row} {tables : List Table} {root : String} {st : St}
    (hok : BOM.from_folder master tables = .ok (root, st)) :
    BOM.quantities st root = (BOM.flat st root).map (fun c => (c, 1)) := by
  unfold BOM.quantities
  rw [pyDedup_of_nodup (flat_nodup hok)]
  refine List.map_congr_left ?_
  intro c hc
  rw [flat_count_one hok hc]

/-- Claim C2 (amended): for a part identifier `pn` that is not an
assembly name and appears in `N >= 2` assembly rows of a successful
build (over tables with distinct names), flattening the root yields
exactly `N` children bearing that identifier; exactly one of them is
the original Leaf Item and the other `N - 1` are Item Aliases all
targeting that same Leaf Item.  But the Quantity Report is keyed by
object identity (identity-based hashing of the flattened objects), so
an alias and its target Leaf Item never share a count entry: the report
lists every flattened object — each of those `N` occurrences included —
with a count of exactly `1`, rather than mapping the identifier to the
aggregate count `N`. -/
theorem c2_amended (master : List Row) (tables : List Table) (root : String) (st : St)
    (pn : String)
    (hok : BOM.from_folder master tables = .ok (root, st))
    (hnd : (tables.map Table.name).Nodup)
    (hpn : pn ∉ tables.map Table.name)
    (hN : 2 ≤ rowOccurrences tables pn) :
    ((BOM.flat st root).filter (fun c => childPN c = some pn)).length
        = rowOccurrences tables pn ∧
    ((BOM.flat st root).filter (fun c => c = Child.item pn)).length = 1 ∧
    ((BOM.flat st root).filter (isLinkPN pn)).length = rowOccurrences tables pn - 1 ∧
    BOM.quantities st root = (BOM.flat st root).map (fun c => (c, 1)) := by
  obtain ⟨h1, h2, h3⟩ := flat_pn_counts hok hnd hpn (by omega)
  exact ⟨h1, h2, h3, quantities_flat_eq hok⟩

theorem c2_amended_witness :
    BOM.from_folder exA_master exA_tables = .ok ("TOP", exA_st) ∧
    2 ≤ rowOccurrences exA_tables "P1" ∧
    (((BOM.flat exA_st "TOP").filter (fun c => childPN c = some "P1")).length
        = rowOccurrences exA_tables "P1" ∧
      ((BOM.flat exA_st "TOP").filter (fun c => c = Child.item "P1")).length = 1 ∧
      ((BOM.flat exA_st "TOP").filter (isLinkPN "P1")).length
        = rowOccurrences exA_tables "P1" - 1 ∧
      BOM.quantities exA_st "TOP" = (BOM.flat exA_st "TOP").map (fun c => (c, 1))) :=
  ⟨rfl, by decide,
    c2_amended exA_master exA_tables "TOP" exA_st "P1" rfl (by decide) (by decide) (by decide)⟩
